import Mathlib

/-!
# outlaws-core widget layer: GUI.h

A shallow embedding of the widget helpers of `GUI.h`.

Conventions of the embedding:
* A C++ `float` is the rational number it stands for. Every `float` operation of `GUI.h`
  rounds its exact result to binary32 with `f32` (round to nearest, ties to even, with
  gradual underflow); values beyond the largest finite `float`, infinities and NaN are not
  modelled. The axis value of `Controller_HandleEvent` is kept as the exact quotient.
* C++ `int` values are integers (`Int`); where the source mixes `int` with `uint` the
  32-bit conversions are written out with `toU32` and `toI32`. The sum of `setButtonCount`
  wraps at 32 bits (`wrapI32`), and the loop counter of `flowCountTotalSize` has no value
  past `INT_MAX`.
* A C `char` is a byte, held as the `Char` with the code of the byte; `char` is signed, as
  on the platforms of the sources, so that the bytes from 128 on convert to negative ints.
* `std::string` is a list of characters, `vector` and `deque` are lists.
* `std::lock_guard` is not modelled: every operation runs to completion on one thread.
* An operation whose C++ behaviour is undefined on some input (indexing an empty
  container, division by zero in integers) returns `none` there.
-/

namespace Outlaws

/-! ## Scalars and small vectors -/

/-- A `std::string`, as its sequence of characters. -/
abbrev Str := List Char

/-- The type `float2`: a pair of floats. -/
structure float2 where
  x : ℚ
  y : ℚ
  deriving DecidableEq

/-- The type `int2`: a pair of ints. -/
structure int2 where
  x : Int
  y : Int
  deriving DecidableEq

/-- Rounding to the nearest integer, a tie going to the even neighbour: the rounding of a
significand in IEEE 754 arithmetic. -/
def roundEven (q : ℚ) : Int :=
  if q - (Int.floor q : ℚ) < 1 / 2 then Int.floor q
  else if 1 / 2 < q - (Int.floor q : ℚ) then Int.floor q + 1
  else if Int.floor q % 2 = 0 then Int.floor q
  else Int.floor q + 1

/-- The distance between neighbouring binary32 values at the magnitude of `q > 0`:
`2 ^ (e - 23)` for `2 ^ e <= q < 2 ^ (e + 1)` (24 bits of significand), and `2 ^ (-149)`
below the smallest normal value `2 ^ (-126)`. -/
def ulp32 (q : ℚ) : ℚ := (2 : ℚ) ^ (max (Int.log 2 q) (-126) - 23)

/-- The binary32 value nearest to `q > 0`, a tie going to the even significand. -/
def f32pos (q : ℚ) : ℚ := (roundEven (q / ulp32 q) : ℚ) * ulp32 q

/-- The result of a C++ `float` operation whose exact result is `q`: the nearest binary32
value, a tie going to the even significand. -/
def f32 (q : ℚ) : ℚ :=
  if q = 0 then 0 else if 0 < q then f32pos q else -f32pos (-q)

/-- Conversion of an `int` to `uint` (32 bits). -/
def toU32 (i : Int) : Nat := (i % 2 ^ 32).toNat

/-- Conversion of a `uint` or `size_t` value to `int` (32 bits, two's complement). -/
def toI32 (n : Nat) : Int :=
  if n % 2 ^ 32 < 2 ^ 31 then ((n % 2 ^ 32 : Nat) : Int) else ((n % 2 ^ 32 : Nat) : Int) - 2 ^ 32

/-- The value a 32-bit `int` register holds for the exact result `i` of an `int` addition or
subtraction: `i` itself inside the range of `int`, and the two's-complement wrap outside
(where the C++ standard leaves the operation undefined). -/
def wrapI32 (i : Int) : Int := toI32 (toU32 i)

/-- Modelled from the spec: the helper `floor_int` is not part of the sources at hand; the
spec reads it as `floor`, the largest integer not above its argument (a `float`, whose floor
is taken to fit an `int`). -/
def floor_int (f : ℚ) : Int := Int.floor f

/-- Modelled from the spec: the helper `clamp(v, mn, mx)` is not part of the sources at hand;
it bounds `v` from below by `mn` and then from above by `mx`. -/
def clamp (v mn mx : Int) : Int := min (max v mn) mx

/-! ## WidgetBase and OptionSlider -/

/-- The struct `WidgetBase`. -/
structure WidgetBase where
  position : float2 := ⟨0, 0⟩
  size : float2 := ⟨0, 0⟩
  hovered : Bool := false
  active : Bool := true
  alpha : ℚ := 1
  deriving DecidableEq

/-- The struct `OptionSlider` (colour fields left out). -/
structure OptionSlider extends WidgetBase where
  pressed : Bool := false
  values : Int := 10
  value : Int := 0
  hoveredValue : Int := -1
  allowBinary : Bool := true
  deriving DecidableEq

/-- `int floatToValue(float v) const { return clamp(floor_int(v * values), 0, values-1); }`
The int `values` is converted to `float` for the product, and the product is a `float`. -/
def OptionSlider.floatToValue (s : OptionSlider) (v : ℚ) : Int :=
  clamp (floor_int (f32 (v * f32 (s.values : ℚ)))) 0 (s.values - 1)

/-- `void setValueFloat(float v) { value = floatToValue(v); }` -/
def OptionSlider.setValueFloat (s : OptionSlider) (v : ℚ) : OptionSlider :=
  { s with value := s.floatToValue v }

/-- `float getValueFloat() const { return (float) value / (values-1); }`
Both ints are converted to `float`, and the quotient is a `float`. -/
def OptionSlider.getValueFloat (s : OptionSlider) : ℚ :=
  f32 (f32 (s.value : ℚ) / f32 ((s.values - 1 : Int) : ℚ))

/-! ## Scrollbar, ButtonBase and ButtonSelector -/

/-- The struct `Scrollbar` (colour fields and the parent pointer left out). -/
structure Scrollbar extends WidgetBase where
  first : Int := 0
  lines : Int := 0
  steps : Int := 0
  pressed : Bool := false
  sfirst : ℚ := 0
  deriving DecidableEq

/-- `int last() const { return min(first + lines, steps); }` -/
def Scrollbar.last (s : Scrollbar) : Int := min (s.first + s.lines) s.steps

/-- The struct `ButtonBase`; `keys` is the array `int keys[4]`, a `uint` colour is a natural
number (`kGUIFg = 0xf0909090`, `kGUIFgActive = 0xffffffff`, `kGUIBg = 0xb0202020`). -/
structure ButtonBase extends WidgetBase where
  keys : List Int := [0, 0, 0, 0]
  tooltip : Str := []
  pressed : Bool := false
  visible : Bool := true
  index : Int := -1
  ident : Int := 0
  defaultLineColor : Nat := 0xf0909090
  hoveredLineColor : Nat := 0xffffffff
  defaultBGColor : Nat := 0xb0202020
  subAlpha : ℚ := 1
  deriving DecidableEq

/-- The struct `ButtonSelector`; the vector of button pointers is the list of the buttons
pointed to. -/
structure ButtonSelector extends WidgetBase where
  buttons : List ButtonBase := []
  scrollbar : Scrollbar := {}
  dims : int2 := ⟨3, 3⟩
  selected : Int := 0
  deriving DecidableEq

/-- The loop of `setButtons`: `ptr[i]->index = i; buttons.push_back(ptr[i]);` for `i < count`. -/
def ButtonSelector.pushButtons (buttons ptr : List ButtonBase) (count : Nat) : List ButtonBase :=
  (List.range count).foldl
    (fun acc i => acc ++ [{ ptr.getD i {} with index := (i : Int) }]) buttons

/-- The template `ButtonSelector::setButtons(T *ptr, uint count)`:
```
for (int i=0; i<count; i++) { ptr[i]->index = i; buttons.push_back(ptr[i]); }
scrollbar.lines = dims.y;
scrollbar.steps = (count + dims.x-1) / dims.x;
scrollbar.active = scrollbar.steps >= count;
```
`count` is a `uint`, so the sum, the division and the comparison are unsigned 32-bit
operations. The result is `none` when `ptr` has fewer than `count` entries, when the `int`
counter would overflow, or when `dims.x` is zero. -/
def ButtonSelector.setButtons (bs : ButtonSelector) (ptr : List ButtonBase) (count : Nat) :
    Option ButtonSelector :=
  if count ≤ ptr.length ∧ count < 2 ^ 31 ∧ bs.dims.x ≠ 0 then
    let steps : Int := toI32 (((count + toU32 bs.dims.x + (2 ^ 32 - 1)) % 2 ^ 32) / toU32 bs.dims.x)
    some { bs with
      buttons := ButtonSelector.pushButtons bs.buttons ptr count
      scrollbar := { bs.scrollbar with
        lines := bs.dims.y
        steps := steps
        active := decide (count ≤ toU32 steps) } }
  else none

/-! ## TextInputBase and TextInputCommandLine -/

/-- The struct `TextInputBase` (colour fields and the mutex left out). Its own `active` flag
hides the one of `WidgetBase`, which is kept under `widget`. Container sizes are taken to
fit an `int`. -/
structure TextInputBase where
  widget : WidgetBase := {}
  lines : List Str := []
  textSize : ℚ := 12
  fixedSize : Bool := false
  scrollbar : Scrollbar := {}
  sizeChars : int2 := ⟨80, 2⟩
  startChars : int2 := ⟨0, 0⟩
  cursor : int2 := ⟨0, 0⟩
  active : Bool := false
  locked : Bool := false
  forceActive : Bool := false
  deriving DecidableEq

/-- The constructor `TextInputBase() { lines.push_back(string()); }`. -/
def TextInputBase.create : TextInputBase :=
  let b : TextInputBase := {}
  { b with lines := b.lines ++ [[]] }

/-- The method `TextInputBase::getText`:
```
string s;
for (uint i=0; i<lines.size(); i++) {
    s += lines[i];
    if (i != lines.size()-1)
        s += "\n";
}
return s;
```
-/
def TextInputBase.getText (b : TextInputBase) : Str :=
  (List.range b.lines.length).foldl
    (fun s i =>
      let s1 := s ++ b.lines.getD i []
      if i ≠ b.lines.length - 1 then s1 ++ ['\n'] else s1) []

/-- Modelled from the spec: `TextInputBase::setText(const char* text, bool setSize)` is only
declared in GUI.h, its body is not part of the sources at hand. The spec describes the
buffer as the ordered sequence of the line strings of the text, separated by newline
characters: the lines become the pieces of `text` between its newline characters. -/
def TextInputBase.setText (b : TextInputBase) (text : Str) : TextInputBase :=
  { b with lines := text.splitOn '\n' }

/-- The struct `TextInputCommandLine::Command`; the two function pointers and the data
pointer are kept as numbers. -/
structure Command where
  name : Str := []
  func : Nat := 0
  comp : Nat := 0
  data : Nat := 0
  description : Str := []
  deriving DecidableEq

/-- The struct `TextInputCommandLine`; the `std::map` of commands is the list of its
key and value pairs. -/
structure TextInputCommandLine extends TextInputBase where
  commandHistory : List Str := []
  currentCommand : Str := []
  lastSearch : Str := []
  historyIndex : Int := 0
  commands : List (Str × Command) := []
  prompt : Str := ['^', '2', '>', '^', '7', ' ']
  deriving DecidableEq

/-- The method `TextInputCommandLine::getLineText`:
```
const string &line = lines[lines.size()-1];
return line.size() > prompt.size() ? line.substr(prompt.size()) : string();
```
-/
def TextInputCommandLine.getLineText (c : TextInputCommandLine) : Option Str :=
  match c.lines.get? (c.lines.length - 1) with
  | none => none
  | some line => some (if line.length > c.prompt.length then line.drop c.prompt.length else [])

/-- The method `TextInputCommandLine::setLineText`:
```
lines[lines.size()-1] = prompt + text;
cursor = int2(lines[lines.size()-1].size(), lines.size()-1);
```
-/
def TextInputCommandLine.setLineText (c : TextInputCommandLine) (text : Str) :
    Option TextInputCommandLine :=
  if c.lines.length = 0 then none
  else
    let lines1 := c.lines.set (c.lines.length - 1) (c.prompt ++ text)
    some { c with
      lines := lines1
      cursor := ⟨(((lines1.getD (lines1.length - 1) []).length : Nat) : Int),
        ((lines1.length - 1 : Nat) : Int)⟩ }

/-- The method `TextInputCommandLine::pushHistory`:
```
if (commandHistory.empty() || commandHistory.back() != str)
    commandHistory.push_back(str);
historyIndex = (int)commandHistory.size();
```
-/
def TextInputCommandLine.pushHistory (c : TextInputCommandLine) (str : Str) :
    TextInputCommandLine :=
  let h :=
    if c.commandHistory = [] ∨ c.commandHistory.getLast? ≠ some str then c.commandHistory ++ [str]
    else c.commandHistory
  { c with commandHistory := h, historyIndex := ((h.length : Nat) : Int) }

/-! ## ButtonLayout -/

/-- The struct `ButtonLayout`. -/
structure ButtonLayout where
  startPos : float2 := ⟨0, 0⟩
  buttonCount : int2 := ⟨1, 1⟩
  buttonSize : float2 := ⟨0, 0⟩
  buttonFootprint : float2 := ⟨0, 0⟩
  pos : float2 := ⟨0, 0⟩
  index : int2 := ⟨0, 0⟩
  deriving DecidableEq

/-- The method `ButtonLayout::setButtonCount`:
`buttonCount = int2(width, (count + width - 1) / width);`
with the division of C++ on `int`, which rounds towards zero, and the sum and the difference
held in 32 bits; `none` when `width` is zero and for the quotient `INT_MIN / -1`. -/
def ButtonLayout.setButtonCount (bl : ButtonLayout) (count width : Int) : Option ButtonLayout :=
  if width = 0 then none
  else if width = -1 ∧ wrapI32 (wrapI32 (count + width) - 1) = -(2 ^ 31) then none
  else some { bl with
    buttonCount := ⟨width, Int.tdiv (wrapI32 (wrapI32 (count + width) - 1)) width⟩ }

/-- Modelled from the spec: the helper `isBetween(v, lo, hi)` is not part of the sources at
hand. The spec allows "up to 4 bound input codes" and `setReturnKeys` binds four, so the
range includes both ends. -/
def isBetween (v lo hi : Int) : Bool := decide (lo ≤ v ∧ v ≤ hi)

/-- The conversion of a `char` to `int`: a `char` is a signed byte, so that the bytes `0..127`
keep their code and the bytes `128..255` become `-128..-1`. -/
def charToInt (ch : Char) : Int :=
  if ch.toNat < 128 then (ch.toNat : Int) else (ch.toNat : Int) - 256

/-- The loop shared by both forms of `setKeys`, over the four slots of `int keys[4]`:
`for (int i = 0; i < arraySize(keys); i++) keys[i] = i < len ? src[i] : 0;` -/
def ButtonBase.fillKeys (keys src : List Int) : List Int :=
  (List.range 4).foldl (fun ks i => ks.set i (if i < src.length then src.getD i 0 else 0)) keys

/-- The method `ButtonBase::setKeys(const char* ks)`:
```
if (!ks || *ks == '\0')
    return;
const int len = strlen(ks);
ASSERT(ks && isBetween(len, 1, (int)arraySize(keys)));
for (int i = 0; i < arraySize(keys); i++) { keys[i] = i < len ? ks[i] : 0; }
```
The argument is `none` for `NULL` and otherwise the characters before the terminating NUL;
`keys[i] = ks[i]` converts the `char` to `int` (`charToInt`).
`ASSERT` reports a failed condition and execution goes on (the sources test the asserted
condition again after an `ASSERT`); the second component tells whether the assertion held. -/
def ButtonBase.setKeys (b : ButtonBase) (ks : Option Str) : ButtonBase × Bool :=
  match ks with
  | none => (b, true)
  | some str =>
    if str = [] then (b, true)
    else
      let len : Int := (str.length : Int)
      ({ b with keys := ButtonBase.fillKeys b.keys (str.map charToInt) },
        isBetween len 1 4)

/-- The method `ButtonBase::setKeys(std::initializer_list<uint> lst)`:
```
ASSERT(isBetween((int)lst.size(), 1, (int)arraySize(keys)));
for (int i = 0; i < arraySize(keys); i++) { keys[i] = i < lst.size() ? *(lst.begin() + i) : 0; }
```
The second component tells whether the assertion held. -/
def ButtonBase.setKeysList (b : ButtonBase) (lst : List Nat) : ButtonBase × Bool :=
  ({ b with keys := ButtonBase.fillKeys b.keys (lst.map toI32) },
    isBetween (lst.length : Int) 1 4)

/-! ## OptionEditor and ColorPicker -/

/-- The enum `OptionEditor::Type`. -/
inductive OptionEditorType where
  | FLOAT
  | INT
  deriving DecidableEq

/-- The external numeric cell an `OptionEditor` points to: a `float` or an `int`. -/
inductive Cell where
  | float (v : ℚ)
  | int (v : Int)
  deriving DecidableEq

/-- The struct `OptionEditor`; `value` is the `void*` with the cell it points to, `none` for
`NULL`. -/
structure OptionEditor where
  slider : OptionSlider := {}
  label : Option Str := none
  tooltip : List Str := []
  type : OptionEditorType := OptionEditorType.FLOAT
  value : Option Cell := none
  start : ℚ := 0
  mult : ℚ := 0
  txt : Str := []
  deriving DecidableEq

/-- The method `OptionEditor::getValueFloat`:
`return ((type == FLOAT) ? *(float*) value : ((float) *(int*) value));`
Reading a cell through a pointer of the other type is not modelled (`none`). -/
def OptionEditor.getValueFloat (e : OptionEditor) : Option ℚ :=
  match e.value with
  | none => none
  | some (Cell.float v) => if e.type = OptionEditorType.FLOAT then some v else none
  | some (Cell.int v) => if e.type = OptionEditorType.FLOAT then none else some (f32 (v : ℚ))

/-- The method `OptionEditor::updateSlider`:
```
slider.setValueFloat((getValueFloat() - start) / mult);
txt = str_format("%s: %s", label, getTxt().c_str());
```
`str_format` and `getTxt` are not part of the sources at hand: `fmt` stands for the text
they produce. The difference and the quotient are `float` operations. -/
def OptionEditor.updateSlider (fmt : OptionEditor → Str) (e : OptionEditor) :
    Option OptionEditor :=
  match e.getValueFloat with
  | none => none
  | some v =>
    let e1 := { e with slider := e.slider.setValueFloat (f32 (f32 (v - e.start) / e.mult)) }
    some { e1 with txt := fmt e1 }

/-- The type `float3`. -/
structure float3 where
  x : ℚ
  y : ℚ
  z : ℚ
  deriving DecidableEq

/-- The struct `ColorPicker`; a `uint` colour is a natural number. -/
structure ColorPicker extends WidgetBase where
  hueSlider : OptionSlider := {}
  initialColor : Nat := 0
  svRectSize : float2 := ⟨0, 0⟩
  svRectPos : float2 := ⟨0, 0⟩
  svDragging : Bool := false
  svHovered : Bool := false
  hsvColor : float3 := ⟨0, 0, 0⟩
  deriving DecidableEq

/-- The method `ColorPicker::setInitialColor`:
```
hsvColor = rgb2hsvf(initial);
hueSlider.setValueFloat(hsvColor.x / 360.f);
initialColor = initial;
```
The conversion `rgb2hsvf` is not part of the sources at hand and is taken as a parameter;
the quotient by `360.f` is a `float` operation. -/
def ColorPicker.setInitialColor (rgb2hsvf : Nat → float3) (p : ColorPicker) (initial : Nat) :
    ColorPicker :=
  let p1 := { p with hsvColor := rgb2hsvf initial }
  let p2 := { p1 with hueSlider := p1.hueSlider.setValueFloat (f32 (p1.hsvColor.x / 360)) }
  { p2 with initialColor := initial }

/-- The constructor `ColorPicker(uint initial=0)`:
`hueSlider.values = 360; setInitialColor(initial);` -/
def ColorPicker.create (rgb2hsvf : Nat → float3) (initial : Nat) : ColorPicker :=
  let p : ColorPicker := {}
  ColorPicker.setInitialColor rgb2hsvf
    { p with hueSlider := { p.hueSlider with values := 360 } } initial

/-! ## The command map of the console -/

/-- Modelled from the spec: the helper `str_tolower` is not part of the sources at hand; it
maps every upper-case letter of the string to its lower-case letter, which is what makes
the matching of command names case-insensitive. -/
def str_tolower (s : Str) : Str := s.map Char.toLower

/-- The lookup `commands.find(key)` of the `std::map`: the command stored under `key`. -/
def mapFind : List (Str × Command) → Str → Option Command
  | [], _ => none
  | (k, c) :: rest, key => if k = key then some c else mapFind rest key

/-- The count `commands.count(key)` of the `std::map`: `1` when `key` has an entry, else `0`. -/
def mapCount (m : List (Str × Command)) (key : Str) : Nat :=
  if (mapFind m key).isSome then 1 else 0

/-- The assignment `commands[key] = c` of the `std::map`: the entry under `key` is replaced
when there is one, and added otherwise. -/
def mapAssign : List (Str × Command) → Str → Command → List (Str × Command)
  | [], key, c => [(key, c)]
  | (k, c0) :: rest, key, c =>
    if k = key then (k, c) :: rest else (k, c0) :: mapAssign rest key c

/-- The method `TextInputCommandLine::registerCommand`:
```
Command c;
c.name = name; c.func = func; c.comp = comp; c.data = data; c.description = desc;
const string lname = str_tolower(name);
ASSERT(!commands.count(lname));
commands[lname] = c;
```
The second component tells whether the assertion held. -/
def TextInputCommandLine.registerCommand (t : TextInputCommandLine) (func comp data : Nat)
    (name desc : Str) : TextInputCommandLine × Bool :=
  let c : Command :=
    { name := name, func := func, comp := comp, data := data, description := desc }
  let lname := str_tolower name
  ({ t with commands := mapAssign t.commands lname c },
    decide (mapCount t.commands lname = 0))

/-- Modelled from the spec: `TextInputCommandLine::getCommand(const string &abbrev)` is only
declared in GUI.h, its body is not part of the sources at hand. The spec resolves a typed
abbreviation in this order: an exact (case-insensitive) name match wins immediately; else,
if exactly one registered name has the abbreviation as its beginning, that command is used;
else (zero or several such names) no command is found. -/
def TextInputCommandLine.getCommand (t : TextInputCommandLine) (abbr : Str) :
    Option Command :=
  let cmd := str_tolower abbr
  match mapFind t.commands cmd with
  | some c => some c
  | none =>
    match t.commands.filter (fun kv => decide (kv.1.take cmd.length = cmd)) with
    | [kv] => some kv.2
    | _ => none

/-! ## Scrolling a row into view -/

/-- Modelled from the spec: `Scrollbar::makeVisible(int row)` is only declared in GUI.h, its
body is not part of the sources at hand. The spec: if `row < first`, set `first = row`; if
`row >= first + lines`, set `first = row - lines + 1`; otherwise no change. -/
def Scrollbar.makeVisible (s : Scrollbar) (row : Int) : Scrollbar :=
  if row < s.first then { s with first := row }
  else if row ≥ s.first + s.lines then { s with first := row - s.lines + 1 }
  else s

/-- The struct `ButtonWindow` (the mutex and the drag pointers left out). -/
structure ButtonWindow extends WidgetBase where
  buttons : List ButtonBase := []
  scrollbar : Scrollbar := {}
  dims : int2 := ⟨2, 8⟩
  dragOffset : float2 := ⟨0, 0⟩
  dragPos : float2 := ⟨0, 0⟩
  deriving DecidableEq

/-- The method `ButtonWindow::scrollfor`: `scrollbar.makeVisible(idx / dims.x);` with the
division of C++ on `int`; `none` when `dims.x` is zero. -/
def ButtonWindow.scrollfor (w : ButtonWindow) (idx : Int) : Option ButtonWindow :=
  if w.dims.x = 0 then none
  else some { w with scrollbar := w.scrollbar.makeVisible (Int.tdiv idx w.dims.x) }

/-! ## MemoryPool (stl_ext.cpp) -/

/-- The CVAR `kMempoolMaxChain`, at the default of its definition:
`static DEFINE_CVAR(int, kMempoolMaxChain, 10);` -/
def kMempoolMaxChain : Int := 10

/-- Modelled from the spec: the declaration of `MemoryPool` is in a header that is not part
of the sources at hand. The fields are those which stl_ext.cpp uses: `pool` is the address
of the block (`0` for `NULL`), `first` is the free list, kept as the addresses of the
chunks reached from `first` through `Chunk::next` (empty for `NULL`). The pointer `next` is
not a field: a pool with the pools that follow it is a list of pools, the head first. A
pool made by `new MemoryPool(element_size)` has no block, no free chunk and `used = 0`. -/
structure MemoryPool where
  element_size : Nat
  count : Nat := 0
  pool : Nat := 0
  first : List Nat := []
  used : Int := 0
  index : Int := 0
  deriving DecidableEq

/-- The outcome of `MemoryPool::allocate`: a chunk, or the exception `std::bad_alloc`, each
with the chain and the `malloc` results left; `stuck` when called on no pool or when the
fuel of the model ran out. -/
inductive AllocResult where
  | ok (ptr : Nat) (chain : List MemoryPool) (env : List Nat)
  | bad_alloc (chain : List MemoryPool) (env : List Nat)
  | stuck
  deriving DecidableEq

/-- The outcome of a call made through `next`, seen from the pool `p` in front. -/
def AllocResult.behind (p : MemoryPool) : AllocResult → AllocResult
  | AllocResult.ok ptr chain env => AllocResult.ok ptr (p :: chain) env
  | AllocResult.bad_alloc chain env => AllocResult.bad_alloc (p :: chain) env
  | AllocResult.stuck => AllocResult.stuck

/-- The chain of an outcome. -/
def AllocResult.chain? : AllocResult → Option (List MemoryPool)
  | AllocResult.ok _ chain _ => some chain
  | AllocResult.bad_alloc chain _ => some chain
  | AllocResult.stuck => none

/-- The do-while loop of `MemoryPool::create`:
```
do {
    pool = (char*)malloc(count * element_size);
    if (!pool)
        count /= 2;
} while (count && !pool);
```
The results of the successive calls of `malloc` are the list `env` (`0` for `NULL`); once
the list is used up every call fails, which halves `count` down to `0`. The result is
`count`, `pool` and the `malloc` results left. -/
def MemoryPool.createLoop : Nat → List Nat → Nat × Nat × List Nat
  | _, [] => (0, 0, [])
  | count, a :: env =>
    if a ≠ 0 then (count, a, env)
    else if count / 2 ≠ 0 then MemoryPool.createLoop (count / 2) env
    else (0, 0, env)

/-- The method `MemoryPool::create(size_t cnt)`:
```
if (pool) return count;
count = cnt;
do { ... } while (count && !pool);
ASSERT(count);
if (!count) return 0;
first = (Chunk*) pool;
for (int i=0; i<count-1; i++)
    ((Chunk*) &pool[i * element_size])->next = (Chunk*) &pool[(i+1) * element_size];
((Chunk*) &pool[(count-1) * element_size])->next = NULL;
return count;
```
The result is the returned count, the pool and the `malloc` results left. -/
def MemoryPool.create (p : MemoryPool) (cnt : Nat) (env : List Nat) :
    Nat × MemoryPool × List Nat :=
  if p.pool ≠ 0 then (p.count, p, env)
  else
    let r := MemoryPool.createLoop cnt env
    if r.1 = 0 then (0, { p with count := 0, pool := r.2.1 }, r.2.2)
    else
      (r.1,
        { p with
          count := r.1
          pool := r.2.1
          first := (List.range r.1).map (fun i => r.2.1 + i * p.element_size) },
        r.2.2)

/-- The method `MemoryPool::allocate`, called on the head of `chain`:
```
if (!first) {
    ASSERT(pool);
    if (!next) {
        if (index+1 >= kMempoolMaxChain) { ASSERT_FAILED(...); throw std::bad_alloc(); }
        next = new MemoryPool(element_size);
        next->index = index+1;
        if (!next->create(count)) { delete next; next = NULL; throw std::bad_alloc(); }
    }
    return next->allocate();
}
Chunk *chunk = first;
first = first->next;
used++;
return (void*) chunk;
```
Each unit of `fuel` pays for one call. -/
def MemoryPool.allocate : Nat → List MemoryPool → List Nat → AllocResult
  | 0, _, _ => AllocResult.stuck
  | _ + 1, [], _ => AllocResult.stuck
  | fuel + 1, p :: rest, env =>
    match p.first with
    | chunk :: more =>
      AllocResult.ok chunk ({ p with first := more, used := p.used + 1 } :: rest) env
    | [] =>
      match rest with
      | [] =>
        if p.index + 1 ≥ kMempoolMaxChain then AllocResult.bad_alloc [p] env
        else
          let made := MemoryPool.create
            { element_size := p.element_size, index := p.index + 1 } p.count env
          if made.1 = 0 then AllocResult.bad_alloc [p] made.2.2
          else AllocResult.behind p (MemoryPool.allocate fuel [made.2.1] made.2.2)
      | q :: more => AllocResult.behind p (MemoryPool.allocate fuel (q :: more) env)

/-- The method `MemoryPool::isInPool`, called on the head of `chain`:
```
if (!pool) return false;
const char *ptr = (char*) pt;
const size_t idx = (ptr - pool) / element_size;
if (idx >= count)
    return next ? next->isInPool(pt) : false;
ASSERT(pool + (idx  * element_size) == ptr);
return true;
```
The difference of the pointers is turned into a `size_t` of 64 bits before the division. -/
def MemoryPool.isInPool : List MemoryPool → Nat → Bool
  | [], _ => false
  | p :: rest, pt =>
    if p.pool = 0 then false
    else if ((((pt : Int) - (p.pool : Int)) % 2 ^ 64).toNat / p.element_size) ≥ p.count then
      MemoryPool.isInPool rest pt
    else true

/-- The method `MemoryPool::deallocate`, called on the head of `chain`:
```
if (!isInPool(ptr)) {
    ASSERT(next);
    if (next) next->deallocate(ptr);
    return;
}
Chunk *chunk = (Chunk*) ptr;
chunk->next = first;
first = chunk;
used--;
```
-/
def MemoryPool.deallocate : List MemoryPool → Nat → List MemoryPool
  | [], _ => []
  | p :: rest, ptr =>
    if MemoryPool.isInPool (p :: rest) ptr then
      { p with first := ptr :: p.first, used := p.used - 1 } :: rest
    else p :: MemoryPool.deallocate rest ptr

/-- The chains that a head pool of index `0` without next pool can come to have through
calls of `allocate` and `deallocate`, whatever `malloc` returns. -/
inductive ChainReachable : List MemoryPool → Prop where
  | start (p : MemoryPool) (h : p.index = 0) : ChainReachable [p]
  | allocate (chain : List MemoryPool) (fuel : Nat) (env : List Nat) (r : AllocResult)
      (chain1 : List MemoryPool) (h : ChainReachable chain)
      (hr : MemoryPool.allocate fuel chain env = r) (hc : r.chain? = some chain1) :
      ChainReachable chain1
  | deallocate (chain : List MemoryPool) (ptr : Nat) (h : ChainReachable chain) :
      ChainReachable (MemoryPool.deallocate chain ptr)

/-- The pools of a chain carry consecutive values of `index`, starting from `k`. -/
def chainIndexed : Int → List MemoryPool → Prop
  | _, [] => True
  | k, p :: rest => p.index = k ∧ chainIndexed (k + 1) rest

/-- A console with the commands "foo" and then "foobar" registered, through
`registerCommand`, on a console without commands. -/
def consoleFooFoobar : TextInputCommandLine :=
  ((({} : TextInputCommandLine).registerCommand 1 0 0 ['f', 'o', 'o'] ['a']).1.registerCommand
    2 0 0 ['f', 'o', 'o', 'b', 'a', 'r'] ['b']).1

/-! ## Button colours, the scalar index of the grid, gamepad axis events -/

/-- The struct `Button` (`textFont` and `style` left out: their defaults are constants that
are not part of the sources at hand); `kGUITextLow = 0xff808080`,
`kGUIBgActive = 0xf0404040`, `kGUIInactive = 0xa0a0a0a0`, `kGUIText = 0xfff0f0f0`,
`kPadDist = 2`. -/
structure Button extends ButtonBase where
  text : Str := []
  subtext : Str := []
  textSize : ℚ := 24
  subtextSize : ℚ := 16
  subtextColor : Nat := 0xff808080
  pressedBGColor : Nat := 0xf0404040
  inactiveLineColor : Nat := 0xa0a0a0a0
  textColor : Nat := 0xfff0f0f0
  inactiveTextColor : Nat := 0xa0a0a0a0
  padding : float2 := ⟨4 * 2, 4 * 2⟩
  deriving DecidableEq

/-- `uint getBGColor() const { return pressed ? pressedBGColor : defaultBGColor; }` -/
def Button.getBGColor (b : Button) : Nat :=
  if b.pressed then b.pressedBGColor else b.defaultBGColor

/-- The method `Button::getFGColor`:
```
return ((!active) ? inactiveLineColor :
        (hovered||selected) ? hoveredLineColor : defaultLineColor);
```
-/
def Button.getFGColor (b : Button) (selected : Bool) : Nat :=
  if !b.active then b.inactiveLineColor
  else if b.hovered || selected then b.hoveredLineColor else b.defaultLineColor

/-- The method `ButtonLayout::getScalarIndex`: `return index.y * buttonCount.x + index.x;` -/
def ButtonLayout.getScalarIndex (bl : ButtonLayout) : Int :=
  bl.index.y * bl.buttonCount.x + bl.index.x

/-- The method `ButtonLayout::setScalarIndex`:
`index = int2(idx % buttonCount.x, idx / buttonCount.x);`
with the remainder and the division of C++ on `int`, which round towards zero; `none` when
`buttonCount.x` is zero. -/
def ButtonLayout.setScalarIndex (bl : ButtonLayout) (idx : Int) : Option ButtonLayout :=
  if bl.buttonCount.x = 0 then none
  else some { bl with index := ⟨Int.tmod idx bl.buttonCount.x, Int.tdiv idx bl.buttonCount.x⟩ }

/-- One line of `findLeadingOne(uint v, int i)` of the shape
`if (v&mask) { i += k; v >>= k; }`, on the pair of `v` and `i`. -/
def findLeadingOneStep (mask k : Nat) (s : Nat × Int) : Nat × Int :=
  if s.1 &&& mask ≠ 0 then (s.1 >>> k, s.2 + (k : Int)) else s

/-- The function `findLeadingOne(uint v, int i)`:
```
if (v&0xffff0000) { i += 16; v >>= 16; }
if (v&0xff00)     { i +=  8; v >>=  8; }
if (v&0xf0)       { i +=  4; v >>=  4; }
if (v&0xc)        { i +=  2; v >>=  2; }
if (v&0x2)        { return i + 1;      }
if (v&0x1)        { return i;          }
return -1;
```
A `uint` is a natural number below `2^32`. -/
def findLeadingOne (v : Nat) (i : Int) : Int :=
  let s := findLeadingOneStep 0xc 2 (findLeadingOneStep 0xf0 4
    (findLeadingOneStep 0xff00 8 (findLeadingOneStep 0xffff0000 16 (v, i))))
  if s.1 &&& 0x2 ≠ 0 then s.2 + 1
  else if s.1 &&& 0x1 ≠ 0 then s.2
  else -1

/-- The function `findLeadingOne(uint64 v)`:
```
return (v&0xffffffff00000000L) ? findLeadingOne((uint) (v>>32), 32) : findLeadingOne((uint)v, 0);
```
A `uint64` is a natural number below `2^64`; the casts to `uint` keep the low 32 bits. -/
def findLeadingOne64 (v : Nat) : Int :=
  if v &&& 0xffffffff00000000 ≠ 0 then findLeadingOne ((v >>> 32) % 2 ^ 32) 32
  else findLeadingOne (v % 2 ^ 32) 0

/-! ## Watch pointers (stl_ext.cpp) -/

/-- Modelled from the spec: the declarations of `watch_ptr_base` and `Watchable` are in a
header that is not part of the sources at hand. A watcher has the three pointers that
stl_ext.cpp uses; a pointer is an address, `0` for `NULL`. A `Watchable` is named by the
address of its member `watch_list`, the head of its list of watchers, which is a
`watch_ptr_base` itself. -/
structure watch_ptr_base where
  ptr : Nat := 0
  next : Nat := 0
  prev : Nat := 0
  deriving DecidableEq

/-- The memory holding the watchers: the `watch_ptr_base` at each address. -/
abbrev WatchHeap := Nat → watch_ptr_base

/-- The memory after a write of the watcher at address `a`. -/
def heapSet (h : WatchHeap) (a : Nat) (n : watch_ptr_base) : WatchHeap :=
  fun b => if b = a then n else h b

/-- The method `watch_ptr_base::unlink`, called on the watcher at address `this`:
```
if (next) next->prev = prev;
if (prev) prev->next = next;
next = NULL;
prev = NULL;
ptr  = NULL;
```
-/
def unlink (h : WatchHeap) (this : Nat) : WatchHeap :=
  let h1 := if (h this).next ≠ 0
    then heapSet h (h this).next { h (h this).next with prev := (h this).prev } else h
  let h2 := if (h1 this).prev ≠ 0
    then heapSet h1 (h1 this).prev { h1 (h1 this).prev with next := (h1 this).next } else h1
  heapSet h2 this { h2 this with next := 0, prev := 0, ptr := 0 }

/-- The method `watch_ptr_base::link(const Watchable* p)`, called on the watcher at address
`this`:
```
ptr = p;
ASSERT(prev == NULL);
ASSERT(next == NULL);
if (p != NULL) {
    prev = &p->watch_list;
    next = p->watch_list.next;
    if (p->watch_list.next)
        p->watch_list.next->prev = this;
    p->watch_list.next = this;
}
```
The second component tells whether both assertions held. -/
def link (h : WatchHeap) (this p : Nat) : WatchHeap × Bool :=
  let h1 := heapSet h this { h this with ptr := p }
  let ok := decide ((h1 this).prev = 0) && decide ((h1 this).next = 0)
  if p ≠ 0 then
    let h2 := heapSet h1 this { h1 this with prev := p }
    let h3 := heapSet h2 this { h2 this with next := (h2 p).next }
    let h4 := if (h3 p).next ≠ 0
      then heapSet h3 (h3 p).next { h3 (h3 p).next with prev := this } else h3
    (heapSet h4 p { h4 p with next := this }, ok)
  else (h1, ok)

/-- The loop of `Watchable::nullReferencesTo`, entered with the pointer `watcher`:
```
for (watch_ptr_base* watcher=watch_list.next; watcher != NULL; watcher = watcher->next) {
    watcher->ptr = NULL;
    if (watcher->prev)
        watcher->prev->next = NULL;
    watcher->prev = NULL;
}
```
Each unit of `fuel` pays for one run of the body; `none` when the fuel runs out before
`watcher` is `NULL`. -/
def nullReferencesLoop : Nat → WatchHeap → Nat → Option WatchHeap
  | fuel, h, watcher =>
    if watcher = 0 then some h
    else
      match fuel with
      | 0 => none
      | fuel1 + 1 =>
        let h1 := heapSet h watcher { h watcher with ptr := 0 }
        let h2 := if (h1 watcher).prev ≠ 0
          then heapSet h1 (h1 watcher).prev { h1 (h1 watcher).prev with next := 0 } else h1
        let h3 := heapSet h2 watcher { h2 watcher with prev := 0 }
        nullReferencesLoop fuel1 h3 (h3 watcher).next

/-- The method `Watchable::nullReferencesTo`, called on the subject whose `watch_list` is at
address `p`. -/
def nullReferencesTo (fuel : Nat) (h : WatchHeap) (p : Nat) : Option WatchHeap :=
  nullReferencesLoop fuel h (h p).next

/-- The watchers at the addresses `ws`, in this order, are the doubly linked list that
hangs off the node at address `before`: each `next` leads to the following watcher, each
`prev` back, and the last `next` is `NULL`. -/
def WatchList (h : WatchHeap) : Nat → List Nat → Prop
  | before, [] => (h before).next = 0
  | before, w :: ws => w ≠ 0 ∧ (h before).next = w ∧ (h w).prev = before ∧ WatchList h w ws

/-! ## invert_image (Graphics.cpp) -/

/-- The body of the inner loop of `invert_image`, on the two indices `top` and `bot`:
```
const uint temp = pix[top];
pix[top] = pix[bot];
pix[bot] = temp;
```
`none` when an index is outside the array. -/
def swapPix (pix : List Nat) (top bot : Int) : Option (List Nat) :=
  if 0 ≤ top ∧ top < (pix.length : Int) ∧ 0 ≤ bot ∧ bot < (pix.length : Int) then
    let temp := pix.getD top.toNat 0
    let pix1 := pix.set top.toNat (pix.getD bot.toNat 0)
    some (pix1.set bot.toNat temp)
  else none

/-- The inner loop of `invert_image` for the row `y`:
```
for (int x=0; x<width; x++) {
    const int top = y * width + x;
    const int bot = (height - y - 1) * width + x;
    ...
}
```
-/
def invertRow (width height : Int) (y : Nat) (pix : List Nat) : Option (List Nat) :=
  (List.range width.toNat).foldlM
    (fun p (x : Nat) =>
      swapPix p ((y : Int) * width + (x : Int)) ((height - (y : Int) - 1) * width + (x : Int)))
    pix

/-- The function `invert_image(uint *pix, int width, int height)`:
`for (int y=0; y<height/2; y++) { for (int x=0; x<width; x++) { ... } }`
with the division of C++ on `int`; `none` when an index is outside the array. -/
def invert_image (pix : List Nat) (width height : Int) : Option (List Nat) :=
  (List.range (Int.tdiv height 2).toNat).foldlM
    (fun p (y : Nat) => invertRow width height y p) pix

/-- The state of `invert_image` in the row `k`, before the column `j`: the rows above `k`
and their mirror rows are flipped, and so are the columns before `j` of the row `k` and of
its mirror row; `orig` is the array at the start. -/
def InvertState (orig : List Nat) (w h k j : Nat) (p : List Nat) : Prop :=
  p.length = w * h ∧
    ∀ x y, x < w → y < h →
      p[y * w + x]? =
        if y < k ∨ h - k ≤ y ∨ ((y = k ∨ y = h - 1 - k) ∧ x < j)
        then orig[(h - 1 - y) * w + x]? else orig[y * w + x]?

/-! ## Theorems -/

/-! ### Rounding to binary32 -/

/-- An integer rounds to itself. -/
theorem roundEven_intCast (n : Int) : roundEven (n : ℚ) = n := by
  simp [roundEven]

/-- Rounding never goes below the floor. -/
theorem floor_le_roundEven (q : ℚ) : Int.floor q ≤ roundEven q := by
  unfold roundEven
  split_ifs <;> omega

/-- Rounding never goes above the floor plus one. -/
theorem roundEven_le_floor_add_one (q : ℚ) : roundEven q ≤ Int.floor q + 1 := by
  unfold roundEven
  split_ifs <;> omega

/-- Rounding to the nearest integer is monotone. -/
theorem roundEven_mono {a b : ℚ} (h : a ≤ b) : roundEven a ≤ roundEven b := by
  have hf : Int.floor a ≤ Int.floor b := Int.floor_mono h
  rcases lt_or_eq_of_le hf with hlt | heq
  · have h1 := roundEven_le_floor_add_one a
    have h2 := floor_le_roundEven b
    omega
  · unfold roundEven
    rw [heq]
    have hab : a - (Int.floor b : ℚ) ≤ b - (Int.floor b : ℚ) := by linarith
    split_ifs <;> first | omega | (exfalso; linarith)

/-- Rounding to the nearest integer moves a number by at most one half. -/
theorem abs_roundEven_sub_le (q : ℚ) : |(roundEven q : ℚ) - q| ≤ 1 / 2 := by
  have h1 : (Int.floor q : ℚ) ≤ q := Int.floor_le q
  have h2 : q < (Int.floor q : ℚ) + 1 := Int.lt_floor_add_one q
  rw [abs_le]
  unfold roundEven
  split_ifs <;> push_cast <;> constructor <;> linarith

/-- The spacing of binary32 values is positive. -/
theorem ulp32_pos (q : ℚ) : 0 < ulp32 q := by
  unfold ulp32
  positivity

/-- Powers of two with integer exponents add their exponents. -/
theorem two_zpow_split (e : ℤ) (k : ℤ) : (2 : ℚ) ^ (e + k) = 2 ^ e * 2 ^ k :=
  zpow_add₀ (by norm_num) e k

/-- A positive number rounds to a binary32 value that is not negative. -/
theorem f32pos_nonneg {q : ℚ} (hq : 0 < q) : 0 ≤ f32pos q := by
  unfold f32pos
  have hu := ulp32_pos q
  have h0 : (0 : ℚ) ≤ q / ulp32 q := by positivity
  have h1 : (0 : Int) ≤ roundEven (q / ulp32 q) :=
    le_trans (Int.floor_nonneg.mpr h0) (floor_le_roundEven _)
  have h2 : (0 : ℚ) ≤ (roundEven (q / ulp32 q) : ℚ) := by exact_mod_cast h1
  positivity

/-- Rounding to binary32 is monotone on the positive numbers: inside one binade by the
monotonicity of `roundEven`, across binades because the power of two between them is a
binary32 value. -/
theorem f32pos_mono {a b : ℚ} (ha : 0 < a) (h : a ≤ b) : f32pos a ≤ f32pos b := by
  have hb : 0 < b := lt_of_lt_of_le ha h
  have hlog : Int.log 2 a ≤ Int.log 2 b := Int.log_mono_right ha h
  have hle : max (Int.log 2 a) (-126) ≤ max (Int.log 2 b) (-126) := max_le_max hlog (le_refl _)
  rcases lt_or_eq_of_le hle with hlt | heq
  · have hea : Int.log 2 a ≤ max (Int.log 2 a) (-126) := le_max_left _ _
    have heb : max (Int.log 2 b) (-126) = Int.log 2 b := by
      apply max_eq_left
      by_contra hc
      have : max (Int.log 2 b) (-126) = -126 := max_eq_right (by omega)
      have h126 : (-126 : ℤ) ≤ max (Int.log 2 a) (-126) := le_max_right _ _
      omega
    generalize hA : max (Int.log 2 a) (-126) = ea at hlt hea
    generalize hB : max (Int.log 2 b) (-126) = eb at hlt heb
    have hua : ulp32 a = 2 ^ (ea - 23) := by unfold ulp32; rw [hA]
    have hub : ulp32 b = 2 ^ (eb - 23) := by unfold ulp32; rw [hB]
    have hpa : (0 : ℚ) < 2 ^ (ea - 23) := by positivity
    have hpb : (0 : ℚ) < 2 ^ (eb - 23) := by positivity
    have ha2 : a < (2 : ℚ) ^ (ea + 1) := by
      have h1 : a < ((2 : ℕ) : ℚ) ^ (Int.log 2 a + 1) := Int.lt_zpow_succ_log_self (by norm_num) a
      have h2 : ((2 : ℕ) : ℚ) ^ (Int.log 2 a + 1) ≤ ((2 : ℕ) : ℚ) ^ (ea + 1) :=
        zpow_le_zpow_right₀ (by norm_num) (by omega)
      have h3 := lt_of_lt_of_le h1 h2
      simpa using h3
    have hb2 : (2 : ℚ) ^ eb ≤ b := by
      have h1 : ((2 : ℕ) : ℚ) ^ (Int.log 2 b) ≤ b := Int.zpow_log_le_self (by norm_num) hb
      rw [heb]
      simpa using h1
    have hsa : (2 : ℚ) ^ (ea + 1) = 2 ^ (ea - 23) * 2 ^ (24 : ℤ) := by
      rw [← two_zpow_split]; congr 1; ring
    have hsb : (2 : ℚ) ^ eb = 2 ^ (eb - 23) * 2 ^ (23 : ℤ) := by
      rw [← two_zpow_split]; congr 1; ring
    have h24 : ((((2 : Int) ^ 24 : Int) : ℚ)) = 2 ^ (24 : ℤ) := by norm_num
    have h23 : ((((2 : Int) ^ 23 : Int) : ℚ)) = 2 ^ (23 : ℤ) := by norm_num
    have hra : roundEven (a / 2 ^ (ea - 23)) ≤ 2 ^ 24 := by
      have h1 : a / 2 ^ (ea - 23) ≤ (((2 : Int) ^ 24 : Int) : ℚ) := by
        rw [div_le_iff₀ hpa, h24, mul_comm, ← hsa]
        exact le_of_lt ha2
      have h2 := roundEven_mono h1
      rwa [roundEven_intCast] at h2
    have hrb : 2 ^ 23 ≤ roundEven (b / 2 ^ (eb - 23)) := by
      have h1 : (((2 : Int) ^ 23 : Int) : ℚ) ≤ b / 2 ^ (eb - 23) := by
        rw [le_div_iff₀ hpb, h23, mul_comm, ← hsb]
        exact hb2
      have h2 := roundEven_mono h1
      rwa [roundEven_intCast] at h2
    have hra2 : (roundEven (a / 2 ^ (ea - 23)) : ℚ) ≤ 2 ^ (24 : ℤ) := by
      have : ((roundEven (a / 2 ^ (ea - 23)) : Int) : ℚ) ≤ (((2 : Int) ^ 24 : Int) : ℚ) := by
        exact_mod_cast hra
      rwa [h24] at this
    have hrb2 : (2 : ℚ) ^ (23 : ℤ) ≤ (roundEven (b / 2 ^ (eb - 23)) : ℚ) := by
      have : (((2 : Int) ^ 23 : Int) : ℚ) ≤ ((roundEven (b / 2 ^ (eb - 23)) : Int) : ℚ) := by
        exact_mod_cast hrb
      rwa [h23] at this
    unfold f32pos
    rw [hua, hub]
    calc (roundEven (a / 2 ^ (ea - 23)) : ℚ) * 2 ^ (ea - 23)
        ≤ 2 ^ (24 : ℤ) * 2 ^ (ea - 23) := mul_le_mul_of_nonneg_right hra2 (le_of_lt hpa)
      _ = 2 ^ (ea + 1) := by rw [hsa, mul_comm]
      _ ≤ 2 ^ eb := zpow_le_zpow_right₀ (by norm_num) (by omega)
      _ = 2 ^ (23 : ℤ) * 2 ^ (eb - 23) := by rw [hsb, mul_comm]
      _ ≤ (roundEven (b / 2 ^ (eb - 23)) : ℚ) * 2 ^ (eb - 23) :=
          mul_le_mul_of_nonneg_right hrb2 (le_of_lt hpb)
  · have hu : ulp32 a = ulp32 b := by unfold ulp32; rw [heq]
    unfold f32pos
    rw [hu]
    have hpb := ulp32_pos b
    have h1 : a / ulp32 b ≤ b / ulp32 b := div_le_div_of_nonneg_right h (le_of_lt hpb)
    have h2 : (roundEven (a / ulp32 b) : ℚ) ≤ (roundEven (b / ulp32 b) : ℚ) := by
      exact_mod_cast roundEven_mono h1
    exact mul_le_mul_of_nonneg_right h2 (le_of_lt hpb)

/-- Rounding to binary32 is monotone. -/
theorem f32_mono {a b : ℚ} (h : a ≤ b) : f32 a ≤ f32 b := by
  unfold f32
  by_cases ha0 : a = 0
  · subst ha0
    by_cases hb0 : b = 0
    · simp [hb0]
    · have hb : 0 < b := lt_of_le_of_ne h (Ne.symm hb0)
      simp only [if_true, if_neg hb0, if_pos hb]
      exact f32pos_nonneg hb
  · by_cases ha : 0 < a
    · have hb : 0 < b := lt_of_lt_of_le ha h
      rw [if_neg ha0, if_pos ha, if_neg (ne_of_gt hb), if_pos hb]
      exact f32pos_mono ha h
    · have ha1 : 0 < -a := by
        have : a < 0 := lt_of_le_of_ne (not_lt.mp ha) ha0
        linarith
      rw [if_neg ha0, if_neg ha]
      by_cases hb0 : b = 0
      · rw [if_pos hb0]
        have := f32pos_nonneg ha1
        linarith
      · by_cases hb : 0 < b
        · rw [if_neg hb0, if_pos hb]
          have h1 := f32pos_nonneg ha1
          have h2 := f32pos_nonneg hb
          linarith
        · have hb1 : 0 < -b := by
            have : b < 0 := lt_of_le_of_ne (not_lt.mp hb) hb0
            linarith
          rw [if_neg hb0, if_neg hb]
          have := f32pos_mono hb1 (by linarith : -b ≤ -a)
          linarith

/-- Zero is a binary32 value. -/
theorem f32_zero : f32 0 = 0 := by simp [f32]

/-- Rounding to binary32 commutes with the change of sign. -/
theorem f32_neg (q : ℚ) : f32 (-q) = -f32 q := by
  unfold f32
  by_cases h0 : q = 0
  · simp [h0]
  · by_cases hp : 0 < q
    · have hn : ¬ (0 < -q) := by linarith
      have hn0 : ¬ (-q = 0) := by simpa using h0
      rw [if_neg hn0, if_neg hn, if_neg h0, if_pos hp, neg_neg]
    · have hlt : q < 0 := lt_of_le_of_ne (not_lt.mp hp) h0
      have hn : 0 < -q := by linarith
      have hn0 : ¬ (-q = 0) := by simpa using h0
      rw [if_neg hn0, if_pos hn, if_neg h0, if_neg hp, neg_neg]

/-- On the positive numbers `f32` is `f32pos`. -/
theorem f32_of_pos {q : ℚ} (hq : 0 < q) : f32 q = f32pos q := by
  unfold f32
  rw [if_neg (ne_of_gt hq), if_pos hq]

/-- The binary32 value of a number of the normal range from its binade: for
`2 ^ e <= q < 2 ^ (e + 1)` the significand `q / 2 ^ (e - 23)` is rounded to an integer. -/
theorem f32_eval {q : ℚ} (e : ℤ) (he : -126 ≤ e) (h1 : (2 : ℚ) ^ e ≤ q)
    (h2 : q < (2 : ℚ) ^ (e + 1)) :
    f32 q = (roundEven (q / 2 ^ (e - 23)) : ℚ) * 2 ^ (e - 23) := by
  have hq : 0 < q := lt_of_lt_of_le (by positivity) h1
  have hlog : Int.log 2 q = e := by
    have ha : e ≤ Int.log 2 q := by
      rw [← Int.zpow_le_iff_le_log (by norm_num) hq]
      simpa using h1
    have hb : Int.log 2 q < e + 1 := by
      rw [← Int.lt_zpow_iff_log_lt (by norm_num) hq]
      simpa using h2
    omega
  rw [f32_of_pos hq]
  unfold f32pos ulp32
  rw [hlog, max_eq_left he]

/-- A number `m * 2 ^ k` with a significand `m` below `2 ^ 24` and an exponent `k` of at
least `-149` is a binary32 value. -/
theorem f32_of_dyadic (m : ℕ) (k : ℤ) (hm : m < 2 ^ 24) (hk : -149 ≤ k) :
    f32 ((m : ℚ) * 2 ^ k) = (m : ℚ) * 2 ^ k := by
  rcases Nat.eq_zero_or_pos m with h0 | hpos
  · subst h0
    simp [f32_zero]
  · have hmq : (0 : ℚ) < (m : ℚ) := by exact_mod_cast hpos
    have hq : (0 : ℚ) < (m : ℚ) * 2 ^ k := by positivity
    have hlog : Int.log 2 ((m : ℚ) * 2 ^ k) < k + 24 := by
      rw [← Int.lt_zpow_iff_log_lt (by norm_num) hq]
      have h1 : (m : ℚ) < 2 ^ (24 : ℤ) := by
        have : (m : ℚ) < ((2 ^ 24 : ℕ) : ℚ) := by exact_mod_cast hm
        have h24 : (((2 ^ 24 : ℕ)) : ℚ) = 2 ^ (24 : ℤ) := by norm_num
        rwa [h24] at this
      have h2 : ((2 : ℕ) : ℚ) ^ (k + 24) = 2 ^ (24 : ℤ) * 2 ^ k := by
        rw [Nat.cast_ofNat, two_zpow_split, mul_comm]
      rw [h2]
      exact mul_lt_mul_of_pos_right h1 (by positivity)
    rw [f32_of_pos hq]
    unfold f32pos ulp32
    generalize hE : max (Int.log 2 ((m : ℚ) * 2 ^ k)) (-126) - 23 = E
    have hEk : E ≤ k := by
      rcases max_cases (Int.log 2 ((m : ℚ) * 2 ^ k)) (-126) with ⟨h1, _⟩ | ⟨h1, _⟩ <;> omega
    obtain ⟨n, hn⟩ : ∃ n : ℕ, k = E + (n : ℤ) := ⟨(k - E).toNat, by omega⟩
    have hE0 : (2 : ℚ) ^ E ≠ 0 := by positivity
    have hdiv : (m : ℚ) * 2 ^ k / 2 ^ E = (((m : Int) * 2 ^ n : Int) : ℚ) := by
      rw [hn, two_zpow_split, zpow_natCast]
      field_simp
      ring
    rw [hdiv, roundEven_intCast, ← hdiv]
    field_simp

/-- A natural number up to `2 ^ 24` is a binary32 value. -/
theorem f32_natCast (n : ℕ) (hn : n ≤ 2 ^ 24) : f32 (n : ℚ) = (n : ℚ) := by
  rcases Nat.lt_or_ge n (2 ^ 24) with h | h
  · have := f32_of_dyadic n 0 h (by norm_num)
    simpa using this
  · have hn2 : n = 2 ^ 24 := le_antisymm hn h
    have := f32_of_dyadic (2 ^ 23) 1 (by norm_num) (by norm_num)
    subst hn2
    have h2 : (((2 ^ 23 : ℕ)) : ℚ) * 2 ^ (1 : ℤ) = (((2 ^ 24 : ℕ)) : ℚ) := by norm_num
    rwa [h2] at this

/-- An integer of magnitude up to `2 ^ 24` is a binary32 value: the conversion of such an
`int` to `float` is exact. -/
theorem f32_intCast (n : Int) (h1 : -(2 ^ 24) ≤ n) (h2 : n ≤ 2 ^ 24) :
    f32 (n : ℚ) = (n : ℚ) := by
  rcases Int.le_total 0 n with hpos | hneg
  · obtain ⟨m, rfl⟩ := Int.eq_ofNat_of_zero_le hpos
    have hm : m ≤ 2 ^ 24 := by exact_mod_cast h2
    simpa using f32_natCast m hm
  · obtain ⟨m, hm⟩ := Int.eq_ofNat_of_zero_le (by omega : 0 ≤ -n)
    have hm2 : m ≤ 2 ^ 24 := by
      have : (m : Int) ≤ 2 ^ 24 := by omega
      exact_mod_cast this
    have hn : (n : ℚ) = -((m : ℚ)) := by
      have : n = -(m : Int) := by omega
      rw [this]; push_cast; ring
    rw [hn, f32_neg, f32_natCast m hm2]

/-- One is a binary32 value. -/
theorem f32_one : f32 1 = 1 := by
  simpa using f32_natCast 1 (by norm_num)

/-- In the normal range rounding to binary32 moves a number by at most the fraction
`2 ^ (-24)` of its size. -/
theorem abs_f32_sub_le {q : ℚ} (hq : (2 : ℚ) ^ (-126 : ℤ) ≤ q) :
    |f32 q - q| ≤ q / 2 ^ 24 := by
  have hq0 : 0 < q := lt_of_lt_of_le (by positivity) hq
  have hlog : -126 ≤ Int.log 2 q := by
    rw [← Int.zpow_le_iff_le_log (by norm_num) hq0]
    simpa using hq
  have hle : ((2 : ℕ) : ℚ) ^ (Int.log 2 q) ≤ q := Int.zpow_log_le_self (by norm_num) hq0
  rw [Nat.cast_ofNat] at hle
  rw [f32_of_pos hq0]
  unfold f32pos ulp32
  rw [max_eq_left hlog]
  generalize Int.log 2 q = e at hle
  have hu : (0 : ℚ) < 2 ^ (e - 23) := by positivity
  have hr := abs_roundEven_sub_le (q / 2 ^ (e - 23))
  have hsplit : (2 : ℚ) ^ e = 2 ^ (e - 23) * 2 ^ (23 : ℤ) := by
    rw [← two_zpow_split]; congr 1; ring
  have heq : (roundEven (q / 2 ^ (e - 23)) : ℚ) * 2 ^ (e - 23) - q
      = ((roundEven (q / 2 ^ (e - 23)) : ℚ) - q / 2 ^ (e - 23)) * 2 ^ (e - 23) := by
    field_simp
  rw [heq, abs_mul, abs_of_pos hu]
  have h3 : |(roundEven (q / 2 ^ (e - 23)) : ℚ) - q / 2 ^ (e - 23)| * 2 ^ (e - 23)
      ≤ 1 / 2 * 2 ^ (e - 23) := mul_le_mul_of_nonneg_right hr (le_of_lt hu)
  have h4 : (1 : ℚ) / 2 * 2 ^ (e - 23) ≤ q / 2 ^ 24 := by
    rw [le_div_iff₀ (by positivity)]
    have : (2 : ℚ) ^ (23 : ℤ) = 8388608 := by norm_num
    rw [hsplit, this] at hle
    norm_num
    linarith
  exact le_trans h3 h4

/-- A number `m * 2 ^ k` with a significand `m` up to `2 ^ 24` and an exponent `k` of at
least `-149` is a binary32 value. -/
theorem f32_of_dyadic_le (m : ℕ) (k : ℤ) (hm : m ≤ 2 ^ 24) (hk : -149 ≤ k) :
    f32 ((m : ℚ) * 2 ^ k) = (m : ℚ) * 2 ^ k := by
  rcases Nat.lt_or_ge m (2 ^ 24) with h | h
  · exact f32_of_dyadic m k h hk
  · have hm2 : m = 2 ^ 24 := le_antisymm hm h
    have h1 := f32_of_dyadic (2 ^ 23) (k + 1) (by norm_num) (by omega)
    have h2 : (((2 ^ 23 : ℕ)) : ℚ) * 2 ^ (k + 1) = (m : ℚ) * 2 ^ k := by
      rw [hm2, two_zpow_split]
      norm_num
      ring
    rwa [h2] at h1

/-- Rounding to binary32 gives a binary32 value: rounding it again changes nothing. -/
theorem f32_idem (q : ℚ) : f32 (f32 q) = f32 q := by
  have hpos : ∀ r : ℚ, 0 < r → f32 (f32pos r) = f32pos r := by
    intro r hr
    have hu : (0 : ℚ) < 2 ^ (max (Int.log 2 r) (-126) - 23) := by positivity
    have h0 : (0 : ℚ) ≤ r / 2 ^ (max (Int.log 2 r) (-126) - 23) := by positivity
    have hn0 : (0 : Int) ≤ roundEven (r / 2 ^ (max (Int.log 2 r) (-126) - 23)) :=
      le_trans (Int.floor_nonneg.mpr h0) (floor_le_roundEven _)
    have hlt : r < (2 : ℚ) ^ (max (Int.log 2 r) (-126) + 1) := by
      have h1 : r < ((2 : ℕ) : ℚ) ^ (Int.log 2 r + 1) := Int.lt_zpow_succ_log_self (by norm_num) r
      have h2 : ((2 : ℕ) : ℚ) ^ (Int.log 2 r + 1) ≤ ((2 : ℕ) : ℚ) ^ (max (Int.log 2 r) (-126) + 1) :=
        zpow_le_zpow_right₀ (by norm_num) (by have := le_max_left (Int.log 2 r) (-126); omega)
      simpa using lt_of_lt_of_le h1 h2
    generalize hE : max (Int.log 2 r) (-126) = e at hu h0 hn0 hlt
    have he : -126 ≤ e := by rw [← hE]; exact le_max_right _ _
    have hsplit : (2 : ℚ) ^ (e + 1) = 2 ^ (e - 23) * 2 ^ (24 : ℤ) := by
      rw [← two_zpow_split]; congr 1; ring
    have h24 : ((((2 : Int) ^ 24 : Int) : ℚ)) = 2 ^ (24 : ℤ) := by norm_num
    have hle : roundEven (r / 2 ^ (e - 23)) ≤ 2 ^ 24 := by
      have h1 : r / 2 ^ (e - 23) ≤ (((2 : Int) ^ 24 : Int) : ℚ) := by
        rw [div_le_iff₀ hu, h24, mul_comm, ← hsplit]
        exact le_of_lt hlt
      have h2 := roundEven_mono h1
      rwa [roundEven_intCast] at h2
    obtain ⟨m, hm⟩ := Int.eq_ofNat_of_zero_le hn0
    have hm24 : m ≤ 2 ^ 24 := by
      have : (m : Int) ≤ 2 ^ 24 := by omega
      exact_mod_cast this
    have hval : f32pos r = (m : ℚ) * 2 ^ (e - 23) := by
      unfold f32pos ulp32
      rw [hE, hm]
      norm_cast
    rw [hval]
    exact f32_of_dyadic_le m (e - 23) hm24 (by omega)
  unfold f32
  by_cases h0 : q = 0
  · simp [h0]
  · by_cases hp : 0 < q
    · rw [if_neg h0, if_pos hp]
      have := hpos q hp
      unfold f32 at this
      exact this
    · have hn : 0 < -q := by
        have : q < 0 := lt_of_le_of_ne (not_lt.mp hp) h0
        linarith
      rw [if_neg h0, if_neg hp]
      have h1 := hpos (-q) hn
      have h2 := f32_neg (f32pos (-q))
      unfold f32 at h1 h2
      rw [h2, h1]

/-! ### Slider states -/

/-- An int up to `2 ^ 25 + 1` converts to a `float` of at least the int minus one: the even
integers up to `2 ^ 25` are binary32 values. -/
theorem f32_intCast_ge_pred (n : Int) (h0 : 0 ≤ n) (h1 : n ≤ 2 ^ 25 + 1) :
    (n : ℚ) - 1 ≤ f32 (n : ℚ) := by
  obtain ⟨m, hm⟩ : ∃ m : ℕ, n = 2 * (m : Int) ∨ n = 2 * (m : Int) + 1 :=
    ⟨(n / 2).toNat, by omega⟩
  have hm24 : m ≤ 2 ^ 24 := by
    have : (m : Int) ≤ 2 ^ 24 := by omega
    exact_mod_cast this
  have heven : f32 (2 * (m : ℚ)) = 2 * (m : ℚ) := by
    have h := f32_of_dyadic_le m 1 hm24 (by norm_num)
    have h2 : (m : ℚ) * 2 ^ (1 : ℤ) = 2 * (m : ℚ) := by norm_num; ring
    rwa [h2] at h
  rcases hm with h | h
  · have hq : (n : ℚ) = 2 * (m : ℚ) := by rw [h]; push_cast; ring
    rw [hq, heven]
    linarith
  · have hq : (n : ℚ) = 2 * (m : ℚ) + 1 := by rw [h]; push_cast; ring
    have hmono : f32 (2 * (m : ℚ)) ≤ f32 (n : ℚ) := f32_mono (by rw [hq]; linarith)
    rw [heven] at hmono
    rw [hq] at hmono ⊢
    linarith

/-- Counterexample to C1 as stated: with 33554434 states the conversion of `values` to
`float` gives 33554432, so `floatToValue(1.0)` is 33554432 and not `values - 1`. -/
theorem C1_floatToValue_one_below_last :
    ({ values := 33554434 } : OptionSlider).floatToValue 1 = 33554432 ∧
      ({ values := 33554434 } : OptionSlider).floatToValue 1
        ≠ ({ values := 33554434 } : OptionSlider).values - 1 := by
  have h1 : f32 (33554434 : ℚ) = 33554432 := by
    rw [f32_eval 25 (by norm_num) (by norm_num) (by norm_num)]
    norm_num [roundEven]
  have h2 : f32 (33554432 : ℚ) = 33554432 := by
    rw [f32_eval 25 (by norm_num) (by norm_num) (by norm_num)]
    norm_num [roundEven]
  have hval : ({ values := 33554434 } : OptionSlider).floatToValue 1 = 33554432 := by
    simp only [OptionSlider.floatToValue, floor_int, clamp, Int.cast_ofNat, h1, one_mul, h2]
    norm_num
  refine ⟨hval, ?_⟩
  rw [hval]
  decide

/-- C1, amended: for every OptionSlider with `1 < values <= 33554433` (`2 ^ 25 + 1`),
`floatToValue(1.0)` is `values - 1`, and for every `values > 1`, `floatToValue(0.0)` is `0`.
The product `v * values` is a `float`: from 33554434 states on, the conversion of `values`
can fall below `values - 1`. -/
theorem C1_floatToValue_endpoints (s : OptionSlider) (h : 1 < s.values) :
    (s.values ≤ 33554433 → s.floatToValue 1 = s.values - 1) ∧ s.floatToValue 0 = 0 := by
  constructor
  · intro hle
    have h1 := f32_intCast_ge_pred s.values (by omega) (by omega)
    have h2 : s.values - 1 ≤ Int.floor (f32 (s.values : ℚ)) := by
      rw [Int.le_floor]
      push_cast
      exact h1
    simp only [OptionSlider.floatToValue, floor_int, clamp, one_mul, f32_idem]
    omega
  · simp only [OptionSlider.floatToValue, floor_int, clamp, zero_mul, f32_zero, Int.floor_zero]
    omega

/-- Witness of C1, amended, on the default slider of ten states. -/
theorem C1_floatToValue_endpoints_witness :
    ({ values := 10 } : OptionSlider).floatToValue 1 = 10 - 1 ∧
      ({ values := 10 } : OptionSlider).floatToValue 0 = 0 :=
  ⟨(C1_floatToValue_endpoints { values := 10 } (by decide)).1 (by decide),
    (C1_floatToValue_endpoints { values := 10 } (by decide)).2⟩

/-- C3: for every command history `h` and string `s`, `pushHistory(s)` appends `s` to `h`
exactly when `h` is empty or its last entry differs from `s`, and otherwise leaves `h`
unchanged; earlier entries are never modified. Starting empty, pushing "a" twice gives
["a"], and pushing "b" after that gives ["a","b"]. -/
theorem C3_pushHistory_appends_unless_repeated (c : TextInputCommandLine) (s : Str) :
    ((c.pushHistory s).commandHistory = c.commandHistory ++ [s] ↔
        (c.commandHistory = [] ∨ ∃ l, c.commandHistory.getLast? = some l ∧ l ≠ s)) ∧
      ((c.pushHistory s).commandHistory = c.commandHistory ↔
        (c.commandHistory ≠ [] ∧ c.commandHistory.getLast? = some s)) ∧
      (∀ i, i < c.commandHistory.length →
        (c.pushHistory s).commandHistory.get? i = c.commandHistory.get? i) ∧
      ((({} : TextInputCommandLine).pushHistory ['a']).pushHistory ['a']).commandHistory
        = [['a']] ∧
      (((({} : TextInputCommandLine).pushHistory ['a']).pushHistory ['a']).pushHistory
        ['b']).commandHistory = [['a'], ['b']] := by
  refine ⟨?_, ?_, ?_, by decide, by decide⟩
  · rcases List.eq_nil_or_concat c.commandHistory with h | ⟨init, l, h⟩
    · simp [TextInputCommandLine.pushHistory, h]
    · by_cases hl : l = s
      · simp [TextInputCommandLine.pushHistory, h, hl]
      · simp [TextInputCommandLine.pushHistory, h, hl]
  · rcases List.eq_nil_or_concat c.commandHistory with h | ⟨init, l, h⟩
    · simp [TextInputCommandLine.pushHistory, h]
    · by_cases hl : l = s
      · simp [TextInputCommandLine.pushHistory, h, hl]
      · simp [TextInputCommandLine.pushHistory, h, hl]
  · intro i hi
    simp only [TextInputCommandLine.pushHistory]
    split
    · simp [List.getElem?_append_left hi]
    · rfl

/-- C4: after every call `pushHistory(s)`, whether or not `s` was appended and whatever
`historyIndex` was before, `historyIndex` equals the resulting `commandHistory.size()`,
so it lies between `0` and the size of the history. -/
theorem C4_pushHistory_resets_historyIndex (c : TextInputCommandLine) (s : Str) :
    (c.pushHistory s).historyIndex = ((c.pushHistory s).commandHistory.length : Int) ∧
      0 ≤ (c.pushHistory s).historyIndex ∧
      (c.pushHistory s).historyIndex ≤ ((c.pushHistory s).commandHistory.length : Int) := by
  refine ⟨rfl, ?_, ?_⟩
  · simp only [TextInputCommandLine.pushHistory]
    exact Int.ofNat_nonneg _
  · exact le_of_eq rfl

/-! ### Text buffer -/

/-- The loop of `getText`, run over the rows of `rest` that follow the rows of `pre`, adds
the rows of `rest` joined by newline characters. -/
theorem getText_loop (lines : List Str) :
    ∀ (rest pre : List Str) (acc : Str), lines = pre ++ rest →
      (List.range' pre.length rest.length).foldl
        (fun s i =>
          let s1 := s ++ lines.getD i []
          if i ≠ lines.length - 1 then s1 ++ ['\n'] else s1) acc
        = acc ++ List.intercalate ['\n'] rest := by
  intro rest
  induction rest with
  | nil => intro pre acc _; simp [List.intercalate]
  | cons r rs ih =>
    intro pre acc h
    have hget : lines.getD pre.length [] = r := by
      subst h
      rw [List.getD_eq_getElem?_getD, List.getElem?_append_right (le_refl _)]
      simp
    have hstep := ih (pre ++ [r]) (acc ++ r ++ (if rs = [] then [] else ['\n']))
      (by simp [h])
    simp only [List.length_append, List.length_singleton] at hstep
    simp only [List.length_cons, List.range', List.foldl_cons, hget]
    cases rs with
    | nil =>
      subst h
      simp [List.intercalate]
    | cons r2 t =>
      have hne : pre.length ≠ lines.length - 1 := by
        subst h
        simp only [List.length_append, List.length_cons]
        omega
      simp only [hne, ne_eq, not_false_eq_true, if_true]
      simp only [List.cons_ne_nil, if_false, ne_eq] at hstep
      simp only [List.length_cons] at hstep ⊢
      rw [hstep]
      simp [List.intercalate, List.intersperse]

/-- The text of a buffer is its rows joined by single newline characters. -/
theorem getText_eq_intercalate (b : TextInputBase) :
    b.getText = List.intercalate ['\n'] b.lines := by
  have h := getText_loop b.lines b.lines [] [] (by simp)
  simpa [TextInputBase.getText, List.range_eq_range'] using h

/-- C8: `setText(s)` followed by `getText()` returns `s`, for every string `s` (so also for
every `s` without carriage returns). `getText()` is the lines of the buffer joined by single
newline characters with no trailing newline, so a buffer whose lines are the pieces of `s`
split at the newline characters returns `s`, and a freshly constructed buffer (one empty
line) returns the empty string. -/
theorem C8_setText_getText_roundtrip (b : TextInputBase) (s : Str) :
    (b.setText s).getText = s ∧
      b.getText = List.intercalate ['\n'] b.lines ∧
      (b.lines = s.splitOn '\n' → b.getText = s) ∧
      TextInputBase.create.lines = [[]] ∧
      TextInputBase.create.getText = [] := by
  refine ⟨?_, getText_eq_intercalate b, ?_, rfl, by decide⟩
  · rw [getText_eq_intercalate]
    exact List.intercalate_splitOn s '\n'
  · intro h
    rw [getText_eq_intercalate, h]
    exact List.intercalate_splitOn s '\n'

/-! ### Console prompt line -/

/-- On a buffer with at least one line, `setLineText` returns the buffer with its last
line replaced by `prompt + text` and the cursor moved to the end of that line. -/
theorem setLineText_eq (c : TextInputCommandLine) (t : Str) (h : c.lines ≠ []) :
    c.setLineText t = some { c with
      lines := c.lines.dropLast ++ [c.prompt ++ t]
      cursor := ⟨((c.prompt.length + t.length : Nat) : Int),
        ((c.lines.length - 1 : Nat) : Int)⟩ } := by
  rcases List.eq_nil_or_concat c.lines with h0 | ⟨init, l, hl⟩
  · exact absurd h0 h
  · have hset : c.lines.set (c.lines.length - 1) (c.prompt ++ t) = init ++ [c.prompt ++ t] := by
      rw [hl]
      simp [List.set_append_right]
    have hlen : c.lines.length ≠ 0 := by
      rw [hl]
      simp
    simp only [TextInputCommandLine.setLineText, hlen, if_false, hset]
    have hg : (init ++ [c.prompt ++ t]).getD ((init ++ [c.prompt ++ t]).length - 1) []
        = c.prompt ++ t := by
      rw [List.getD_eq_getElem?_getD, List.getElem?_append_right (by simp)]
      simp
    rw [hg]
    have hd : c.lines.dropLast = init := by
      rw [hl]
      simp
    rw [hd]
    simp [hl]

/-- C9: for every console buffer with at least one line, every prompt string and every
text `t` (the empty one included), `setLineText(t)` followed by `getLineText()` returns
`t`: the last line becomes `prompt + t` and `getLineText` returns the part after the
prompt. -/
theorem C9_setLineText_getLineText_roundtrip (c : TextInputCommandLine) (t : Str)
    (h : c.lines ≠ []) :
    ∃ c1, c.setLineText t = some c1 ∧ c1.getLineText = some t ∧
      c1.lines.getLast? = some (c.prompt ++ t) ∧ c1.prompt = c.prompt := by
  refine ⟨_, setLineText_eq c t h, ?_, ?_, rfl⟩
  · simp only [TextInputCommandLine.getLineText]
    rw [List.get?_eq_getElem?, List.getElem?_append_right (by simp)]
    simp only [List.length_append, List.length_singleton, Nat.add_sub_cancel, Nat.sub_self,
      List.getElem?_cons_zero, gt_iff_lt, Option.some.injEq]
    by_cases ht : t = []
    · simp [ht]
    · have hpos : 0 < t.length := List.length_pos.mpr ht
      rw [if_pos (by omega)]
      simp
  · simp

/-- Witness of C9: a console of two lines with the default prompt. -/
theorem C9_setLineText_getLineText_roundtrip_witness :
    ∃ c1, ({ lines := [['x'], []] } : TextInputCommandLine).setLineText ['h', 'i'] = some c1 ∧
      c1.getLineText = some ['h', 'i'] ∧
      c1.lines.getLast? = some (['^', '2', '>', '^', '7', ' '] ++ ['h', 'i']) ∧
      c1.prompt = ['^', '2', '>', '^', '7', ' '] :=
  C9_setLineText_getLineText_roundtrip { lines := [['x'], []] } ['h', 'i'] (by decide)

/-- C10: for every console buffer with `n >= 1` lines, `setLineText(t)` changes only the
last line and the cursor: the line count and the lines `0..n-2` are unchanged, every other
field is unchanged, and the cursor is left within the buffer at the end of the last line,
`cursor = (length of prompt + length of t, n - 1)`. -/
theorem C10_setLineText_frame (c : TextInputCommandLine) (t : Str) (h : c.lines ≠ []) :
    ∃ c1, c.setLineText t = some c1 ∧
      c1 = { c with lines := c1.lines, cursor := c1.cursor } ∧
      c1.lines.length = c.lines.length ∧
      (∀ i, i < c.lines.length - 1 → c1.lines.get? i = c.lines.get? i) ∧
      c1.lines.get? (c.lines.length - 1) = some (c.prompt ++ t) ∧
      c1.cursor = ⟨((c.prompt.length + t.length : Nat) : Int), ((c.lines.length - 1 : Nat) : Int)⟩ ∧
      0 ≤ c1.cursor.y ∧ c1.cursor.y < (c1.lines.length : Int) ∧
      (c1.lines.get? c1.cursor.y.toNat).map (fun l => (l.length : Int)) = some c1.cursor.x := by
  have hlen : 0 < c.lines.length := List.length_pos.mpr h
  have hdl : c.lines.dropLast.length = c.lines.length - 1 := by simp
  refine ⟨_, setLineText_eq c t h, rfl, ?_, ?_, ?_, rfl, ?_, ?_, ?_⟩
  · simp only [List.length_append, List.length_singleton, hdl]
    omega
  · intro i hi
    simp only [List.get?_eq_getElem?]
    rw [List.getElem?_append_left (by omega), List.getElem?_dropLast, if_pos hi]
  · simp only [List.get?_eq_getElem?]
    rw [List.getElem?_append_right (by omega)]
    simp [hdl]
  · exact Int.ofNat_nonneg _
  · simp only [List.length_append, List.length_singleton, hdl]
    omega
  · simp only [List.get?_eq_getElem?, Int.toNat_ofNat]
    rw [List.getElem?_append_right (by omega)]
    simp [hdl]

/-- Witness of C10: a console of two lines with the default prompt. -/
theorem C10_setLineText_frame_witness :
    ∃ c1, ({ lines := [['x'], []] } : TextInputCommandLine).setLineText ['h', 'i'] = some c1 ∧
      c1.lines.length = 2 ∧ c1.lines.get? 0 = some ['x'] ∧ c1.cursor = ⟨8, 1⟩ := by
  obtain ⟨c1, h1, -, hlen, hpre, -, hcur, -⟩ :=
    C10_setLineText_frame { lines := [['x'], []] } ['h', 'i'] (by decide)
  exact ⟨c1, h1, hlen, hpre 0 (by decide), hcur⟩

/-! ### Grid layout -/

/-- Without wrap-around the unsigned quotient `(count + dims.x - 1) / dims.x` of
`setButtons` is `ceil(count / dims.x)`. -/
theorem setButtons_steps_eq_ceil (count : Nat) (dx : Int) (hdx : 1 ≤ dx)
    (hsum : (count : Int) + dx ≤ 2 ^ 31) :
    toI32 (((count + toU32 dx + (2 ^ 32 - 1)) % 2 ^ 32) / toU32 dx)
      = Int.ceil ((count : ℚ) / (dx : ℚ)) := by
  obtain ⟨d, rfl⟩ : ∃ d : Nat, dx = (d : Int) := ⟨dx.toNat, (Int.toNat_of_nonneg (by omega)).symm⟩
  have hd1 : 1 ≤ d := by omega
  have hd2 : count + d ≤ 2 ^ 31 := by omega
  have hu : toU32 (d : Int) = d := by
    simp only [toU32]
    omega
  have hm : (count + d + (2 ^ 32 - 1)) % 2 ^ 32 = count + d - 1 := by omega
  rw [hu, hm]
  have hq1 : d * ((count + d - 1) / d) ≤ count + d - 1 := Nat.mul_div_le _ _
  have hq2 : count + d - 1 < d * ((count + d - 1) / d + 1) := Nat.lt_mul_div_succ _ (by omega)
  have hq3 : (count + d - 1) / d ≤ count + d - 1 := Nat.div_le_self _ _
  generalize hq : (count + d - 1) / d = q at hq1 hq2 hq3
  have hi : toI32 q = (q : Int) := by
    simp only [toI32]
    have : q % 2 ^ 32 = q := Nat.mod_eq_of_lt (by omega)
    rw [this, if_pos (by omega)]
  rw [hi]
  symm
  rw [Int.ceil_eq_iff]
  simp only [Int.cast_natCast]
  have hdq : (0 : ℚ) < (d : ℚ) := by exact_mod_cast hd1
  rw [mul_add, mul_one] at hq2
  have e1 : ((d * q : Nat) : ℚ) = (d : ℚ) * (q : ℚ) := by push_cast; ring
  constructor
  · rw [lt_div_iff₀ hdq]
    have h : d * q < count + d := by omega
    have h2 : ((d * q : Nat) : ℚ) < ((count + d : Nat) : ℚ) := by exact_mod_cast h
    rw [e1] at h2
    push_cast at h2 ⊢
    linarith
  · rw [div_le_iff₀ hdq]
    have h : count ≤ d * q := by omega
    have h2 : ((count : Nat) : ℚ) ≤ ((d * q : Nat) : ℚ) := by exact_mod_cast h
    rw [e1] at h2
    linarith

/-- Counterexample to C7 as stated: one button handed to a selector with the default
`dims = (3, 3)` leaves `first = 0`, `lines = 3` and `steps = 1`, so `first + lines` is
above `steps`. -/
theorem C7_setButtons_window_exceeds_steps :
    (ButtonSelector.setButtons {} [{}] 1).map
        (fun r => (r.scrollbar.first, r.scrollbar.lines, r.scrollbar.steps)) = some (0, 3, 1) ∧
      ¬ ((0 : Int) + 3 ≤ 1) := by
  constructor
  · decide
  · decide

/-- C7, amended: after `ButtonSelector::setButtons(ptr, count)` on a selector whose
scrollbar has `first = 0`, with `dims.x >= 1` and `count + dims.x <= 2^31` (no 32-bit
wrap-around), the scrollbar has `0 <= first`, `lines = dims.y` and
`steps = ceil(count / dims.x)`; `first + lines <= steps` holds exactly when
`count > dims.x * (dims.y - 1)`, that is when the buttons fill at least `dims.y` rows, and
the end of the window `last() = min(first + lines, steps)` never exceeds `steps`. -/
theorem C7_setButtons_window (bs : ButtonSelector) (ptr : List ButtonBase) (count : Nat)
    (hptr : count ≤ ptr.length) (hdx : 1 ≤ bs.dims.x)
    (hsum : (count : Int) + bs.dims.x ≤ 2 ^ 31) (hfirst : bs.scrollbar.first = 0) :
    ∃ r, bs.setButtons ptr count = some r ∧
      r.scrollbar.first = 0 ∧ 0 ≤ r.scrollbar.first ∧
      r.scrollbar.lines = bs.dims.y ∧
      r.scrollbar.steps = Int.ceil ((count : ℚ) / (bs.dims.x : ℚ)) ∧
      (r.scrollbar.first + r.scrollbar.lines ≤ r.scrollbar.steps ↔
        bs.dims.x * (bs.dims.y - 1) < (count : Int)) ∧
      r.scrollbar.last ≤ r.scrollbar.steps := by
  have hguard : count ≤ ptr.length ∧ count < 2 ^ 31 ∧ bs.dims.x ≠ 0 :=
    ⟨hptr, by omega, by omega⟩
  have hsteps := setButtons_steps_eq_ceil count bs.dims.x hdx hsum
  refine ⟨_, if_pos hguard, ?_, ?_, ?_, ?_, ?_, ?_⟩
  · exact hfirst
  · exact le_of_eq hfirst.symm
  · rfl
  · exact hsteps
  · show bs.scrollbar.first + bs.dims.y ≤
        toI32 (((count + toU32 bs.dims.x + (2 ^ 32 - 1)) % 2 ^ 32) / toU32 bs.dims.x) ↔ _
    simp only [hfirst, hsteps, zero_add]
    have hdq : (0 : ℚ) < (bs.dims.x : ℚ) := by exact_mod_cast (by omega : (0 : Int) < bs.dims.x)
    have e : bs.dims.y ≤ Int.ceil ((count : ℚ) / (bs.dims.x : ℚ)) ↔
        bs.dims.y - 1 < Int.ceil ((count : ℚ) / (bs.dims.x : ℚ)) := by omega
    rw [e, Int.lt_ceil, lt_div_iff₀ hdq]
    constructor
    · intro h
      have h2 : ((bs.dims.x * (bs.dims.y - 1) : Int) : ℚ) < ((count : Int) : ℚ) := by
        push_cast
        push_cast at h
        linarith
      exact_mod_cast h2
    · intro h
      have h2 : ((bs.dims.x * (bs.dims.y - 1) : Int) : ℚ) < ((count : Int) : ℚ) := by
        exact_mod_cast h
      push_cast at h2 ⊢
      linarith
  · exact min_le_right _ _

/-- Witness of C7, amended: ten buttons handed to a selector with the default
`dims = (3, 3)` fill four rows, and the window of three lines fits. -/
theorem C7_setButtons_window_witness :
    ∃ r, ButtonSelector.setButtons {} (List.replicate 10 {}) 10 = some r ∧
      r.scrollbar.steps = 4 ∧
      r.scrollbar.first + r.scrollbar.lines ≤ r.scrollbar.steps := by
  obtain ⟨r, h1, -, -, -, h5, h6, -⟩ :=
    C7_setButtons_window {} (List.replicate 10 {}) 10 (by decide) (by decide) (by decide) rfl
  refine ⟨r, h1, ?_, h6.mpr (by decide)⟩
  rw [h5, Int.ceil_eq_iff]
  norm_num

/-! ### Slider state and fraction -/

/-- Rounding to binary32 moves a positive number below `2 ^ k` by at most `2 ^ (k - 25)`,
half the distance between the binary32 values of the binade below `2 ^ k`. -/
theorem abs_f32_sub_le_of_lt {q : ℚ} (k : ℤ) (hk : -125 ≤ k) (hq0 : 0 < q)
    (hq : q < (2 : ℚ) ^ k) : |f32 q - q| ≤ (2 : ℚ) ^ (k - 25) := by
  have hlog : Int.log 2 q < k := by
    rw [← Int.lt_zpow_iff_log_lt (by norm_num) hq0]
    simpa using hq
  rw [f32_of_pos hq0]
  unfold f32pos ulp32
  have hE : max (Int.log 2 q) (-126) - 23 ≤ k - 24 := by
    rcases max_cases (Int.log 2 q) (-126) with ⟨h1, _⟩ | ⟨h1, _⟩ <;> omega
  generalize max (Int.log 2 q) (-126) - 23 = E at hE
  have hu : (0 : ℚ) < 2 ^ E := by positivity
  have hr := abs_roundEven_sub_le (q / 2 ^ E)
  have heq : (roundEven (q / 2 ^ E) : ℚ) * 2 ^ E - q
      = ((roundEven (q / 2 ^ E) : ℚ) - q / 2 ^ E) * 2 ^ E := by
    field_simp
  rw [heq, abs_mul, abs_of_pos hu]
  have h3 : |(roundEven (q / 2 ^ E) : ℚ) - q / 2 ^ E| * 2 ^ E ≤ 1 / 2 * 2 ^ E :=
    mul_le_mul_of_nonneg_right hr (le_of_lt hu)
  have h4 : (2 : ℚ) ^ E ≤ 2 ^ (k - 24) := zpow_le_zpow_right₀ (by norm_num) hE
  have h5 : (2 : ℚ) ^ (k - 24) = 2 ^ (k - 25) * 2 := by
    have : k - 24 = (k - 25) + 1 := by ring
    rw [this, two_zpow_split]
    norm_num
  linarith

/-- The arithmetic of the round trip: when `x * t = u` with `1 <= u <= t - 1`, and `a` is
within `2 ^ (-25)` of `x` for `t <= 4095`, or equal to `x` for `t = 4096`, the product
`a * (t + 1)` lies between `u` and `u + 1 - 2 ^ (-13)`, the upper bound strictly. -/
theorem fraction_product_bounds (u t x a : ℚ) (hu1 : 1 ≤ u) (hut : u + 1 ≤ t)
    (hxt : x * t = u) (hlo : x - 1 / 33554432 ≤ a) (hhi : a ≤ x + 1 / 33554432)
    (hcase : t ≤ 4095 ∨ (t = 4096 ∧ a = x)) :
    u ≤ a * (t + 1) ∧ a * (t + 1) + 1 / 8192 < u + 1 := by
  have ht0 : 0 < t := by linarith
  have ht : t ≤ 4096 := by
    rcases hcase with h | ⟨h, -⟩ <;> linarith
  have hxs : x * (t + 1) = u + x := by rw [mul_add, hxt, mul_one]
  have hx : x = u / t := by
    rw [eq_div_iff (ne_of_gt ht0)]
    exact hxt
  have hxlo : 1 / t ≤ x := by
    rw [hx]
    exact div_le_div_of_nonneg_right hu1 (le_of_lt ht0)
  have hxhi : x ≤ 1 - 1 / t := by
    rw [hx, div_le_iff₀ ht0]
    have : (1 - 1 / t) * t = t - 1 := by field_simp
    rw [this]
    linarith
  have ht1 : (1 : ℚ) / 4096 ≤ 1 / t := one_div_le_one_div_of_le ht0 ht
  constructor
  · have h1 : (x - 1 / 33554432) * (t + 1) ≤ a * (t + 1) :=
      mul_le_mul_of_nonneg_right hlo (by linarith)
    have h2 : (x - 1 / 33554432) * (t + 1) = u + x - (t + 1) / 33554432 := by
      rw [sub_mul, hxs]
      ring
    linarith
  · rcases hcase with h4095 | ⟨h4096, hax⟩
    · have h1 : a * (t + 1) ≤ (x + 1 / 33554432) * (t + 1) :=
        mul_le_mul_of_nonneg_right hhi (by linarith)
      have h2 : (x + 1 / 33554432) * (t + 1) = u + x + (t + 1) / 33554432 := by
        rw [add_mul, hxs]
        ring
      have h3 : (1 : ℚ) / 4095 ≤ 1 / t := one_div_le_one_div_of_le ht0 h4095
      linarith
    · rw [hax, hxs]
      rw [h4096] at hxhi
      norm_num at hxhi
      linarith

/-- The round trip of a slider state through its fraction, in `float` arithmetic, for up to
4097 states: the fraction `u / (states - 1)` is rounded, its product with `states` is rounded,
and the floor bounded to `0 .. states - 1` is `u` again. The two roundings move the product
by less than the distance of `u / (states - 1)` to the next integer. -/
theorem floatToValue_fraction (u s : Int) (hs : 2 ≤ s) (hs2 : s ≤ 4097) (hu0 : 0 ≤ u)
    (hu1 : u ≤ s - 1) :
    clamp (Int.floor (f32 (f32 ((u : ℚ) / ((s : ℚ) - 1)) * (s : ℚ)))) 0 (s - 1) = u := by
  have hsq : (2 : ℚ) ≤ (s : ℚ) := by exact_mod_cast hs
  have hsq2 : (s : ℚ) ≤ 4097 := by exact_mod_cast hs2
  have hfs : f32 (s : ℚ) = s := f32_intCast s (by omega) (by omega)
  have ht0 : (0 : ℚ) < (s : ℚ) - 1 := by linarith
  rcases eq_or_lt_of_le hu0 with h0 | hpos
  · rw [← h0]
    simp only [Int.cast_zero, zero_div, f32_zero, zero_mul, Int.floor_zero, clamp]
    omega
  rcases eq_or_lt_of_le hu1 with hlast | hlt
  · have hu : (u : ℚ) = (s : ℚ) - 1 := by rw [hlast]; push_cast; ring
    rw [hu, div_self (ne_of_gt ht0), f32_one, one_mul, hfs, Int.floor_intCast]
    simp only [clamp]
    omega
  · have hu1q : (1 : ℚ) ≤ (u : ℚ) := by exact_mod_cast (by omega : (1 : Int) ≤ u)
    have hu2q : (u : ℚ) + 1 ≤ (s : ℚ) - 1 := by
      have : ((u + 1 : Int) : ℚ) ≤ ((s - 1 : Int) : ℚ) := by exact_mod_cast (by omega)
      push_cast at this
      exact this
    have hxt : (u : ℚ) / ((s : ℚ) - 1) * ((s : ℚ) - 1) = (u : ℚ) := by field_simp
    have hxpos : (0 : ℚ) < (u : ℚ) / ((s : ℚ) - 1) := div_pos (by linarith) ht0
    have hxlt : (u : ℚ) / ((s : ℚ) - 1) < (2 : ℚ) ^ (0 : ℤ) := by
      rw [zpow_zero, div_lt_one ht0]
      linarith
    have herr := abs_f32_sub_le_of_lt 0 (by norm_num) hxpos hxlt
    have e25 : (2 : ℚ) ^ ((0 : ℤ) - 25) = 1 / 33554432 := by norm_num
    rw [abs_le, e25] at herr
    obtain ⟨hlo, hhi⟩ := herr
    have hcase : (s : ℚ) - 1 ≤ 4095 ∨ ((s : ℚ) - 1 = 4096 ∧
        f32 ((u : ℚ) / ((s : ℚ) - 1)) = (u : ℚ) / ((s : ℚ) - 1)) := by
      rcases (by omega : s ≤ 4096 ∨ s = 4097) with hle | h4097
      · left
        have : (s : ℚ) ≤ 4096 := by exact_mod_cast hle
        linarith
      · right
        have h4096 : (s : ℚ) - 1 = 4096 := by rw [h4097]; norm_num
        refine ⟨h4096, ?_⟩
        rw [h4096]
        obtain ⟨n, hn⟩ := Int.eq_ofNat_of_zero_le hu0
        have hn24 : n < 2 ^ 24 := by
          have : (n : Int) < 2 ^ 24 := by omega
          exact_mod_cast this
        have h1 := f32_of_dyadic n (-12) hn24 (by norm_num)
        have h2 : (n : ℚ) * 2 ^ (-12 : ℤ) = (u : ℚ) / 4096 := by
          rw [hn]
          norm_num
          ring
        rwa [h2] at h1
    obtain ⟨hlow, hupp⟩ := fraction_product_bounds (u : ℚ) ((s : ℚ) - 1)
      ((u : ℚ) / ((s : ℚ) - 1)) (f32 ((u : ℚ) / ((s : ℚ) - 1))) hu1q hu2q hxt
      (by linarith) (by linarith) hcase
    rw [sub_add_cancel] at hlow hupp
    have hypos : (0 : ℚ) < f32 ((u : ℚ) / ((s : ℚ) - 1)) * (s : ℚ) := by linarith
    have hylt : f32 ((u : ℚ) / ((s : ℚ) - 1)) * (s : ℚ) < (2 : ℚ) ^ (12 : ℤ) := by
      have : (2 : ℚ) ^ (12 : ℤ) = 4096 := by norm_num
      rw [this]
      linarith
    have herr2 := abs_f32_sub_le_of_lt 12 (by norm_num) hypos hylt
    have e13 : (2 : ℚ) ^ ((12 : ℤ) - 25) = 1 / 8192 := by norm_num
    rw [abs_le, e13] at herr2
    have hf1 : (u : ℚ) ≤ f32 (f32 ((u : ℚ) / ((s : ℚ) - 1)) * (s : ℚ)) := by
      have := f32_mono hlow
      rwa [f32_intCast u (by omega) (by omega)] at this
    have hfloor : Int.floor (f32 (f32 ((u : ℚ) / ((s : ℚ) - 1)) * (s : ℚ))) = u := by
      rw [Int.floor_eq_iff]
      constructor
      · exact hf1
      · linarith [herr2.2]
    rw [hfloor]
    simp only [clamp]
    omega

/-- Counterexample to C23 as stated: on a slider of 4098 states the state 4096 has the
`float` fraction `16773121 / 2 ^ 24`, whose `float` product with 4098 is 4097, so that
`floatToValue(getValueFloat())` is 4097 and not 4096. -/
theorem C23_floatToValue_getValueFloat_next_state :
    ({ values := 4098, value := 4096 } : OptionSlider).floatToValue
        ({ values := 4098, value := 4096 } : OptionSlider).getValueFloat = 4097 ∧
      ({ values := 4098, value := 4096 } : OptionSlider).floatToValue
        ({ values := 4098, value := 4096 } : OptionSlider).getValueFloat
        ≠ ({ values := 4098, value := 4096 } : OptionSlider).value := by
  have h1 : f32 (4096 : ℚ) = 4096 := by
    simpa using f32_natCast 4096 (by norm_num)
  have h2 : f32 (4097 : ℚ) = 4097 := by
    simpa using f32_natCast 4097 (by norm_num)
  have h3 : f32 (4098 : ℚ) = 4098 := by
    simpa using f32_natCast 4098 (by norm_num)
  have h4 : f32 ((4096 : ℚ) / 4097) = 16773121 / 16777216 := by
    rw [f32_eval (-1) (by norm_num) (by norm_num) (by norm_num)]
    norm_num [roundEven]
  have h5 : f32 ((16773121 / 16777216 : ℚ) * 4098) = 4097 := by
    rw [f32_eval 12 (by norm_num) (by norm_num) (by norm_num)]
    norm_num [roundEven]
  have hval : ({ values := 4098, value := 4096 } : OptionSlider).floatToValue
      ({ values := 4098, value := 4096 } : OptionSlider).getValueFloat = 4097 := by
    have hg : ({ values := 4098, value := 4096 } : OptionSlider).getValueFloat
        = 16773121 / 16777216 := by
      simp only [OptionSlider.getValueFloat]
      norm_num [h1, h2, h4]
    rw [hg]
    simp only [OptionSlider.floatToValue, floor_int, clamp, Int.cast_ofNat, h3, h5]
    norm_num
  refine ⟨hval, ?_⟩
  rw [hval]
  decide

/-- C23, amended: for every OptionSlider with `2 <= values <= 4097` and every state
`0 <= value <= values - 1`, `floatToValue(getValueFloat()) = value` in the `float`
arithmetic of the code, so `setValueFloat(getValueFloat())` leaves the slider as it is. -/
theorem C23_floatToValue_getValueFloat (s : OptionSlider) (hv : 2 ≤ s.values)
    (hv2 : s.values ≤ 4097) (h0 : 0 ≤ s.value) (h1 : s.value ≤ s.values - 1) :
    s.floatToValue s.getValueFloat = s.value ∧ s.setValueFloat s.getValueFloat = s := by
  have hval : s.floatToValue s.getValueFloat = s.value := by
    simp only [OptionSlider.floatToValue, OptionSlider.getValueFloat, floor_int]
    rw [f32_intCast s.value (by omega) (by omega),
      f32_intCast (s.values - 1) (by omega) (by omega),
      f32_intCast s.values (by omega) (by omega)]
    push_cast
    exact floatToValue_fraction s.value s.values hv hv2 h0 h1
  refine ⟨hval, ?_⟩
  simp only [OptionSlider.setValueFloat, hval]

/-- Witness of C23, amended: the state 3 of a slider of ten states. -/
theorem C23_floatToValue_getValueFloat_witness :
    ({ values := 10, value := 3 } : OptionSlider).floatToValue
      ({ values := 10, value := 3 } : OptionSlider).getValueFloat = 3 :=
  (C23_floatToValue_getValueFloat { values := 10, value := 3 } (by decide) (by decide)
    (by decide) (by decide)).1

/-! ### OptionEditor bound to an int cell -/

/-- The cell value read back from the slider by the affine law, in `float` arithmetic: the
fraction `u / t` of `u >= 1` is rounded, its product with `t` is rounded, and the result is
within `u / 2 ^ 22` of `u`. -/
theorem affine_read_back_bound (u t : ℚ) (hu1 : 1 ≤ u) (hut : u ≤ t) (ht : t ≤ 4096) :
    |f32 (t * f32 (u / t)) - u| ≤ u / 2 ^ 22 := by
  have ht0 : 0 < t := by linarith
  have hxt : u / t * t = u := by field_simp
  have hxnorm : (2 : ℚ) ^ (-126 : ℤ) ≤ u / t := by
    have h1 : (1 : ℚ) / 4096 ≤ u / t := by
      rw [div_le_div_iff₀ (by norm_num) ht0]
      linarith
    have h2 : (2 : ℚ) ^ (-126 : ℤ) ≤ 1 / 4096 := by
      rw [zpow_neg, ← one_div]
      apply one_div_le_one_div_of_le (by norm_num)
      norm_num
    exact le_trans h2 h1
  have e24 : (2 : ℚ) ^ 24 = 16777216 := by norm_num
  have e22 : (2 : ℚ) ^ 22 = 4194304 := by norm_num
  have herr := abs_f32_sub_le hxnorm
  rw [abs_le, e24] at herr
  obtain ⟨hlo, hhi⟩ := herr
  have hy1 : u - u / 16777216 ≤ t * f32 (u / t) := by
    have h1 : t * (u / t - u / t / 16777216) ≤ t * f32 (u / t) :=
      mul_le_mul_of_nonneg_left (by linarith) (le_of_lt ht0)
    have h2 : t * (u / t - u / t / 16777216) = u - u / 16777216 := by
      field_simp
      ring
    linarith
  have hy2 : t * f32 (u / t) ≤ u + u / 16777216 := by
    have h1 : t * f32 (u / t) ≤ t * (u / t + u / t / 16777216) :=
      mul_le_mul_of_nonneg_left (by linarith) (le_of_lt ht0)
    have h2 : t * (u / t + u / t / 16777216) = u + u / 16777216 := by
      field_simp
      ring
    linarith
  have hynorm : (2 : ℚ) ^ (-126 : ℤ) ≤ t * f32 (u / t) := by
    have h2 : (2 : ℚ) ^ (-126 : ℤ) ≤ 1 / 2 := by
      rw [zpow_neg, ← one_div]
      apply one_div_le_one_div_of_le (by norm_num)
      norm_num
    linarith
  have herr2 := abs_f32_sub_le hynorm
  rw [abs_le, e24] at herr2
  obtain ⟨hlo2, hhi2⟩ := herr2
  rw [abs_le, e22]
  constructor <;> linarith

/-- Counterexample to C11 as stated: for the cell value 4096 of 4098 states `updateSlider()`
sets `slider.value` to 4097; and for the cell value 7 of 14 states, where the slider value
is 7, the affine law gives back `14680065 / 2 ^ 21 = 7.0000005` in `float` arithmetic. -/
theorem C11_updateSlider_misses_cell :
    (OptionEditor.updateSlider (fun _ => [])
        { type := OptionEditorType.INT, value := some (Cell.int 4096), start := 0,
          mult := 4097, slider := { values := 4098 } }).map (fun e1 => e1.slider.value)
        = some 4097 ∧
      (4097 : Int) ≠ 4096 ∧
      (OptionEditor.updateSlider (fun _ => [])
        { type := OptionEditorType.INT, value := some (Cell.int 7), start := 0,
          mult := 13, slider := { values := 14 } }).map
          (fun e1 => (e1.slider.value,
            f32 (e1.start + f32 (e1.mult * e1.slider.getValueFloat))))
        = some (7, 14680065 / 2097152) ∧
      (14680065 / 2097152 : ℚ) ≠ 7 := by
  have h1 : f32 (4096 : ℚ) = 4096 := by
    simpa using f32_natCast 4096 (by norm_num)
  have h3 : f32 (4098 : ℚ) = 4098 := by
    simpa using f32_natCast 4098 (by norm_num)
  have h4 : f32 ((4096 : ℚ) / 4097) = 16773121 / 16777216 := by
    rw [f32_eval (-1) (by norm_num) (by norm_num) (by norm_num)]
    norm_num [roundEven]
  have h5 : f32 ((16773121 / 16777216 : ℚ) * 4098) = 4097 := by
    rw [f32_eval 12 (by norm_num) (by norm_num) (by norm_num)]
    norm_num [roundEven]
  have k7 : f32 (7 : ℚ) = 7 := by
    simpa using f32_natCast 7 (by norm_num)
  have k13 : f32 (13 : ℚ) = 13 := by
    simpa using f32_natCast 13 (by norm_num)
  have k14 : f32 (14 : ℚ) = 14 := by
    simpa using f32_natCast 14 (by norm_num)
  have k1 : f32 ((7 : ℚ) / 13) = 4516943 / 8388608 := by
    rw [f32_eval (-1) (by norm_num) (by norm_num) (by norm_num)]
    norm_num [roundEven]
  have k2 : f32 ((4516943 / 8388608 : ℚ) * 14) = 3952325 / 524288 := by
    rw [f32_eval 2 (by norm_num) (by norm_num) (by norm_num)]
    norm_num [roundEven]
  have k3 : f32 ((13 : ℚ) * (4516943 / 8388608)) = 14680065 / 2097152 := by
    rw [f32_eval 2 (by norm_num) (by norm_num) (by norm_num)]
    norm_num [roundEven]
  have k4 : f32 (14680065 / 2097152 : ℚ) = 14680065 / 2097152 := by
    rw [← k3, f32_idem]
  refine ⟨?_, by decide, ?_, by norm_num⟩
  · simp only [OptionEditor.updateSlider, OptionEditor.getValueFloat, if_neg, Int.cast_ofNat,
      h1, sub_zero, h4, Option.map_some', OptionSlider.setValueFloat, OptionSlider.floatToValue,
      floor_int, clamp, h3, h5, reduceCtorEq, if_false]
    norm_num
  · have hv : ({ values := 14 } : OptionSlider).floatToValue (4516943 / 8388608) = 7 := by
      simp only [OptionSlider.floatToValue, floor_int, clamp, Int.cast_ofNat, k14, k2]
      norm_num
    simp only [OptionEditor.updateSlider, OptionEditor.getValueFloat, Int.cast_ofNat,
      k7, sub_zero, k1, Option.map_some', OptionSlider.setValueFloat, hv, reduceCtorEq,
      if_false, OptionSlider.getValueFloat]
    have k5 : f32 (58720259 / 8388608 : ℚ) = 14680065 / 2097152 := by
      have h := k3
      norm_num at h
      exact h
    norm_num [k7, k13, k1, k5, k4]

/-- C11, amended: for an `OptionEditor` set up as by `OptionEditor(int* u, label, states)`
(type `INT`, `start = 0`, `mult = states - 1`, `slider.values = states`) with
`2 <= states <= 4097` and `0 <= *u <= states - 1`, `updateSlider()` sets
`slider.value = *u`; and `start + mult * slider.getValueFloat()`, a `float` expression, is
then within `*u / 2 ^ 22` of `*u`, and equals `*u` at both ends `*u = 0` and
`*u = states - 1`. -/
theorem C11_updateSlider_int_cell (fmt : OptionEditor → Str) (e : OptionEditor)
    (u states : Int) (hs : 2 ≤ states) (hs2 : states ≤ 4097) (hu0 : 0 ≤ u)
    (hu1 : u ≤ states - 1)
    (ht : e.type = OptionEditorType.INT) (hv : e.value = some (Cell.int u))
    (hstart : e.start = 0) (hmult : e.mult = (states : ℚ) - 1)
    (hvals : e.slider.values = states) :
    ∃ e1, e.updateSlider fmt = some e1 ∧ e1.slider.value = u ∧
      |f32 (e1.start + f32 (e1.mult * e1.slider.getValueFloat)) - (u : ℚ)| ≤ (u : ℚ) / 2 ^ 22 ∧
      (u = 0 ∨ u = states - 1 →
        f32 (e1.start + f32 (e1.mult * e1.slider.getValueFloat)) = (u : ℚ)) ∧
      e1.value = e.value ∧ e1.slider.values = states := by
  have hfu : f32 (u : ℚ) = u := f32_intCast u (by omega) (by omega)
  have hget : e.getValueFloat = some (u : ℚ) := by
    simp [OptionEditor.getValueFloat, hv, ht, hfu]
  have hval : e.slider.floatToValue (f32 (f32 ((u : ℚ) - e.start) / e.mult)) = u := by
    simp only [OptionSlider.floatToValue, floor_int, hstart, hmult, hvals, sub_zero, hfu]
    rw [f32_intCast states (by omega) (by omega)]
    exact floatToValue_fraction u states hs hs2 hu0 hu1
  have hrun : e.updateSlider fmt = some
      { e with
        slider := e.slider.setValueFloat (f32 (f32 ((u : ℚ) - e.start) / e.mult))
        txt := fmt { e with
          slider := e.slider.setValueFloat (f32 (f32 ((u : ℚ) - e.start) / e.mult)) } } := by
    simp only [OptionEditor.updateSlider, hget]
  have hsq : (2 : ℚ) ≤ (states : ℚ) := by exact_mod_cast hs
  have hsq2 : (states : ℚ) ≤ 4097 := by exact_mod_cast hs2
  have huq0 : (0 : ℚ) ≤ (u : ℚ) := by exact_mod_cast hu0
  have huq1 : (u : ℚ) ≤ (states : ℚ) - 1 := by
    have : ((u : Int) : ℚ) ≤ ((states - 1 : Int) : ℚ) := by exact_mod_cast hu1
    push_cast at this
    exact this
  have hback : f32 (e.start + f32 (e.mult *
      (e.slider.setValueFloat (f32 (f32 ((u : ℚ) - e.start) / e.mult))).getValueFloat))
      = f32 (((states : ℚ) - 1) * f32 ((u : ℚ) / ((states : ℚ) - 1))) := by
    simp only [OptionSlider.getValueFloat, OptionSlider.setValueFloat]
    rw [hval]
    simp only [hvals, hstart, hmult, zero_add, f32_idem, hfu]
    rw [f32_intCast (states - 1) (by omega) (by omega)]
    push_cast
    rfl
  refine ⟨_, hrun, hval, ?_, ?_, rfl, hvals⟩
  · show |f32 (e.start + f32 (e.mult *
      (e.slider.setValueFloat (f32 (f32 ((u : ℚ) - e.start) / e.mult))).getValueFloat))
      - (u : ℚ)| ≤ (u : ℚ) / 2 ^ 22
    rw [hback]
    rcases eq_or_lt_of_le hu0 with h0 | hpos
    · rw [← h0]
      simp [f32_zero]
    · have hu1q : (1 : ℚ) ≤ (u : ℚ) := by exact_mod_cast (by omega : (1 : Int) ≤ u)
      exact affine_read_back_bound (u : ℚ) ((states : ℚ) - 1) hu1q huq1 (by linarith)
  · intro hends
    show f32 (e.start + f32 (e.mult *
      (e.slider.setValueFloat (f32 (f32 ((u : ℚ) - e.start) / e.mult))).getValueFloat))
      = (u : ℚ)
    rw [hback]
    rcases hends with h0 | hlast
    · rw [h0]
      simp [f32_zero]
    · have hu : (u : ℚ) = (states : ℚ) - 1 := by rw [hlast]; push_cast; ring
      have hne : (states : ℚ) - 1 ≠ 0 := by linarith
      rw [hu, div_self hne, f32_one, mul_one]
      have := f32_intCast (states - 1) (by omega) (by omega)
      push_cast at this
      exact this

/-- Witness of C11, amended: an int cell holding `1` edited over three states. -/
theorem C11_updateSlider_int_cell_witness :
    ∃ e1, OptionEditor.updateSlider (fun _ => [])
        { type := OptionEditorType.INT, value := some (Cell.int 1), start := 0, mult := 2,
          slider := { values := 3 } } = some e1 ∧
      e1.slider.value = 1 ∧
      |f32 (e1.start + f32 (e1.mult * e1.slider.getValueFloat)) - 1| ≤ 1 / 2 ^ 22 := by
  obtain ⟨e1, h1, h2, h3, -, -, -⟩ := C11_updateSlider_int_cell (fun _ => [])
    { type := OptionEditorType.INT, value := some (Cell.int 1), start := 0, mult := 2,
      slider := { values := 3 } } 1 3 (by decide) (by decide) (by decide) (by decide) rfl rfl
      rfl (by norm_num) rfl
  exact ⟨e1, h1, h2, by simpa using h3⟩

/-! ### Placement next to a sibling -/

/-- Inside the range of `int` a 32-bit register holds the exact result. -/
theorem wrapI32_of_fits (i : Int) (h1 : -(2 ^ 31) ≤ i) (h2 : i < 2 ^ 31) : wrapI32 i = i := by
  unfold wrapI32 toI32 toU32
  have hpos : (0 : Int) ≤ i % 2 ^ 32 := Int.emod_nonneg _ (by norm_num)
  have hlt : i % 2 ^ 32 < 2 ^ 32 := Int.emod_lt_of_pos _ (by norm_num)
  have hnat : (((i % 2 ^ 32).toNat : Nat) : Int) = i % 2 ^ 32 := Int.toNat_of_nonneg hpos
  have hmod : (i % 2 ^ 32).toNat % 2 ^ 32 = (i % 2 ^ 32).toNat := by
    apply Nat.mod_eq_of_lt
    have : (((i % 2 ^ 32).toNat : Nat) : Int) < 2 ^ 32 := by rw [hnat]; exact hlt
    exact_mod_cast this
  rw [hmod]
  rcases lt_or_le i 0 with hneg | hnn
  · have hm : i % 2 ^ 32 = i + 2 ^ 32 := by omega
    have hcond : ¬ ((i % 2 ^ 32).toNat < 2 ^ 31) := by
      intro hc
      have : (((i % 2 ^ 32).toNat : Nat) : Int) < 2 ^ 31 := by exact_mod_cast hc
      rw [hnat, hm] at this
      omega
    rw [if_neg hcond, hnat, hm]
    ring
  · have hm : i % 2 ^ 32 = i := Int.emod_eq_of_lt hnn (by omega)
    have hcond : (i % 2 ^ 32).toNat < 2 ^ 31 := by
      have : (((i % 2 ^ 32).toNat : Nat) : Int) < 2 ^ 31 := by rw [hnat, hm]; exact h2
      exact_mod_cast this
    rw [if_pos hcond, hnat, hm]

/-- Counterexample to C13 as stated: for `count = 2147483647` and `width = 2` the sum
`count + width - 1` does not fit the 32-bit `int`; the rows come out as `-1073741824`, and
`width * rows >= count` fails. -/
theorem C13_setButtonCount_sum_overflows :
    (ButtonLayout.setButtonCount {} 2147483647 2).map (fun r => r.buttonCount)
        = some ⟨2, -1073741824⟩ ∧
      ¬ ((2147483647 : Int) ≤ 2 * (-1073741824)) := by
  refine ⟨?_, by decide⟩
  have h1 : wrapI32 (2147483647 + 2) = -2147483647 := by
    simp [wrapI32, toU32, toI32]
  have h2 : wrapI32 (-2147483647 - 1) = -2147483648 := by
    simp [wrapI32, toU32, toI32]
  simp only [ButtonLayout.setButtonCount, h1, h2]
  decide

/-- C13, amended: for every `width >= 1` and `count >= 0` whose sum `count + width` fits the
32-bit `int` (`count + width <= 2147483647`), `setButtonCount(count, width)` sets
`buttonCount = (width, ceil(count / width))` and nothing else; hence `width * rows >= count`,
and for `count >= 1` also `width * (rows - 1) < count`. -/
theorem C13_setButtonCount_rows (bl : ButtonLayout) (count width : Int) (hw : 1 ≤ width)
    (hc : 0 ≤ count) (hsum : count + width ≤ 2147483647) :
    ∃ r, bl.setButtonCount count width = some r ∧
      r.buttonCount = ⟨width, Int.ceil ((count : ℚ) / (width : ℚ))⟩ ∧
      r = { bl with buttonCount := r.buttonCount } ∧
      count ≤ width * r.buttonCount.y ∧
      (1 ≤ count → width * (r.buttonCount.y - 1) < count) := by
  have hne : width ≠ 0 := by omega
  have hne1 : ¬ (width = -1 ∧ wrapI32 (wrapI32 (count + width) - 1) = -(2 ^ 31)) := by
    rintro ⟨h, -⟩
    omega
  have hwrap : wrapI32 (wrapI32 (count + width) - 1) = count + width - 1 := by
    rw [wrapI32_of_fits (count + width) (by omega) (by omega),
      wrapI32_of_fits (count + width - 1) (by omega) (by omega)]
  have hrun : bl.setButtonCount count width
      = some { bl with buttonCount := ⟨width, Int.tdiv (count + width - 1) width⟩ } := by
    unfold ButtonLayout.setButtonCount
    rw [if_neg hne, if_neg hne1, hwrap]
  have htd : Int.tdiv (count + width - 1) width = (count + width - 1) / width :=
    Int.tdiv_eq_ediv (by omega) (by omega)
  rw [htd] at hrun
  have h1 := Int.emod_add_ediv (count + width - 1) width
  have h2 := Int.emod_nonneg (count + width - 1) hne
  have h3 := Int.emod_lt_of_pos (count + width - 1) (by omega : 0 < width)
  set q := (count + width - 1) / width with hq
  set m := (count + width - 1) % width with hm
  have hlo : width * (q - 1) < count := by
    have : width * (q - 1) = width * q - width := by ring
    omega
  have hhi : count ≤ width * q := by omega
  have hceil : Int.ceil ((count : ℚ) / (width : ℚ)) = q := by
    have hwq : (0 : ℚ) < (width : ℚ) := by exact_mod_cast (by omega : (0 : Int) < width)
    rw [Int.ceil_eq_iff]
    constructor
    · rw [lt_div_iff₀ hwq]
      have : ((width * (q - 1) : Int) : ℚ) < ((count : Int) : ℚ) := by exact_mod_cast hlo
      push_cast at this
      linarith
    · rw [div_le_iff₀ hwq]
      have : ((count : Int) : ℚ) ≤ ((width * q : Int) : ℚ) := by exact_mod_cast hhi
      push_cast at this
      linarith
  refine ⟨_, hrun, ?_, rfl, hhi, fun _ => hlo⟩
  rw [hceil]

/-- Witness of C13, amended: seven buttons in rows of three take three rows. -/
theorem C13_setButtonCount_rows_witness :
    ∃ r, ButtonLayout.setButtonCount {} 7 3 = some r ∧ r.buttonCount = ⟨3, 3⟩ := by
  obtain ⟨r, h1, h2, -⟩ := C13_setButtonCount_rows {} 7 3 (by decide) (by decide) (by decide)
  refine ⟨r, h1, ?_⟩
  rw [h2]
  have : Int.ceil ((7 : ℚ) / 3) = 3 := by
    rw [Int.ceil_eq_iff]
    norm_num
  simpa using this

/-! ### Key bindings -/

/-- On an array of four slots the loop of `setKeys` writes every slot: slot `i` gets
`src[i]` when `i` is below the length of `src`, and `0` otherwise. -/
theorem fillKeys_eq (keys src : List Int) (hk : keys.length = 4) :
    ButtonBase.fillKeys keys src
      = (List.range 4).map (fun i => if i < src.length then src.getD i 0 else 0) := by
  match keys, hk with
  | [_, _, _, _], _ => rfl

/-- C14: for every key string `ks` of length `len` with `1 <= len <= 4`, `setKeys(ks)` sets
`keys[i] = ks[i]` for `i < len`, the `char` converted to `int` (the code of the character
for the codes below 128, the code minus 256 for the bytes 128 to 255), and `keys[i] = 0` for
`len <= i < 4`, with no assertion failure and no other field changed; for `ks` `NULL` or
empty the button, and so its four key slots, is left as it was. -/
theorem C14_setKeys_string (b : ButtonBase) (ks : Str) (hk : b.keys.length = 4)
    (h1 : 1 ≤ ks.length) (h4 : ks.length ≤ 4) :
    (b.setKeys (some ks)).2 = true ∧
      (b.setKeys (some ks)).1.keys.length = 4 ∧
      (∀ i, i < ks.length →
        (b.setKeys (some ks)).1.keys.get? i = (ks.get? i).map charToInt) ∧
      (∀ i ch, ks.get? i = some ch → ch.toNat < 128 →
        (b.setKeys (some ks)).1.keys.get? i = some (ch.toNat : Int)) ∧
      (∀ i ch, ks.get? i = some ch → 128 ≤ ch.toNat → ch.toNat < 256 →
        (b.setKeys (some ks)).1.keys.get? i = some ((ch.toNat : Int) - 256)) ∧
      (∀ i, ks.length ≤ i → i < 4 → (b.setKeys (some ks)).1.keys.get? i = some 0) ∧
      (b.setKeys (some ks)).1 = { b with keys := (b.setKeys (some ks)).1.keys } ∧
      b.setKeys none = (b, true) ∧
      b.setKeys (some []) = (b, true) := by
  have hne : ks ≠ [] := by
    intro h
    rw [h] at h1
    simp at h1
  have hkeys : (b.setKeys (some ks)).1.keys
      = (List.range 4).map (fun i =>
          if i < (ks.map charToInt).length then (ks.map charToInt).getD i 0 else 0) := by
    simp only [ButtonBase.setKeys, hne, if_false]
    exact fillKeys_eq _ _ hk
  have hget : ∀ i, i < 4 → (b.setKeys (some ks)).1.keys.get? i
      = some (if i < ks.length then (ks.map charToInt).getD i 0 else 0) := by
    intro i hi
    rw [hkeys]
    simp only [List.length_map]
    interval_cases i <;> rfl
  have hval : ∀ i, i < ks.length →
      (b.setKeys (some ks)).1.keys.get? i = (ks.get? i).map charToInt := by
    intro i hi
    rw [hget i (by omega), if_pos hi, List.getD_eq_getElem?_getD, List.getElem?_map,
      List.get?_eq_getElem?]
    rw [List.getElem?_eq_getElem hi]
    rfl
  have hlen : ∀ i ch, ks.get? i = some ch → i < ks.length := by
    intro i ch hch
    by_contra hge
    rw [List.get?_eq_none.mpr (by omega)] at hch
    cases hch
  refine ⟨?_, ?_, hval, ?_, ?_, ?_, ?_, rfl, rfl⟩
  · simp only [ButtonBase.setKeys, hne, if_false, isBetween]
    simp only [decide_eq_true_eq]
    omega
  · rw [hkeys]
    simp
  · intro i ch hch hlt
    rw [hval i (hlen i ch hch), hch]
    simp only [Option.map_some', charToInt, if_pos hlt]
  · intro i ch hch hge _
    rw [hval i (hlen i ch hch), hch]
    simp only [Option.map_some', charToInt, if_neg (not_lt.mpr hge)]
  · intro i hi1 hi2
    rw [hget i hi2, if_neg (by omega)]
  · simp only [ButtonBase.setKeys, hne, if_false]

/-- Witness of C14: the key string of the letter `a` and the byte `0xE9` on a fresh button
binds `97` and `-23`. -/
theorem C14_setKeys_string_witness :
    (ButtonBase.setKeys {} (some ['a', Char.ofNat 233])).2 = true ∧
      (ButtonBase.setKeys {} (some ['a', Char.ofNat 233])).1.keys.get? 0 = some 97 ∧
      (ButtonBase.setKeys {} (some ['a', Char.ofNat 233])).1.keys.get? 1 = some (-23) ∧
      (ButtonBase.setKeys {} (some ['a', Char.ofNat 233])).1.keys.get? 2 = some 0 := by
  obtain ⟨h1, -, -, h3, h4, h5, -⟩ :=
    C14_setKeys_string {} ['a', Char.ofNat 233] rfl (by decide) (by decide)
  exact ⟨h1, h3 0 'a' rfl (by decide), h4 1 (Char.ofNat 233) rfl (by decide) (by decide),
    h5 2 (by decide) (by decide)⟩

/-- C15: binding more than 4 keys to a button, or zero keys in the list form, fails the
assertion: `setKeys(const char*)` violates its `ASSERT` exactly when the string is longer
than 4 characters, and `setKeys(initializer_list)` violates its `ASSERT` exactly when the
list has 0 or more than 4 elements; with 1 to 4 keys neither form asserts. -/
theorem C15_setKeys_assert (b : ButtonBase) (ks : Option Str) (lst : List Nat) :
    ((b.setKeys ks).2 = false ↔ ∃ str, ks = some str ∧ 4 < str.length) ∧
      ((b.setKeysList lst).2 = false ↔ (lst.length = 0 ∨ 4 < lst.length)) ∧
      (∀ str, ks = some str → 1 ≤ str.length → str.length ≤ 4 → (b.setKeys ks).2 = true) ∧
      (1 ≤ lst.length → lst.length ≤ 4 → (b.setKeysList lst).2 = true) := by
  have hlist : (b.setKeysList lst).2 = false ↔ (lst.length = 0 ∨ 4 < lst.length) := by
    simp only [ButtonBase.setKeysList, isBetween, decide_eq_false_iff_not]
    omega
  have hstr : ∀ str : Str, (b.setKeys (some str)).2 = false ↔ 4 < str.length := by
    intro str
    by_cases hs : str = []
    · simp [ButtonBase.setKeys, hs]
    · have hpos : 0 < str.length := List.length_pos.mpr hs
      simp only [ButtonBase.setKeys, hs, if_false, isBetween, decide_eq_false_iff_not]
      omega
  refine ⟨?_, hlist, ?_, ?_⟩
  · cases ks with
    | none => simp [ButtonBase.setKeys]
    | some str =>
      rw [hstr str]
      simp
  · intro str hks h1 h4
    rw [hks]
    cases hb : (b.setKeys (some str)).2 with
    | true => rfl
    | false =>
      have := (hstr str).mp hb
      omega
  · intro h1 h4
    cases hb : (b.setKeysList lst).2 with
    | true => rfl
    | false =>
      have := hlist.mp hb
      omega

/-! ### Registering commands -/

/-- Assigning under a key without an entry adds the entry at the end. -/
theorem mapAssign_of_mapFind_none (m : List (Str × Command)) (key : Str) (c : Command)
    (h : mapFind m key = none) : mapAssign m key c = m ++ [(key, c)] := by
  induction m with
  | nil => rfl
  | cons kv rest ih =>
    obtain ⟨k, c0⟩ := kv
    by_cases hk : k = key
    · simp [mapFind, hk] at h
    · simp only [mapFind, hk, if_false] at h
      simp only [mapAssign, hk, if_false, List.cons_append, ih h]

/-- After an assignment the key holds the assigned command. -/
theorem mapFind_mapAssign_self (m : List (Str × Command)) (key : Str) (c : Command) :
    mapFind (mapAssign m key c) key = some c := by
  induction m with
  | nil => simp [mapAssign, mapFind]
  | cons kv rest ih =>
    obtain ⟨k, c0⟩ := kv
    by_cases hk : k = key
    · simp [mapAssign, mapFind, hk]
    · simp [mapAssign, mapFind, hk, ih]

/-- An assignment leaves the entries under the other keys as they were. -/
theorem mapFind_mapAssign_of_ne (m : List (Str × Command)) (key other : Str) (c : Command)
    (h : other ≠ key) : mapFind (mapAssign m key c) other = mapFind m other := by
  induction m with
  | nil => simp [mapAssign, mapFind, Ne.symm h]
  | cons kv rest ih =>
    obtain ⟨k, c0⟩ := kv
    by_cases hk : k = key
    · have hko : k ≠ other := by
        rw [hk]
        exact Ne.symm h
      simp [mapAssign, mapFind, hk, Ne.symm h]
    · by_cases hko : k = other
      · subst hko
        simp [mapAssign, mapFind, hk]
      · simp [mapAssign, mapFind, hk, hko, ih]

/-- C16: `registerCommand(func, comp, data, name, desc)` stores the command under the
lower-cased name: when no entry exists under `str_tolower(name)` the assertion holds and
exactly one entry is added, with that key and a `Command` holding `name` (original case),
`func`, `comp`, `data` and `desc`, every other entry and every other field being unchanged;
when an entry exists under that key the assertion is violated, so registering a name equal
to an already registered name up to letter case violates the assertion. -/
theorem C16_registerCommand (t : TextInputCommandLine) (func comp data : Nat)
    (name desc : Str) :
    (mapFind t.commands (str_tolower name) = none →
        (t.registerCommand func comp data name desc).2 = true ∧
        (t.registerCommand func comp data name desc).1.commands
          = t.commands ++ [(str_tolower name,
              { name := name, func := func, comp := comp, data := data, description := desc })] ∧
        (t.registerCommand func comp data name desc).1.commands.length
          = t.commands.length + 1) ∧
      mapFind (t.registerCommand func comp data name desc).1.commands (str_tolower name)
        = some { name := name, func := func, comp := comp, data := data, description := desc } ∧
      (∀ key, key ≠ str_tolower name →
        mapFind (t.registerCommand func comp data name desc).1.commands key
          = mapFind t.commands key) ∧
      (t.registerCommand func comp data name desc).1
        = { t with commands := (t.registerCommand func comp data name desc).1.commands } ∧
      ((t.registerCommand func comp data name desc).2 = false ↔
        (mapFind t.commands (str_tolower name)).isSome = true) ∧
      (∀ (func2 comp2 data2 : Nat) (name2 desc2 : Str), str_tolower name2 = str_tolower name →
        ((t.registerCommand func comp data name desc).1.registerCommand
          func2 comp2 data2 name2 desc2).2 = false) := by
  have hassert : ∀ (u : TextInputCommandLine) (f c d : Nat) (n ds : Str),
      (u.registerCommand f c d n ds).2 = false ↔
        (mapFind u.commands (str_tolower n)).isSome = true := by
    intro u f c d n ds
    simp only [TextInputCommandLine.registerCommand, mapCount, decide_eq_false_iff_not]
    cases mapFind u.commands (str_tolower n) <;> simp
  refine ⟨?_, ?_, ?_, rfl, hassert t func comp data name desc, ?_⟩
  · intro hnone
    have hadd := mapAssign_of_mapFind_none t.commands (str_tolower name)
      { name := name, func := func, comp := comp, data := data, description := desc } hnone
    refine ⟨?_, ?_, ?_⟩
    · cases hb : (t.registerCommand func comp data name desc).2 with
      | true => rfl
      | false =>
        have h := (hassert t func comp data name desc).mp hb
        rw [hnone] at h
        simp at h
    · simp only [TextInputCommandLine.registerCommand, hadd]
    · simp only [TextInputCommandLine.registerCommand, hadd, List.length_append,
        List.length_singleton]
  · exact mapFind_mapAssign_self _ _ _
  · intro key hkey
    exact mapFind_mapAssign_of_ne _ _ _ _ hkey
  · intro func2 comp2 data2 name2 desc2 hsame
    rw [hassert, hsame]
    have h : mapFind (t.registerCommand func comp data name desc).1.commands (str_tolower name)
        = some { name := name, func := func, comp := comp, data := data, description := desc } :=
      mapFind_mapAssign_self _ _ _
    rw [h]
    rfl

/-! ### Colour picker -/

/-- The hue after the two `float` roundings of `setInitialColor`, for a hue from `1` to
`360`: the quotient by `360` and its product with the 360 states are each rounded, and the
result is less than one away from the hue. -/
theorem hue_product_near (h : ℚ) (h1 : 1 ≤ h) (h2 : h ≤ 360) :
    h - 1 < f32 (f32 (h / 360) * 360) ∧ f32 (f32 (h / 360) * 360) < h + 1 := by
  have e24 : (2 : ℚ) ^ 24 = 16777216 := by norm_num
  have hsmall : (2 : ℚ) ^ (-126 : ℤ) ≤ 1 / 360 := by
    rw [zpow_neg, ← one_div]
    apply one_div_le_one_div_of_le (by norm_num)
    norm_num
  have hxnorm : (2 : ℚ) ^ (-126 : ℤ) ≤ h / 360 := by
    have : (1 : ℚ) / 360 ≤ h / 360 := by
      rw [div_le_div_iff₀ (by norm_num) (by norm_num)]
      linarith
    linarith
  have herr := abs_f32_sub_le hxnorm
  rw [abs_le, e24] at herr
  obtain ⟨hlo, hhi⟩ := herr
  have hynorm : (2 : ℚ) ^ (-126 : ℤ) ≤ f32 (h / 360) * 360 := by
    linarith
  have herr2 := abs_f32_sub_le hynorm
  rw [abs_le, e24] at herr2
  obtain ⟨hlo2, hhi2⟩ := herr2
  constructor <;> linarith

/-- The stored hue is within one state of the floor of the hue: for a hue from `0` to `360`
the floor of the twice rounded hue differs from the floor of the hue by at most one. -/
theorem hue_floor_near (h : ℚ) (h0 : 0 ≤ h) (h2 : h ≤ 360) :
    Int.floor h - 1 ≤ Int.floor (f32 (f32 (h / 360) * 360)) ∧
      Int.floor (f32 (f32 (h / 360) * 360)) ≤ Int.floor h + 1 := by
  rcases le_or_lt 1 h with h1 | h1
  · obtain ⟨hb1, hb2⟩ := hue_product_near h h1 h2
    have hf1 : (Int.floor h : ℚ) ≤ h := Int.floor_le h
    have hf2 : h < (Int.floor h : ℚ) + 1 := Int.lt_floor_add_one h
    constructor
    · rw [Int.le_floor]
      push_cast
      linarith
    · have : Int.floor (f32 (f32 (h / 360) * 360)) < Int.floor h + 2 := by
        rw [Int.floor_lt]
        push_cast
        linarith
      omega
  · have hn : Int.floor h = 0 := by
      rw [Int.floor_eq_iff]
      constructor
      · simpa using h0
      · simpa using h1
    have hlow : (0 : ℚ) ≤ f32 (f32 (h / 360) * 360) := by
      have ha : (0 : ℚ) ≤ f32 (h / 360) := by
        have := f32_mono (show (0 : ℚ) ≤ h / 360 by positivity)
        rwa [f32_zero] at this
      have := f32_mono (show (0 : ℚ) ≤ f32 (h / 360) * 360 by positivity)
      rwa [f32_zero] at this
    have hupp : f32 (f32 (h / 360) * 360) < 2 := by
      have ha : f32 (h / 360) ≤ f32 (1 / 360) := by
        apply f32_mono
        rw [div_le_div_iff₀ (by norm_num) (by norm_num)]
        linarith
      have hb : f32 (f32 (h / 360) * 360) ≤ f32 (f32 (1 / 360) * 360) :=
        f32_mono (by linarith)
      have := (hue_product_near 1 (le_refl _) (by norm_num)).2
      linarith
    rw [hn]
    constructor
    · have : (0 : Int) ≤ Int.floor (f32 (f32 (h / 360) * 360)) := Int.floor_nonneg.mpr hlow
      omega
    · have : Int.floor (f32 (f32 (h / 360) * 360)) < 2 := by
        rw [Int.floor_lt]
        exact_mod_cast hupp
      omega

/-- Counterexample to C17 as stated: for the hue `121` the quotient `121 / 360` rounds to
`11278017 / 2 ^ 25` and its product with 360 to `15859711 / 2 ^ 17 = 120.99999...`, so the
hue slider is set to `120`, not to `clamp(floor(121), 0, 359) = 121`. -/
theorem C17_setInitialColor_hue_one_lower :
    (ColorPicker.setInitialColor (fun _ => ⟨121, 1, 1⟩)
        { hueSlider := { values := 360 } } 7).hueSlider.value = 120 ∧
      clamp (Int.floor (121 : ℚ)) 0 359 = 121 := by
  have h1 : f32 ((121 : ℚ) / 360) = 11278017 / 33554432 := by
    rw [f32_eval (-2) (by norm_num) (by norm_num) (by norm_num)]
    norm_num [roundEven]
  have h2 : f32 (360 : ℚ) = 360 := by
    simpa using f32_natCast 360 (by norm_num)
  have h3 : f32 ((11278017 / 33554432 : ℚ) * 360) = 15859711 / 131072 := by
    rw [f32_eval 6 (by norm_num) (by norm_num) (by norm_num)]
    norm_num [roundEven]
  constructor
  · simp only [ColorPicker.setInitialColor, OptionSlider.setValueFloat,
      OptionSlider.floatToValue, floor_int, clamp, Int.cast_ofNat, h1, h2, h3]
    norm_num
  · norm_num [clamp]

/-- C17, amended: for every initial colour `c`, after `ColorPicker::setInitialColor(c)` on a
picker whose hue slider has the 360 states set by the constructor, and after construction
with `c`, the hue slider has 360 states and `hueSlider.value = clamp(floor(h1), 0, 359)`
where `h1` is the hue component `h` of `rgb2hsvf(c)` after the two `float` roundings of the
code, `h1 = fl(fl(h / 360) * 360)`; for `0 <= h <= 360` this value is within one state of
`clamp(floor(h), 0, 359)`. So the hue value lies in `[0, 360)`, `hsvColor = rgb2hsvf(c)` and
`initialColor = c`. -/
theorem C17_setInitialColor_hue (rgb2hsvf : Nat → float3) (p : ColorPicker) (c : Nat)
    (hp : p.hueSlider.values = 360) :
    (p.setInitialColor rgb2hsvf c).hueSlider.values = 360 ∧
      (p.setInitialColor rgb2hsvf c).hueSlider.value
        = max 0 (min (Int.floor (f32 (f32 ((rgb2hsvf c).x / 360) * 360))) 359) ∧
      (0 ≤ (rgb2hsvf c).x → (rgb2hsvf c).x ≤ 360 →
        max 0 (min (Int.floor (rgb2hsvf c).x) 359) - 1
            ≤ (p.setInitialColor rgb2hsvf c).hueSlider.value ∧
          (p.setInitialColor rgb2hsvf c).hueSlider.value
            ≤ max 0 (min (Int.floor (rgb2hsvf c).x) 359) + 1) ∧
      0 ≤ (p.setInitialColor rgb2hsvf c).hueSlider.value ∧
      (p.setInitialColor rgb2hsvf c).hueSlider.value < 360 ∧
      (p.setInitialColor rgb2hsvf c).hsvColor = rgb2hsvf c ∧
      (p.setInitialColor rgb2hsvf c).initialColor = c ∧
      (ColorPicker.create rgb2hsvf c).hueSlider.values = 360 ∧
      (ColorPicker.create rgb2hsvf c).hueSlider.value
        = max 0 (min (Int.floor (f32 (f32 ((rgb2hsvf c).x / 360) * 360))) 359) ∧
      (ColorPicker.create rgb2hsvf c).hsvColor = rgb2hsvf c ∧
      (ColorPicker.create rgb2hsvf c).initialColor = c := by
  have h360 : f32 (360 : ℚ) = 360 := by
    simpa using f32_natCast 360 (by norm_num)
  have hval : ∀ q : ColorPicker, q.hueSlider.values = 360 →
      (q.setInitialColor rgb2hsvf c).hueSlider.value
        = max 0 (min (Int.floor (f32 (f32 ((rgb2hsvf c).x / 360) * 360))) 359) := by
    intro q hq
    simp only [ColorPicker.setInitialColor, OptionSlider.setValueFloat,
      OptionSlider.floatToValue, floor_int, clamp, hq, Int.cast_ofNat, h360]
    omega
  have h1 := hval p hp
  refine ⟨hp, h1, ?_, ?_, ?_, rfl, rfl, rfl, hval _ rfl, rfl, rfl⟩
  · intro h0 h2
    obtain ⟨hn1, hn2⟩ := hue_floor_near (rgb2hsvf c).x h0 h2
    rw [h1]
    constructor <;> omega
  · rw [h1]
    omega
  · rw [h1]
    omega

/-- Witness of C17, amended: the hue `121` is stored as the state `120`. -/
theorem C17_setInitialColor_hue_witness :
    (ColorPicker.setInitialColor (fun _ => ⟨121, 1, 1⟩)
      { hueSlider := { values := 360 } } 7).hueSlider.value = 120 := by
  have h := (C17_setInitialColor_hue (fun _ => ⟨121, 1, 1⟩)
    { hueSlider := { values := 360 } } 7 rfl).2.1
  have h1 : f32 ((121 : ℚ) / 360) = 11278017 / 33554432 := by
    rw [f32_eval (-2) (by norm_num) (by norm_num) (by norm_num)]
    norm_num [roundEven]
  have h3 : f32 ((11278017 / 33554432 : ℚ) * 360) = 15859711 / 131072 := by
    rw [f32_eval 6 (by norm_num) (by norm_num) (by norm_num)]
    norm_num [roundEven]
  rw [h]
  simp only [h1, h3]
  norm_num

/-! ### The cap on the chain of memory pools -/

/-- The method `create` leaves `index` as it was. -/
theorem create_index (p : MemoryPool) (cnt : Nat) (env : List Nat) :
    (p.create cnt env).2.1.index = p.index := by
  simp only [MemoryPool.create]
  split
  · rfl
  · split <;> rfl

/-- The chain of an outcome seen from the pool in front. -/
theorem chain?_behind (p : MemoryPool) (r : AllocResult) :
    (AllocResult.behind p r).chain? = r.chain?.map (fun chain => p :: chain) := by
  cases r <;> rfl

/-- A call of `allocate` keeps the values of `index` consecutive and the end of the chain
within the cap. -/
theorem allocate_chainIndexed :
    ∀ (fuel : Nat) (k : Int) (chain : List MemoryPool) (env : List Nat)
      (chain1 : List MemoryPool),
      chainIndexed k chain → k + (chain.length : Int) ≤ kMempoolMaxChain →
      (MemoryPool.allocate fuel chain env).chain? = some chain1 →
      chainIndexed k chain1 ∧ k + (chain1.length : Int) ≤ kMempoolMaxChain := by
  intro fuel
  induction fuel with
  | zero =>
    intro k chain env chain1 _ _ h
    simp [MemoryPool.allocate, AllocResult.chain?] at h
  | succ fuel ih =>
    intro k chain env chain1 hidx hlen h
    match chain, hidx, hlen, h with
    | [], _, _, h => simp [MemoryPool.allocate, AllocResult.chain?] at h
    | p :: rest, hidx, hlen, h =>
      obtain ⟨hp, hrest⟩ := hidx
      simp only [MemoryPool.allocate] at h
      split at h
      · simp only [AllocResult.chain?, Option.some.injEq] at h
        subst h
        exact ⟨⟨hp, hrest⟩, hlen⟩
      · split at h
        · split at h
          · simp only [AllocResult.chain?, Option.some.injEq] at h
            subst h
            exact ⟨⟨hp, hrest⟩, hlen⟩
          · rename_i hcap
            split at h
            · simp only [AllocResult.chain?, Option.some.injEq] at h
              subst h
              exact ⟨⟨hp, hrest⟩, hlen⟩
            · rw [chain?_behind] at h
              cases hin : (MemoryPool.allocate fuel
                  [(MemoryPool.create { element_size := p.element_size, index := p.index + 1 }
                    p.count env).2.1]
                  (MemoryPool.create { element_size := p.element_size, index := p.index + 1 }
                    p.count env).2.2).chain? with
              | none => simp [hin] at h
              | some inner =>
                simp only [hin, Option.map_some', Option.some.injEq] at h
                subst h
                have hnew : chainIndexed (k + 1)
                    [(MemoryPool.create { element_size := p.element_size, index := p.index + 1 }
                      p.count env).2.1] := by
                  refine ⟨?_, trivial⟩
                  rw [create_index, hp]
                have hcap2 : k + 1 + (([(MemoryPool.create
                    { element_size := p.element_size, index := p.index + 1 }
                    p.count env).2.1].length : Nat) : Int) ≤ kMempoolMaxChain := by
                  simp only [List.length_singleton, Nat.cast_one]
                  simp only [ge_iff_le, not_le] at hcap
                  omega
                obtain ⟨h1, h2⟩ := ih (k + 1) _ _ inner hnew hcap2 hin
                refine ⟨⟨hp, h1⟩, ?_⟩
                simp only [List.length_cons, Nat.cast_add, Nat.cast_one] at h2 ⊢
                omega
        · rename_i q more
          rw [chain?_behind] at h
          cases hin : (MemoryPool.allocate fuel (q :: more) env).chain? with
          | none => simp [hin] at h
          | some inner =>
            simp only [hin, Option.map_some', Option.some.injEq] at h
            subst h
            have hcap2 : k + 1 + (((q :: more).length : Nat) : Int) ≤ kMempoolMaxChain := by
              simp only [List.length_cons, Nat.cast_add, Nat.cast_one] at hlen ⊢
              omega
            obtain ⟨h1, h2⟩ := ih (k + 1) _ _ inner hrest hcap2 hin
            refine ⟨⟨hp, h1⟩, ?_⟩
            simp only [List.length_cons, Nat.cast_add, Nat.cast_one] at h2 ⊢
            omega

/-- A call of `deallocate` changes neither the length of the chain nor any `index`. -/
theorem deallocate_chainIndexed (ptr : Nat) :
    ∀ (chain : List MemoryPool) (k : Int), chainIndexed k chain →
      chainIndexed k (MemoryPool.deallocate chain ptr) ∧
        (MemoryPool.deallocate chain ptr).length = chain.length := by
  intro chain
  induction chain with
  | nil => intro k _; exact ⟨trivial, rfl⟩
  | cons p rest ih =>
    intro k h
    obtain ⟨hp, hrest⟩ := h
    simp only [MemoryPool.deallocate]
    split
    · exact ⟨⟨hp, hrest⟩, rfl⟩
    · obtain ⟨h1, h2⟩ := ih (k + 1) hrest
      exact ⟨⟨hp, h1⟩, by simp [h2]⟩

/-- Every chain grown from a head pool of index `0` has consecutive values of `index` from
`0` and stays within the cap. -/
theorem reachable_chainIndexed (chain : List MemoryPool) (h : ChainReachable chain) :
    chainIndexed 0 chain ∧ 0 + (chain.length : Int) ≤ kMempoolMaxChain := by
  induction h with
  | start p hp => exact ⟨⟨hp, trivial⟩, by simp [kMempoolMaxChain]⟩
  | allocate chain fuel env r chain1 _ hr hc ih =>
    subst hr
    exact allocate_chainIndexed fuel 0 chain env chain1 ih.1 ih.2 hc
  | deallocate chain ptr _ ih =>
    obtain ⟨h1, h2⟩ := deallocate_chainIndexed ptr chain 0 ih.1
    exact ⟨h1, by rw [h2]; exact ih.2⟩

/-- A chain without a free chunk whose last pool is at the cap throws from the head: the
exception of the last pool passes through every pool in front, and nothing changes. -/
theorem allocate_exhausted (p : MemoryPool) (env : List Nat) (hp : p.first = [])
    (hidx : p.index + 1 ≥ kMempoolMaxChain) :
    ∀ (front : List MemoryPool) (fuel : Nat), (∀ q ∈ front, q.first = []) →
      front.length + 1 ≤ fuel →
      MemoryPool.allocate fuel (front ++ [p]) env = AllocResult.bad_alloc (front ++ [p]) env := by
  intro front
  induction front with
  | nil =>
    intro fuel _ hfuel
    obtain ⟨f, rfl⟩ : ∃ f, fuel = f + 1 := ⟨fuel - 1, by simp at hfuel; omega⟩
    simp only [List.nil_append, MemoryPool.allocate, hp, hidx, if_true]
  | cons q cs ih =>
    intro fuel hempty hfuel
    obtain ⟨f, rfl⟩ : ∃ f, fuel = f + 1 := ⟨fuel - 1, by simp at hfuel; omega⟩
    have hq : q.first = [] := hempty q (List.mem_cons_self _ _)
    have hrec := ih f (fun x hx => hempty x (List.mem_cons_of_mem _ hx))
      (by simp only [List.length_cons] at hfuel; omega)
    cases hcs : cs ++ [p] with
    | nil => simp at hcs
    | cons x more =>
      rw [hcs] at hrec
      rw [List.cons_append, hcs]
      simp only [MemoryPool.allocate, hq, hrec, AllocResult.behind]

/-- C18: the overflow-chained pool has a fixed chain-length cap and throws on exhaustion:
`MemoryPool::allocate()` on a pool whose free list is empty, that has no next pool and whose
`index + 1 >= kMempoolMaxChain` (10), throws `std::bad_alloc` without creating a pool,
without calling `malloc` and without changing `first` or `used`, also when the call comes
through the pools in front of it; consequently a chain whose head has index `0` never
contains more than `kMempoolMaxChain` pools. -/
theorem C18_allocate_cap (p : MemoryPool) (env : List Nat) (front : List MemoryPool)
    (fuel : Nat) (hp : p.first = []) (hidx : p.index + 1 ≥ kMempoolMaxChain)
    (hfront : ∀ q ∈ front, q.first = []) (hfuel : front.length + 1 ≤ fuel) :
    MemoryPool.allocate (fuel - front.length) [p] env = AllocResult.bad_alloc [p] env ∧
      MemoryPool.allocate fuel (front ++ [p]) env
        = AllocResult.bad_alloc (front ++ [p]) env ∧
      (∀ chain, ChainReachable chain → (chain.length : Int) ≤ kMempoolMaxChain) := by
  refine ⟨?_, allocate_exhausted p env hp hidx front fuel hfront hfuel, ?_⟩
  · exact allocate_exhausted p env hp hidx [] (fuel - front.length) (fun _ h => by simp at h)
      (by simp only [List.length_nil]; omega)
  · intro chain hreach
    have h := (reachable_chainIndexed chain hreach).2
    omega

/-- Witness of C18: a pool of index 9 without a free chunk, reached through one pool of
index 8 without a free chunk. -/
theorem C18_allocate_cap_witness :
    MemoryPool.allocate 2
        [{ element_size := 8, count := 1, pool := 64, index := 8 },
          { element_size := 8, count := 1, pool := 128, index := 9 }] [256]
      = AllocResult.bad_alloc
        [{ element_size := 8, count := 1, pool := 64, index := 8 },
          { element_size := 8, count := 1, pool := 128, index := 9 }] [256] :=
  (C18_allocate_cap { element_size := 8, count := 1, pool := 128, index := 9 } [256]
    [{ element_size := 8, count := 1, pool := 64, index := 8 }] 2 rfl (by decide)
    (by decide) (by decide)).2.1

/-! ### Scrolling a row into view -/

/-- C19: for every Scrollbar state satisfying the window invariant and every row,
`makeVisible(row)` sets `first = row` if `row < first`, sets `first = row - lines + 1` if
`row >= first + lines` (and not `row < first`, which `lines >= 0` excludes), and otherwise
leaves the scrollbar unchanged; only `first` is written. The scroll is a minimal
adjustment: with at least one visible line the row is visible afterwards, and no window
showing the row is nearer to the old `first`. `ButtonWindow::scrollfor(idx)` does this for
the row `idx / dims.x`. -/
theorem C19_makeVisible_minimal (s : Scrollbar) (row : Int) (_h0 : 0 ≤ s.first)
    (_hinv : s.first + s.lines ≤ s.steps) :
    (row < s.first → (s.makeVisible row).first = row) ∧
      (s.first + s.lines ≤ row → s.first ≤ row → (s.makeVisible row).first = row - s.lines + 1) ∧
      (0 ≤ s.lines → s.first + s.lines ≤ row → (s.makeVisible row).first = row - s.lines + 1) ∧
      (s.first ≤ row → row < s.first + s.lines → s.makeVisible row = s) ∧
      s.makeVisible row = { s with first := (s.makeVisible row).first } ∧
      (1 ≤ s.lines →
        (s.makeVisible row).first ≤ row ∧
        row < (s.makeVisible row).first + (s.makeVisible row).lines ∧
        ∀ f : Int, f ≤ row → row < f + s.lines →
          |(s.makeVisible row).first - s.first| ≤ |f - s.first|) ∧
      (∀ (w : ButtonWindow) (idx : Int), w.dims.x ≠ 0 →
        (w.scrollfor idx).map (fun w1 => w1.scrollbar)
          = some (w.scrollbar.makeVisible (Int.tdiv idx w.dims.x))) := by
  refine ⟨?_, ?_, ?_, ?_, ?_, ?_, ?_⟩
  · intro h
    simp only [Scrollbar.makeVisible, h, if_true]
  · intro h1 h2
    simp only [Scrollbar.makeVisible, not_lt.mpr h2, if_false, ge_iff_le, h1, if_true]
  · intro h0 h1
    have h2 : s.first ≤ row := by omega
    simp only [Scrollbar.makeVisible, not_lt.mpr h2, if_false, ge_iff_le, h1, if_true]
  · intro h1 h2
    simp only [Scrollbar.makeVisible, not_lt.mpr h1, if_false, ge_iff_le, not_le.mpr h2]
  · simp only [Scrollbar.makeVisible]
    split
    · rfl
    · split <;> rfl
  · intro hl
    simp only [Scrollbar.makeVisible]
    split
    · rename_i h
      refine ⟨le_refl _, by simp only; omega, ?_⟩
      intro f hf1 hf2
      simp only
      rw [abs_le]
      constructor
      · have := neg_abs_le (f - s.first)
        have := le_abs_self (f - s.first)
        have := neg_le_abs (f - s.first)
        omega
      · have := neg_le_abs (f - s.first)
        omega
    · rename_i h
      split
      · rename_i h2
        refine ⟨by simp only; omega, by simp only; omega, ?_⟩
        intro f hf1 hf2
        simp only
        rw [abs_le]
        have := le_abs_self (f - s.first)
        constructor <;> omega
      · rename_i h2
        refine ⟨by omega, by omega, ?_⟩
        intro f _ _
        simp only [sub_self, abs_zero]
        exact abs_nonneg _
  · intro w idx hx
    simp only [ButtonWindow.scrollfor, hx, if_false, Option.map_some']

/-- Witness of C19: a window of three lines at rows 2 to 4 scrolls down to show row 7. -/
theorem C19_makeVisible_minimal_witness :
    (Scrollbar.makeVisible { first := 2, lines := 3, steps := 10 } 7).first = 5 := by
  have h := (C19_makeVisible_minimal { first := 2, lines := 3, steps := 10 } 7
    (by decide) (by decide)).2.1 (by decide) (by decide)
  simpa using h

/-! ### Resolving a command abbreviation -/

/-- C20: command resolution prefers an exact (case-insensitive) name match over prefix
matches: after registering "foo" and "foobar", the abbreviation "foo" (in any letter case)
yields the command "foo"; in general an entry under the lower-cased abbreviation is the
result whatever else is registered; with no exact match, the one registered name that has
the abbreviation as a prefix is chosen, and zero or several such names resolve to no
command. -/
theorem C20_getCommand_exact_then_unique_prefix (t : TextInputCommandLine) (abbr : Str) :
    (∀ c, mapFind t.commands (str_tolower abbr) = some c → t.getCommand abbr = some c) ∧
      (mapFind t.commands (str_tolower abbr) = none →
        ∀ kv, t.commands.filter
            (fun kv => decide (kv.1.take (str_tolower abbr).length = str_tolower abbr)) = [kv] →
          t.getCommand abbr = some kv.2) ∧
      (mapFind t.commands (str_tolower abbr) = none →
        (t.commands.filter
            (fun kv => decide (kv.1.take (str_tolower abbr).length = str_tolower abbr))).length
          ≠ 1 →
        t.getCommand abbr = none) ∧
      (∀ key : Str, key.take (str_tolower abbr).length = str_tolower abbr ↔
        str_tolower abbr <+: key) ∧
      consoleFooFoobar.getCommand ['f', 'o', 'o']
        = some { name := ['f', 'o', 'o'], func := 1, comp := 0, data := 0, description := ['a'] } ∧
      consoleFooFoobar.getCommand ['F', 'o', 'O']
        = some { name := ['f', 'o', 'o'], func := 1, comp := 0, data := 0, description := ['a'] } ∧
      consoleFooFoobar.getCommand ['f', 'o', 'o', 'b']
        = some { name := ['f', 'o', 'o', 'b', 'a', 'r'], func := 2, comp := 0, data := 0,
                 description := ['b'] } ∧
      consoleFooFoobar.getCommand ['f', 'o'] = none ∧
      consoleFooFoobar.getCommand ['b', 'a', 'r'] = none := by
  refine ⟨?_, ?_, ?_, ?_, by decide, by decide, by decide, by decide, by decide⟩
  · intro c hc
    simp only [TextInputCommandLine.getCommand, hc]
  · intro hnone kv hkv
    simp only [TextInputCommandLine.getCommand, hnone, hkv]
  · intro hnone hlen
    simp only [TextInputCommandLine.getCommand, hnone]
    split
    · rename_i kv heq
      rw [heq] at hlen
      simp at hlen
    · rfl
  · intro key
    rw [List.prefix_iff_eq_take]
    exact eq_comm

/-! ### Button colours -/

/-- C21: an inactive button is drawn with the inactive colour whatever its other state:
for every Button, `getFGColor(selected)` returns `inactiveLineColor` whenever `active` is
false, regardless of `hovered` and `selected`; when active it returns `hoveredLineColor` if
hovered or selected and `defaultLineColor` otherwise. -/
theorem C21_getFGColor (b : Button) (selected : Bool) :
    (b.active = false → b.getFGColor selected = b.inactiveLineColor) ∧
      (b.active = true → (b.hovered = true ∨ selected = true) →
        b.getFGColor selected = b.hoveredLineColor) ∧
      (b.active = true → b.hovered = false → selected = false →
        b.getFGColor selected = b.defaultLineColor) := by
  refine ⟨?_, ?_, ?_⟩
  · intro ha
    simp [Button.getFGColor, ha]
  · intro ha hs
    rcases hs with h | h <;> simp [Button.getFGColor, ha, h]
  · intro ha hh hs
    simp [Button.getFGColor, ha, hh, hs]

/-! ### Termination of the column search -/

/-- C28: for every ButtonLayout with `buttonCount.x >= 1` and every `idx >= 0`,
`setScalarIndex(idx)` followed by `getScalarIndex()` returns `idx`, the column set by
`setScalarIndex` satisfies `0 <= index.x < buttonCount.x`, `index.y = idx / buttonCount.x`,
and nothing but `index` is written. -/
theorem C28_setScalarIndex_getScalarIndex (bl : ButtonLayout) (idx : Int)
    (hx : 1 ≤ bl.buttonCount.x) (hi : 0 ≤ idx) :
    ∃ r, bl.setScalarIndex idx = some r ∧ r.getScalarIndex = idx ∧
      0 ≤ r.index.x ∧ r.index.x < bl.buttonCount.x ∧
      r.index.y = idx / bl.buttonCount.x ∧
      r = { bl with index := r.index } := by
  have hne : bl.buttonCount.x ≠ 0 := by omega
  have hrun : bl.setScalarIndex idx
      = some { bl with index := ⟨Int.tmod idx bl.buttonCount.x, Int.tdiv idx bl.buttonCount.x⟩ } := by
    simp only [ButtonLayout.setScalarIndex, hne, if_false]
  have hd : Int.tdiv idx bl.buttonCount.x = idx / bl.buttonCount.x :=
    Int.tdiv_eq_ediv hi (by omega)
  have hm : Int.tmod idx bl.buttonCount.x = idx % bl.buttonCount.x :=
    Int.tmod_eq_emod hi (by omega)
  refine ⟨_, hrun, ?_, ?_, ?_, hd, rfl⟩
  · show Int.tdiv idx bl.buttonCount.x * bl.buttonCount.x + Int.tmod idx bl.buttonCount.x = idx
    rw [hd, hm]
    exact Int.ediv_add_emod' idx bl.buttonCount.x
  · show 0 ≤ Int.tmod idx bl.buttonCount.x
    rw [hm]
    exact Int.emod_nonneg _ hne
  · show Int.tmod idx bl.buttonCount.x < bl.buttonCount.x
    rw [hm]
    exact Int.emod_lt_of_pos _ (by omega)

/-- Witness of C28: the index 7 in a grid of three columns is column 1 of row 2. -/
theorem C28_setScalarIndex_getScalarIndex_witness :
    ∃ r, ButtonLayout.setScalarIndex { buttonCount := ⟨3, 3⟩ } 7 = some r ∧
      r.getScalarIndex = 7 ∧ r.index.y = 2 := by
  obtain ⟨r, h1, h2, -, -, h5, -⟩ :=
    C28_setScalarIndex_getScalarIndex { buttonCount := ⟨3, 3⟩ } 7 (by decide) (by decide)
  exact ⟨r, h1, h2, by rw [h5]; decide⟩

/-! ### Gamepad axis events -/

/-- Below `2^(2k)` the mask of the upper `k` bits meets `v` exactly when `v` is at least
`2^k`. -/
theorem and_upper_mask_eq_zero_iff (k v : Nat) (hv : v < 2 ^ (2 * k)) :
    v &&& (2 ^ k * (2 ^ k - 1)) = 0 ↔ v < 2 ^ k := by
  constructor
  · intro h
    by_contra hge
    obtain ⟨j, hj1, hj2⟩ := Nat.ge_two_pow_implies_high_bit_true (not_lt.mp hge)
    have hj3 : j < 2 * k := by
      by_contra hjk
      have hle : 2 ^ (2 * k) ≤ 2 ^ j := Nat.pow_le_pow_right (by decide) (not_lt.mp hjk)
      have := Nat.testBit_lt_two_pow (lt_of_lt_of_le hv hle)
      rw [hj2] at this
      exact Bool.noConfusion this
    have hbit : (v &&& (2 ^ k * (2 ^ k - 1))).testBit j = true := by
      rw [Nat.testBit_and, hj2, Nat.testBit_mul_pow_two, Nat.testBit_two_pow_sub_one]
      simp only [Bool.true_and, Bool.and_eq_true, decide_eq_true_eq]
      exact ⟨hj1, by omega⟩
    rw [h, Nat.zero_testBit] at hbit
    exact Bool.noConfusion hbit
  · intro h
    apply Nat.zero_of_testBit_eq_false
    intro j
    rw [Nat.testBit_and]
    by_cases hj : k ≤ j
    · have hle : 2 ^ k ≤ 2 ^ j := Nat.pow_le_pow_right (by decide) hj
      rw [Nat.testBit_lt_two_pow (lt_of_lt_of_le h hle)]
      rfl
    · rw [Nat.testBit_mul_pow_two]
      simp [hj]

/-- One line `if (v&mask) { i += k; v >>= k; }` on a value below `2^(2k)` whose highest
set bit is `r`: the value left is below `2^k`, and its highest set bit `r1` satisfies
`i1 + r1 = i + r`. -/
theorem findLeadingOneStep_spec (k v r : Nat) (i : Int) (hv : v < 2 ^ (2 * k))
    (h1 : 2 ^ r ≤ v) (h2 : v < 2 ^ (r + 1)) :
    ∃ r1 : Nat,
      (findLeadingOneStep (2 ^ k * (2 ^ k - 1)) k (v, i)).1 < 2 ^ k ∧
      2 ^ r1 ≤ (findLeadingOneStep (2 ^ k * (2 ^ k - 1)) k (v, i)).1 ∧
      (findLeadingOneStep (2 ^ k * (2 ^ k - 1)) k (v, i)).1 < 2 ^ (r1 + 1) ∧
      (findLeadingOneStep (2 ^ k * (2 ^ k - 1)) k (v, i)).2 + (r1 : Int) = i + (r : Int) := by
  by_cases hlow : v < 2 ^ k
  · have hz := (and_upper_mask_eq_zero_iff k v hv).mpr hlow
    refine ⟨r, ?_, ?_, ?_, ?_⟩ <;>
      simp only [findLeadingOneStep, hz, ne_eq, not_true_eq_false, if_false] <;> assumption
  · have hnz : v &&& (2 ^ k * (2 ^ k - 1)) ≠ 0 := fun h =>
      hlow ((and_upper_mask_eq_zero_iff k v hv).mp h)
    have hkr : k ≤ r := by
      by_contra hkr
      have hle : 2 ^ (r + 1) ≤ 2 ^ k := Nat.pow_le_pow_right (by decide) (by omega)
      omega
    have hpos : 0 < 2 ^ k := Nat.two_pow_pos k
    have hr : r - k + k = r := Nat.sub_add_cancel hkr
    refine ⟨r - k, ?_, ?_, ?_, ?_⟩ <;>
      simp only [findLeadingOneStep, hnz, ne_eq, not_false_eq_true, if_true,
        Nat.shiftRight_eq_div_pow]
    · rw [Nat.div_lt_iff_lt_mul hpos, ← pow_add]
      have : k + k = 2 * k := by ring
      rw [this]
      exact hv
    · rw [Nat.le_div_iff_mul_le hpos, ← pow_add, hr]
      exact h1
    · rw [Nat.div_lt_iff_lt_mul hpos, ← pow_add]
      have : r - k + 1 + k = r + 1 := by omega
      rw [this]
      exact h2
    · have : ((r - k : Nat) : Int) = (r : Int) - (k : Int) := Int.ofNat_sub hkr
      rw [this]
      ring

/-- The 32-bit `findLeadingOne` on a value whose highest set bit is `r`. -/
theorem findLeadingOne_of_high_bit (v r : Nat) (i : Int) (hv : v < 2 ^ 32) (h1 : 2 ^ r ≤ v)
    (h2 : v < 2 ^ (r + 1)) : findLeadingOne v i = i + (r : Int) := by
  have e16 : (0xffff0000 : Nat) = 2 ^ 16 * (2 ^ 16 - 1) := by norm_num
  have e8 : (0xff00 : Nat) = 2 ^ 8 * (2 ^ 8 - 1) := by norm_num
  have e4 : (0xf0 : Nat) = 2 ^ 4 * (2 ^ 4 - 1) := by norm_num
  have e2 : (0xc : Nat) = 2 ^ 2 * (2 ^ 2 - 1) := by norm_num
  unfold findLeadingOne
  rw [e16, e8, e4, e2]
  obtain ⟨r1, a1, b1, c1, d1⟩ := findLeadingOneStep_spec 16 v r i hv h1 h2
  generalize findLeadingOneStep (2 ^ 16 * (2 ^ 16 - 1)) 16 (v, i) = s1 at a1 b1 c1 d1 ⊢
  obtain ⟨v1, i1⟩ := s1
  obtain ⟨r2, a2, b2, c2, d2⟩ := findLeadingOneStep_spec 8 v1 r1 i1 a1 b1 c1
  generalize findLeadingOneStep (2 ^ 8 * (2 ^ 8 - 1)) 8 (v1, i1) = s2 at a2 b2 c2 d2 ⊢
  obtain ⟨v2, i2⟩ := s2
  obtain ⟨r3, a3, b3, c3, d3⟩ := findLeadingOneStep_spec 4 v2 r2 i2 a2 b2 c2
  generalize findLeadingOneStep (2 ^ 4 * (2 ^ 4 - 1)) 4 (v2, i2) = s3 at a3 b3 c3 d3 ⊢
  obtain ⟨v3, i3⟩ := s3
  obtain ⟨r4, a4, b4, c4, d4⟩ := findLeadingOneStep_spec 2 v3 r3 i3 a3 b3 c3
  generalize findLeadingOneStep (2 ^ 2 * (2 ^ 2 - 1)) 2 (v3, i3) = s4 at a4 b4 c4 d4 ⊢
  obtain ⟨v4, i4⟩ := s4
  simp only at d1 d2 d3 d4 a4 b4 c4 ⊢
  have hsum : i4 + (r4 : Int) = i + (r : Int) := by omega
  have hcases : (v4 = 1 ∧ r4 = 0) ∨ ((v4 = 2 ∨ v4 = 3) ∧ r4 = 1) := by
    match r4, b4, c4 with
    | 0, b, c =>
      left
      simp only [pow_zero, zero_add, pow_one] at b c
      omega
    | 1, b, c =>
      right
      simp only [pow_one] at b
      omega
    | n + 2, b, _ =>
      exfalso
      have hle : 2 ^ 2 ≤ 2 ^ (n + 2) := Nat.pow_le_pow_right (by decide) (by omega)
      omega
  rcases hcases with ⟨hv4, hr4⟩ | ⟨hv4 | hv4, hr4⟩ <;> subst hv4 <;> subst hr4 <;>
    simp <;> omega

/-- The 64-bit `findLeadingOne` on a value whose highest set bit is `r`. -/
theorem findLeadingOne64_of_high_bit (v r : Nat) (hv : v < 2 ^ 64) (h1 : 2 ^ r ≤ v)
    (h2 : v < 2 ^ (r + 1)) : findLeadingOne64 v = (r : Int) := by
  have e32 : (0xffffffff00000000 : Nat) = 2 ^ 32 * (2 ^ 32 - 1) := by norm_num
  unfold findLeadingOne64
  rw [e32]
  by_cases hlow : v < 2 ^ 32
  · have hz := (and_upper_mask_eq_zero_iff 32 v hv).mpr hlow
    simp only [hz, ne_eq, not_true_eq_false, if_false, Nat.mod_eq_of_lt hlow]
    rw [findLeadingOne_of_high_bit v r 0 hlow h1 h2]
    omega
  · have hnz : v &&& (2 ^ 32 * (2 ^ 32 - 1)) ≠ 0 := fun h =>
      hlow ((and_upper_mask_eq_zero_iff 32 v hv).mp h)
    have hkr : 32 ≤ r := by
      by_contra hkr
      have hle : 2 ^ (r + 1) ≤ 2 ^ 32 := Nat.pow_le_pow_right (by decide) (by omega)
      omega
    have hpos : 0 < 2 ^ 32 := Nat.two_pow_pos 32
    have hhi : v >>> 32 < 2 ^ 32 := by
      rw [Nat.shiftRight_eq_div_pow, Nat.div_lt_iff_lt_mul hpos, ← pow_add]
      exact hv
    have hb1 : 2 ^ (r - 32) ≤ v >>> 32 := by
      rw [Nat.shiftRight_eq_div_pow, Nat.le_div_iff_mul_le hpos, ← pow_add,
        Nat.sub_add_cancel hkr]
      exact h1
    have hb2 : v >>> 32 < 2 ^ (r - 32 + 1) := by
      rw [Nat.shiftRight_eq_div_pow, Nat.div_lt_iff_lt_mul hpos, ← pow_add]
      have : r - 32 + 1 + 32 = r + 1 := by omega
      rw [this]
      exact h2
    simp only [hnz, ne_eq, not_false_eq_true, if_true, Nat.mod_eq_of_lt hhi]
    rw [findLeadingOne_of_high_bit (v >>> 32) (r - 32) 32 hhi hb1 hb2]
    omega

/-- C25: for every 32-bit `v != 0` and every offset `i`, `findLeadingOne(v, i) = i + r`
where `r` is the position of the highest set bit of `v` (`2^r <= v < 2^(r+1)`), and
`findLeadingOne(0, i) = -1` for every `i`; for every 64-bit `v != 0`, `findLeadingOne(v)`
is the position `r` of its highest set bit (`0 <= r <= 63`), and `findLeadingOne(0) = -1`.
The position `r` is `Nat.log2 v`. -/
theorem C25_findLeadingOne (v : Nat) (i : Int) :
    (v ≠ 0 → 2 ^ Nat.log2 v ≤ v ∧ v < 2 ^ (Nat.log2 v + 1)) ∧
      (v ≠ 0 → v < 2 ^ 32 → findLeadingOne v i = i + (Nat.log2 v : Int)) ∧
      (∀ r : Nat, v < 2 ^ 32 → 2 ^ r ≤ v → v < 2 ^ (r + 1) →
        findLeadingOne v i = i + (r : Int)) ∧
      findLeadingOne 0 i = -1 ∧
      (v ≠ 0 → v < 2 ^ 64 →
        findLeadingOne64 v = (Nat.log2 v : Int) ∧ Nat.log2 v ≤ 63) ∧
      (∀ r : Nat, v < 2 ^ 64 → 2 ^ r ≤ v → v < 2 ^ (r + 1) →
        findLeadingOne64 v = (r : Int) ∧ r ≤ 63) ∧
      findLeadingOne64 0 = -1 := by
  have hr63 : ∀ r : Nat, v < 2 ^ 64 → 2 ^ r ≤ v → r ≤ 63 := by
    intro r hv h1
    have hlt : 2 ^ r < 2 ^ 64 := lt_of_le_of_lt h1 hv
    have := (Nat.pow_lt_pow_iff_right (by decide : 1 < 2)).mp hlt
    omega
  refine ⟨?_, ?_, ?_, ?_, ?_, ?_, ?_⟩
  · intro hne
    exact ⟨Nat.log2_self_le hne, Nat.lt_log2_self⟩
  · intro hne hv
    exact findLeadingOne_of_high_bit v _ i hv (Nat.log2_self_le hne) Nat.lt_log2_self
  · intro r hv h1 h2
    exact findLeadingOne_of_high_bit v r i hv h1 h2
  · simp [findLeadingOne, findLeadingOneStep]
  · intro hne hv
    exact ⟨findLeadingOne64_of_high_bit v _ hv (Nat.log2_self_le hne) Nat.lt_log2_self,
      hr63 _ hv (Nat.log2_self_le hne)⟩
  · intro r hv h1 h2
    exact ⟨findLeadingOne64_of_high_bit v r hv h1 h2, hr63 r hv h1⟩
  · simp [findLeadingOne64, findLeadingOne, findLeadingOneStep]

/-! ### Watch lists -/

/-- Being a watch list depends on the `next` of the node in front and on the watchers of
the list only. -/
theorem WatchList_congr (h h1 : WatchHeap) :
    ∀ (ws : List Nat) (before : Nat), (h1 before).next = (h before).next →
      (∀ a ∈ ws, h1 a = h a) → WatchList h before ws → WatchList h1 before ws := by
  intro ws
  induction ws with
  | nil =>
    intro before hn _ hl
    simp only [WatchList] at hl ⊢
    rw [hn, hl]
  | cons w ws ih =>
    intro before hn hsame hl
    obtain ⟨hw0, hnext, hprev, hrest⟩ := hl
    have hw : h1 w = h w := hsame w (List.mem_cons_self _ _)
    refine ⟨hw0, by rw [hn, hnext], by rw [hw, hprev], ?_⟩
    exact ih w (by rw [hw]) (fun a ha => hsame a (List.mem_cons_of_mem _ ha)) hrest

/-- One run of the body of the loop of `nullReferencesTo` on a watcher whose `prev` is the
node at `before`. -/
theorem nullReferencesLoop_step (fuel : Nat) (h : WatchHeap) (w before : Nat) (hw : w ≠ 0)
    (hb : before ≠ 0) (hne : before ≠ w) (hprev : (h w).prev = before) :
    nullReferencesLoop (fuel + 1) h w
      = nullReferencesLoop fuel
          (fun a => if a = w then ⟨0, (h w).next, 0⟩
            else if a = before then { h before with next := 0 } else h a)
          (h w).next := by
  rw [nullReferencesLoop]
  simp only [hw, if_false]
  have hheap : heapSet
      (if (heapSet h w { h w with ptr := 0 } w).prev ≠ 0 then
        heapSet (heapSet h w { h w with ptr := 0 })
          (heapSet h w { h w with ptr := 0 } w).prev
          { heapSet h w { h w with ptr := 0 } (heapSet h w { h w with ptr := 0 } w).prev with
            next := 0 }
      else heapSet h w { h w with ptr := 0 }) w
      { (if (heapSet h w { h w with ptr := 0 } w).prev ≠ 0 then
          heapSet (heapSet h w { h w with ptr := 0 })
            (heapSet h w { h w with ptr := 0 } w).prev
            { heapSet h w { h w with ptr := 0 } (heapSet h w { h w with ptr := 0 } w).prev with
              next := 0 }
        else heapSet h w { h w with ptr := 0 }) w with prev := 0 }
      = (fun a => if a = w then ⟨0, (h w).next, 0⟩
          else if a = before then { h before with next := 0 } else h a) := by
    funext a
    by_cases ha : a = w
    · subst ha
      simp [heapSet, hprev, hb, Ne.symm hne, hne]
    · by_cases hab : a = before
      · subst hab
        simp [heapSet, hprev, hb, ha, hne]
      · simp [heapSet, hprev, hb, ha, hab, hne]
  rw [hheap]
  simp

/-- The loop of `nullReferencesTo`, started at the first watcher of a watch list of `n`
watchers with at least `n` units of fuel, ends; it clears every watcher of the list and the
`next` of the node in front, and writes nothing else. -/
theorem nullReferencesLoop_spec :
    ∀ (ws : List Nat) (before : Nat) (h : WatchHeap) (fuel : Nat), before ≠ 0 →
      WatchList h before ws → (before :: ws).Nodup → ws.length ≤ fuel →
      ∃ h1, nullReferencesLoop fuel h (h before).next = some h1 ∧
        h1 before = { h before with next := 0 } ∧
        (∀ w ∈ ws, h1 w = ⟨0, 0, 0⟩) ∧
        (∀ a, a ∉ before :: ws → h1 a = h a) := by
  intro ws
  induction ws with
  | nil =>
    intro before h fuel _ hl _ _
    simp only [WatchList] at hl
    refine ⟨h, ?_, ?_, ?_, fun a _ => rfl⟩
    · rw [hl, nullReferencesLoop.eq_def]
      simp
    · rw [← hl]
    · intro w hw
      simp at hw
  | cons w ws ih =>
    intro before h fuel hb hl hnd hfuel
    obtain ⟨hw0, hnext, hprev, hrest⟩ := hl
    obtain ⟨f, rfl⟩ : ∃ f, fuel = f + 1 :=
      ⟨fuel - 1, by simp only [List.length_cons] at hfuel; omega⟩
    have hbw : before ≠ w := by
      intro e
      rw [e] at hnd
      simp at hnd
    have hnd1 : (w :: ws).Nodup := (List.nodup_cons.mp hnd).2
    have hbws : before ∉ ws := fun hmem =>
      (List.nodup_cons.mp hnd).1 (List.mem_cons_of_mem _ hmem)
    have hwws : w ∉ ws := (List.nodup_cons.mp hnd1).1
    rw [hnext, nullReferencesLoop_step f h w before hw0 hb hbw hprev]
    set h3 : WatchHeap := fun a => if a = w then ⟨0, (h w).next, 0⟩
      else if a = before then { h before with next := 0 } else h a with hh3
    have h3w : h3 w = ⟨0, (h w).next, 0⟩ := by simp [hh3]
    have hlist3 : WatchList h3 w ws := by
      apply WatchList_congr h h3 ws w (by rw [h3w]) _ hrest
      intro a ha
      have h1 : a ≠ w := fun e => hwws (e ▸ ha)
      have h2 : a ≠ before := fun e => hbws (e ▸ ha)
      simp [hh3, h1, h2]
    obtain ⟨h1, hrun, hw1, hws1, hother⟩ := ih w h3 f hw0 hlist3 hnd1
      (by simp only [List.length_cons] at hfuel; omega)
    have hrun2 : nullReferencesLoop f h3 (h w).next = some h1 := by
      rw [← hrun, h3w]
    refine ⟨h1, hrun2, ?_, ?_, ?_⟩
    · rw [hother before (by
        intro hmem
        rcases List.mem_cons.mp hmem with e | e
        · exact hbw e
        · exact hbws e)]
      simp [hh3, hbw]
    · intro a ha
      rcases List.mem_cons.mp ha with e | e
      · rw [e, hw1, h3w]
      · exact hws1 a e
    · intro a ha
      have h1a : a ≠ before := fun e => ha (e ▸ List.mem_cons_self _ _)
      have h2a : a ≠ w := fun e =>
        ha (List.mem_cons_of_mem _ (e ▸ List.mem_cons_self _ _))
      have h3a : a ∉ ws := fun hmem =>
        ha (List.mem_cons_of_mem _ (List.mem_cons_of_mem _ hmem))
      rw [hother a (by
        intro hmem
        rcases List.mem_cons.mp hmem with e | e
        · exact h2a e
        · exact h3a e)]
      simp [hh3, h1a, h2a]

/-- C27: for every subject whose watch list is a well-formed doubly linked list of `n >= 0`
watchers, `Watchable::nullReferencesTo()` terminates (`n` units of fuel are enough) and
leaves every one of those watchers with `ptr = NULL`, `prev = NULL` and `next = NULL`, and
the list head of the subject with `next = NULL`; no watcher is skipped and nothing else is
written. -/
theorem C27_nullReferencesTo (h : WatchHeap) (p : Nat) (ws : List Nat) (fuel : Nat)
    (hp : p ≠ 0) (hlist : WatchList h p ws) (hnodup : (p :: ws).Nodup)
    (hfuel : ws.length ≤ fuel) :
    ∃ h1, nullReferencesTo fuel h p = some h1 ∧
      (h1 p).next = 0 ∧
      (∀ w ∈ ws, (h1 w).ptr = 0 ∧ (h1 w).prev = 0 ∧ (h1 w).next = 0) ∧
      h1 p = { h p with next := 0 } ∧
      (∀ a, a ∉ p :: ws → h1 a = h a) := by
  obtain ⟨h1, hrun, hhead, hws, hother⟩ :=
    nullReferencesLoop_spec ws p h fuel hp hlist hnodup hfuel
  refine ⟨h1, hrun, by rw [hhead], ?_, hhead, hother⟩
  intro w hw
  rw [hws w hw]
  exact ⟨rfl, rfl, rfl⟩

/-- Witness of C27: a subject at address 1 watched by the watchers at 2 and 3. -/
theorem C27_nullReferencesTo_witness :
    ∃ h1, nullReferencesTo 2
        (fun a => if a = 1 then ⟨0, 2, 0⟩ else if a = 2 then ⟨1, 3, 1⟩
          else if a = 3 then ⟨1, 0, 2⟩ else ⟨0, 0, 0⟩) 1 = some h1 ∧
      (h1 1).next = 0 ∧ h1 2 = ⟨0, 0, 0⟩ ∧ h1 3 = ⟨0, 0, 0⟩ := by
  obtain ⟨h1, hrun, hhead, hws, -, -⟩ := C27_nullReferencesTo
    (fun a => if a = 1 then ⟨0, 2, 0⟩ else if a = 2 then ⟨1, 3, 1⟩
      else if a = 3 then ⟨1, 0, 2⟩ else ⟨0, 0, 0⟩) 1 [2, 3] 2 (by decide)
    ⟨by decide, rfl, rfl, by decide, rfl, rfl, rfl⟩ (by decide) (by decide)
  have h2 := hws 2 (by decide)
  have h3 := hws 3 (by decide)
  refine ⟨h1, hrun, hhead, ?_, ?_⟩
  · cases hn : h1 2 with
    | mk a b c =>
      rw [hn] at h2
      simp only at h2
      obtain ⟨rfl, rfl, rfl⟩ := h2
      rfl
  · cases hn : h1 3 with
    | mk a b c =>
      rw [hn] at h3
      simp only at h3
      obtain ⟨rfl, rfl, rfl⟩ := h3
      rfl

/-- The memory after `w.link(p)` on a subject without watchers. -/
theorem link_heap_nil (h : WatchHeap) (p w : Nat) (hp : p ≠ 0) (hwp : w ≠ p)
    (hprev : (h w).prev = 0) (hnext : (h w).next = 0) (hpn : (h p).next = 0) :
    link h w p = (fun a => if a = p then { h p with next := w }
      else if a = w then ⟨p, 0, p⟩ else h a, true) := by
  have hpw : p ≠ w := Ne.symm hwp
  simp only [link, hp, ne_eq, not_false_eq_true, if_true]
  refine Prod.ext ?_ ?_
  · funext a
    by_cases ha : a = p
    · subst ha
      simp [heapSet, hpw, hpn]
    · by_cases haw : a = w
      · subst haw
        simp [heapSet, hpw, hwp, hpn]
      · simp [heapSet, ha, haw, hpw, hpn]
  · simp [heapSet, hprev, hnext]

/-- The memory after `w.link(p)` on a subject whose first watcher is `w1`. -/
theorem link_heap_cons (h : WatchHeap) (p w w1 : Nat) (hp : p ≠ 0) (hwp : w ≠ p)
    (hw1 : w1 ≠ 0) (hw1p : w1 ≠ p) (hw1w : w1 ≠ w)
    (hprev : (h w).prev = 0) (hnext : (h w).next = 0) (hpn : (h p).next = w1) :
    link h w p = (fun a => if a = p then { h p with next := w }
      else if a = w1 then { h w1 with prev := w }
      else if a = w then ⟨p, w1, p⟩ else h a, true) := by
  have hpw : p ≠ w := Ne.symm hwp
  simp only [link, hp, ne_eq, not_false_eq_true, if_true]
  refine Prod.ext ?_ ?_
  · funext a
    by_cases ha : a = p
    · subst ha
      simp [heapSet, hpw, hpn, hw1, Ne.symm hw1p]
    · by_cases ha1 : a = w1
      · subst ha1
        simp [heapSet, hpw, hpn, hw1, hw1p, hw1w]
      · by_cases haw : a = w
        · subst haw
          simp [heapSet, hpw, hwp, hpn, hw1, hw1w, Ne.symm hw1w]
        · simp [heapSet, ha, ha1, haw, hpw, hpn, hw1]
  · simp [heapSet, hprev, hnext]

/-- Writing back the `next` a watcher has leaves the watcher as it is. -/
theorem watch_ptr_base_next_eta (n : watch_ptr_base) (x : Nat) (hx : n.next = x) :
    ({ ptr := n.ptr, next := x, prev := n.prev } : watch_ptr_base) = n := by
  cases n
  simp only at hx
  rw [hx]

/-- Writing back the `prev` a watcher has leaves the watcher as it is. -/
theorem watch_ptr_base_prev_eta (n : watch_ptr_base) (x : Nat) (hx : n.prev = x) :
    ({ ptr := n.ptr, next := n.next, prev := x } : watch_ptr_base) = n := by
  cases n
  simp only at hx
  rw [hx]

/-- The memory after `w.unlink()` for a watcher between the distinct nodes at `q` and `n`
(`n` may be `NULL`). -/
theorem unlink_heap (g : WatchHeap) (w n q : Nat) (hn : (g w).next = n) (hq : (g w).prev = q)
    (hq0 : q ≠ 0) (hqw : q ≠ w) (hnw : n ≠ w) (hnq : n ≠ q) :
    unlink g w = fun a => if a = w then ⟨0, 0, 0⟩
      else if a = q then { ptr := (g q).ptr, next := n, prev := (g q).prev }
      else if a = n ∧ n ≠ 0 then { ptr := (g n).ptr, next := (g n).next, prev := q }
      else g a := by
  funext a
  have hwn : w ≠ n := Ne.symm hnw
  have hwq : w ≠ q := Ne.symm hqw
  have hqn : q ≠ n := Ne.symm hnq
  by_cases hn0 : n = 0
  · by_cases haw : a = w
    · simp [unlink, heapSet, hn, hq, hn0, haw]
    · by_cases haq : a = q
      · simp [unlink, heapSet, hn, hq, hn0, haw, haq, hq0, hqw]
      · simp [unlink, heapSet, hn, hq, hn0, haw, haq, hq0]
  · by_cases haw : a = w
    · simp [unlink, heapSet, hn, hq, hn0, haw]
    · by_cases haq : a = q
      · simp [unlink, heapSet, hn, hq, hn0, haw, haq, hq0, hqw, hwn, hqn]
      · by_cases han : a = n
        · simp [unlink, heapSet, hn, hq, hn0, haw, haq, han, hq0, hqw, hwn, hnw, hnq]
        · simp [unlink, heapSet, hn, hq, hn0, haw, haq, han, hq0, hqw, hwn, hnw, hnq]

/-- C22: for a subject `p` with a well-formed doubly linked watch list and a watcher `w`
outside it with `prev = next = NULL`, `w.link(p)` passes its assertions and inserts `w`
directly after the list head of `p`, with `ptr = p`; a following `w.unlink()` removes it
again: every watcher of the list and the list head are as before the link, so the list of
`p` holds the same watchers in the same order with consistent links, and `w` is left with
`ptr = prev = next = NULL`. -/
theorem C22_link_unlink (h : WatchHeap) (p w : Nat) (ws : List Nat) (hp : p ≠ 0)
    (hw : w ≠ 0) (hlist : WatchList h p ws) (hnodup : (p :: ws).Nodup)
    (hout : w ∉ p :: ws) (hprev : (h w).prev = 0) (hnext : (h w).next = 0) :
    (link h w p).2 = true ∧
      WatchList (link h w p).1 p (w :: ws) ∧
      ((link h w p).1 w).ptr = p ∧
      WatchList (unlink (link h w p).1 w) p ws ∧
      (∀ a, a ≠ w → unlink (link h w p).1 w a = h a) ∧
      unlink (link h w p).1 w w = ⟨0, 0, 0⟩ := by
  have hwp : w ≠ p := fun e => hout (e ▸ List.mem_cons_self _ _)
  have hpw : p ≠ w := Ne.symm hwp
  have hwws : w ∉ ws := fun hmem => hout (List.mem_cons_of_mem _ hmem)
  have hpws : p ∉ ws := (List.nodup_cons.mp hnodup).1
  have hback : ∀ hU : WatchHeap, (∀ a, a ≠ w → hU a = h a) → WatchList hU p ws := by
    intro hU hsame
    apply WatchList_congr h hU ws p (by rw [hsame p hpw]) _ hlist
    intro a ha
    exact hsame a (fun e => hwws (e ▸ ha))
  cases ws with
  | nil =>
    have hpn : (h p).next = 0 := hlist
    rw [link_heap_nil h p w hp hwp hprev hnext hpn]
    simp only
    rw [unlink_heap _ w 0 p (by simp [hwp]) (by simp [hwp]) hp hpw (Ne.symm hw) (Ne.symm hp)]
    have hsame : ∀ a, a ≠ w → (fun a => if a = w then (⟨0, 0, 0⟩ : watch_ptr_base)
        else if a = p then
          { ptr := ((fun a => if a = p then { h p with next := w }
              else if a = w then ⟨p, 0, p⟩ else h a) p).ptr,
            next := 0,
            prev := ((fun a => if a = p then { h p with next := w }
              else if a = w then ⟨p, 0, p⟩ else h a) p).prev }
        else if a = 0 ∧ (0 : Nat) ≠ 0 then
          { ptr := ((fun a => if a = p then { h p with next := w }
              else if a = w then ⟨p, 0, p⟩ else h a) 0).ptr,
            next := ((fun a => if a = p then { h p with next := w }
              else if a = w then ⟨p, 0, p⟩ else h a) 0).next,
            prev := p }
        else (fun a => if a = p then { h p with next := w }
          else if a = w then ⟨p, 0, p⟩ else h a) a) a = h a := by
      intro a ha
      by_cases hap : a = p
      · rw [hap]
        simp only [hpw, if_false, if_true]
        exact watch_ptr_base_next_eta (h p) 0 hpn
      · simp [ha, hap]
    refine ⟨trivial, ?_, ?_, hback _ hsame, hsame, ?_⟩
    · refine ⟨hw, ?_, ?_, ?_⟩
      · simp
      · simp [hwp]
      · simp [WatchList, hwp]
    · simp [hwp]
    · simp
  | cons w1 ws1 =>
    obtain ⟨hw10, hpn, hw1prev, hrest⟩ := hlist
    have hw1p : w1 ≠ p := fun e => hpws (e ▸ List.mem_cons_self _ _)
    have hw1w : w1 ≠ w := fun e => hwws (e ▸ List.mem_cons_self _ _)
    have hw1ws : w1 ∉ ws1 := (List.nodup_cons.mp (List.nodup_cons.mp hnodup).2).1
    rw [link_heap_cons h p w w1 hp hwp hw10 hw1p hw1w hprev hnext hpn]
    simp only
    rw [unlink_heap _ w w1 p (by simp [hwp, Ne.symm hw1w]) (by simp [hwp, Ne.symm hw1w])
      hp hpw hw1w hw1p]
    have hsame : ∀ a, a ≠ w → (fun a => if a = w then (⟨0, 0, 0⟩ : watch_ptr_base)
        else if a = p then
          { ptr := ((fun a => if a = p then { h p with next := w }
              else if a = w1 then { h w1 with prev := w }
              else if a = w then ⟨p, w1, p⟩ else h a) p).ptr,
            next := w1,
            prev := ((fun a => if a = p then { h p with next := w }
              else if a = w1 then { h w1 with prev := w }
              else if a = w then ⟨p, w1, p⟩ else h a) p).prev }
        else if a = w1 ∧ w1 ≠ 0 then
          { ptr := ((fun a => if a = p then { h p with next := w }
              else if a = w1 then { h w1 with prev := w }
              else if a = w then ⟨p, w1, p⟩ else h a) w1).ptr,
            next := ((fun a => if a = p then { h p with next := w }
              else if a = w1 then { h w1 with prev := w }
              else if a = w then ⟨p, w1, p⟩ else h a) w1).next,
            prev := p }
        else (fun a => if a = p then { h p with next := w }
          else if a = w1 then { h w1 with prev := w }
          else if a = w then ⟨p, w1, p⟩ else h a) a) a = h a := by
      intro a ha
      by_cases hap : a = p
      · rw [hap]
        simp only [hpw, if_false, if_true]
        exact watch_ptr_base_next_eta (h p) w1 hpn
      · by_cases ha1 : a = w1
        · rw [ha1]
          simp only [hw1w, hw1p, hw10, if_false, if_true, ne_eq, not_false_eq_true, and_self]
          exact watch_ptr_base_prev_eta (h w1) p hw1prev
        · simp [ha, hap, ha1]
    refine ⟨trivial, ?_, ?_, hback _ hsame, hsame, ?_⟩
    · refine ⟨hw, ?_, ?_, hw10, ?_, ?_, ?_⟩
      · simp
      · simp [hwp, Ne.symm hw1w]
      · simp [hwp, Ne.symm hw1w]
      · simp [hw1p]
      · apply WatchList_congr h _ ws1 w1 _ _ hrest
        · simp [hw1p]
        · intro a ha
          have h1 : a ≠ p := fun e => hpws (e ▸ List.mem_cons_of_mem _ ha)
          have h2 : a ≠ w1 := fun e => hw1ws (e ▸ ha)
          have h3 : a ≠ w := fun e => hwws (e ▸ List.mem_cons_of_mem _ ha)
          simp [h1, h2, h3]
    · simp [hwp, Ne.symm hw1w]
    · simp

/-- Witness of C22: a subject at address 1 watched by the watcher at 2; the watcher at 5 is
linked and unlinked. -/
theorem C22_link_unlink_witness :
    (link (fun a => if a = 1 then ⟨0, 2, 0⟩ else if a = 2 then ⟨1, 0, 1⟩ else ⟨0, 0, 0⟩)
        5 1).2 = true ∧
      unlink (link (fun a => if a = 1 then ⟨0, 2, 0⟩ else if a = 2 then ⟨1, 0, 1⟩
        else ⟨0, 0, 0⟩) 5 1).1 5 2 = ⟨1, 0, 1⟩ ∧
      unlink (link (fun a => if a = 1 then ⟨0, 2, 0⟩ else if a = 2 then ⟨1, 0, 1⟩
        else ⟨0, 0, 0⟩) 5 1).1 5 5 = ⟨0, 0, 0⟩ := by
  obtain ⟨h1, -, -, -, h5, h6⟩ := C22_link_unlink
    (fun a => if a = 1 then ⟨0, 2, 0⟩ else if a = 2 then ⟨1, 0, 1⟩ else ⟨0, 0, 0⟩) 1 5 [2]
    (by decide) (by decide) ⟨by decide, rfl, rfl, rfl⟩ (by decide) (by decide) rfl rfl
  exact ⟨h1, h5 2 (by decide), h6⟩

/-! ### Flipping an image -/

/-- A pixel index determines its row and its column. -/
theorem pixel_index_inj (w x y x1 y1 : Nat) (hx : x < w) (hx1 : x1 < w)
    (h : y * w + x = y1 * w + x1) : y = y1 ∧ x = x1 := by
  have hw : 0 < w := by omega
  have e1 : (y * w + x) / w = y := by
    rw [Nat.add_comm, Nat.add_mul_div_right _ _ hw, Nat.div_eq_of_lt hx, Nat.zero_add]
  have e2 : (y1 * w + x1) / w = y1 := by
    rw [Nat.add_comm, Nat.add_mul_div_right _ _ hw, Nat.div_eq_of_lt hx1, Nat.zero_add]
  have hy : y = y1 := by rw [← e1, ← e2, h]
  subst hy
  exact ⟨rfl, by omega⟩

/-- A pixel of an image of `w` by `h` pixels has an index below `w * h`. -/
theorem pixel_index_lt (w h x y : Nat) (hx : x < w) (hy : y < h) : y * w + x < w * h := by
  have h1 : (y + 1) * w ≤ h * w := Nat.mul_le_mul_right w hy
  have h2 : (y + 1) * w = y * w + w := by ring
  have h3 : h * w = w * h := Nat.mul_comm h w
  omega

/-- The body of the inner loop on two indices inside the array. -/
theorem swapPix_inside (pix : List Nat) (a b : Nat) (ha : a < pix.length)
    (hb : b < pix.length) :
    swapPix pix (a : Int) (b : Int)
      = some ((pix.set a (pix.getD b 0)).set b (pix.getD a 0)) := by
  have hc : 0 ≤ (a : Int) ∧ (a : Int) < (pix.length : Int) ∧ 0 ≤ (b : Int)
      ∧ (b : Int) < (pix.length : Int) := by
    refine ⟨by omega, by omega, by omega, by omega⟩
  simp only [swapPix, hc, and_self, if_true, Int.toNat_ofNat]

/-- Reading an index inside the array. -/
theorem getElem?_eq_some_getD (p : List Nat) (a : Nat) (ha : a < p.length) :
    p[a]? = some (p.getD a 0) := by
  rw [List.getD_eq_getElem?_getD, List.getElem?_eq_getElem ha]
  rfl

/-- One run of the body of the inner loop of `invert_image`: the column `j` of the row `k`
and of its mirror row is flipped. -/
theorem invert_step (orig : List Nat) (w h k j : Nat) (p : List Nat) (hk : 2 * k + 2 ≤ h)
    (hj : j < w) (hinv : InvertState orig w h k j p) :
    ∃ p1, swapPix p ((k : Int) * (w : Int) + (j : Int))
        (((h : Int) - (k : Int) - 1) * (w : Int) + (j : Int)) = some p1 ∧
      InvertState orig w h k (j + 1) p1 := by
  obtain ⟨hlen, hpix⟩ := hinv
  have htop : k * w + j < p.length := by
    rw [hlen]
    exact pixel_index_lt w h j k hj (by omega)
  have hbot : (h - 1 - k) * w + j < p.length := by
    rw [hlen]
    exact pixel_index_lt w h j (h - 1 - k) hj (by omega)
  have hne : k * w + j ≠ (h - 1 - k) * w + j := by
    intro e
    have := (pixel_index_inj w j k j (h - 1 - k) hj hj e).1
    omega
  have e1 : (k : Int) * (w : Int) + (j : Int) = ((k * w + j : Nat) : Int) := by
    push_cast
    ring
  have e2 : ((h : Int) - (k : Int) - 1) * (w : Int) + (j : Int)
      = (((h - 1 - k) * w + j : Nat) : Int) := by
    have e3 : ((h - 1 - k : Nat) : Int) = (h : Int) - (k : Int) - 1 := by omega
    push_cast
    rw [e3]
  rw [e1, e2, swapPix_inside p _ _ htop hbot]
  have vtop : p[k * w + j]? = orig[k * w + j]? := by
    rw [hpix j k hj (by omega), if_neg (by omega)]
  have vbot : p[(h - 1 - k) * w + j]? = orig[(h - 1 - k) * w + j]? := by
    rw [hpix j (h - 1 - k) hj (by omega), if_neg (by omega)]
  refine ⟨_, rfl, by simp only [List.length_set, hlen], ?_⟩
  intro x y hx hy
  by_cases hb : y = h - 1 - k ∧ x = j
  · obtain ⟨rfl, rfl⟩ := hb
    rw [List.getElem?_set_self (by rw [List.length_set]; exact hbot),
      ← getElem?_eq_some_getD p _ htop, vtop, if_pos (by omega)]
    have : h - 1 - (h - 1 - k) = k := by omega
    rw [this]
  · have hnb : (h - 1 - k) * w + j ≠ y * w + x := by
      intro e
      have := pixel_index_inj w j (h - 1 - k) x y hj hx e
      exact hb ⟨this.1.symm, this.2.symm⟩
    rw [List.getElem?_set_ne hnb]
    by_cases ht : y = k ∧ x = j
    · obtain ⟨rfl, rfl⟩ := ht
      rw [List.getElem?_set_self htop, ← getElem?_eq_some_getD p _ hbot, vbot,
        if_pos (by omega)]
    · have hnt : k * w + j ≠ y * w + x := by
        intro e
        have := pixel_index_inj w j k x y hj hx e
        exact ht ⟨this.1.symm, this.2.symm⟩
      rw [List.getElem?_set_ne hnt, hpix x y hx hy]
      by_cases hc : y < k ∨ h - k ≤ y ∨ ((y = k ∨ y = h - 1 - k) ∧ x < j)
      · rw [if_pos hc, if_pos (by omega)]
      · rw [if_neg hc, if_neg (by omega)]

/-- The inner loop of `invert_image` up to the column `j`. -/
theorem invertRow_columns (orig : List Nat) (w h k : Nat) (p : List Nat) (hk : 2 * k + 2 ≤ h)
    (hinv : InvertState orig w h k 0 p) :
    ∀ j, j ≤ w →
      ∃ p1, (List.range j).foldlM
          (fun q (x : Nat) => swapPix q ((k : Int) * (w : Int) + (x : Int))
            (((h : Int) - (k : Int) - 1) * (w : Int) + (x : Int))) p = some p1 ∧
        InvertState orig w h k j p1 := by
  intro j
  induction j with
  | zero =>
    intro _
    exact ⟨p, rfl, hinv⟩
  | succ j ih =>
    intro hj
    obtain ⟨p1, hrun, hinv1⟩ := ih (by omega)
    obtain ⟨p2, hstep, hinv2⟩ := invert_step orig w h k j p1 hk (by omega) hinv1
    refine ⟨p2, ?_, hinv2⟩
    rw [List.range_succ, List.foldlM_append, hrun]
    simp [hstep]

/-- A row that is done: the state after the last column of the row `k` is the state before
the first column of the row `k + 1`. -/
theorem InvertState_next_row (orig : List Nat) (w h k : Nat) (p : List Nat)
    (hk : 2 * k + 2 ≤ h) (hinv : InvertState orig w h k w p) :
    InvertState orig w h (k + 1) 0 p := by
  obtain ⟨hlen, hpix⟩ := hinv
  refine ⟨hlen, ?_⟩
  intro x y hx hy
  rw [hpix x y hx hy]
  by_cases hc : y < k ∨ h - k ≤ y ∨ ((y = k ∨ y = h - 1 - k) ∧ x < w)
  · rw [if_pos hc, if_pos (by omega)]
  · rw [if_neg hc, if_neg (by omega)]

/-- The outer loop of `invert_image` up to the row `k`. -/
theorem invert_image_rows (orig : List Nat) (w h : Nat) (hlen : orig.length = w * h) :
    ∀ k, 2 * k ≤ h →
      ∃ p1, (List.range k).foldlM (fun q (y : Nat) => invertRow (w : Int) (h : Int) y q) orig
          = some p1 ∧
        InvertState orig w h k 0 p1 := by
  intro k
  induction k with
  | zero =>
    intro _
    refine ⟨orig, rfl, hlen, ?_⟩
    intro x y _ hy
    rw [if_neg (by omega)]
  | succ k ih =>
    intro hk
    obtain ⟨p1, hrun, hinv1⟩ := ih (by omega)
    obtain ⟨p2, hrow, hinv2⟩ := invertRow_columns orig w h k p1 (by omega) hinv1 w (le_refl _)
    refine ⟨p2, ?_, InvertState_next_row orig w h k p2 (by omega) hinv2⟩
    rw [List.range_succ, List.foldlM_append, hrun]
    simp [invertRow, hrow]

/-- The function `invert_image` on an array of `w * h` pixels stays inside the array and
returns the image flipped vertically. -/
theorem invert_image_flips (pix : List Nat) (w h : Nat) (hlen : pix.length = w * h) :
    ∃ p1, invert_image pix (w : Int) (h : Int) = some p1 ∧ p1.length = w * h ∧
      ∀ x y, x < w → y < h → p1[y * w + x]? = pix[(h - 1 - y) * w + x]? := by
  have hhalf : (Int.tdiv (h : Int) 2).toNat = h / 2 := by
    rw [Int.tdiv_eq_ediv (by omega) (by decide)]
    omega
  obtain ⟨p1, hrun, hl, hpix⟩ := invert_image_rows pix w h hlen (h / 2) (by omega)
  refine ⟨p1, ?_, hl, ?_⟩
  · simp only [invert_image, hhalf, hrun]
  · intro x y hx hy
    rw [hpix x y hx hy]
    by_cases hc : y < h / 2 ∨ h - h / 2 ≤ y ∨ ((y = h / 2 ∨ y = h - 1 - h / 2) ∧ x < 0)
    · rw [if_pos hc]
    · rw [if_neg hc]
      have : h - 1 - y = y := by omega
      rw [this]

/-- C30: for every `width >= 0`, `height >= 0` and pixel array of `width * height` entries,
`invert_image` touches no index outside the array and flips the image vertically:
afterwards the pixel at `(x, y)` is the original pixel at `(x, height - 1 - y)` for all
`0 <= x < width`, `0 <= y < height` (the middle row of an odd height is unchanged), and
applying `invert_image` twice restores the original array. -/
theorem C30_invert_image (pix : List Nat) (width height : Int) (hw : 0 ≤ width)
    (hh : 0 ≤ height) (hlen : (pix.length : Int) = width * height) :
    ∃ p1, invert_image pix width height = some p1 ∧ p1.length = pix.length ∧
      (∀ x y : Nat, (x : Int) < width → (y : Int) < height →
        p1[y * width.toNat + x]? = pix[(height.toNat - 1 - y) * width.toNat + x]?) ∧
      (∀ x : Nat, (x : Int) < width → height % 2 = 1 →
        p1[(height.toNat / 2) * width.toNat + x]?
          = pix[(height.toNat / 2) * width.toNat + x]?) ∧
      invert_image p1 width height = some pix := by
  obtain ⟨w, rfl⟩ := Int.eq_ofNat_of_zero_le hw
  obtain ⟨h, rfl⟩ := Int.eq_ofNat_of_zero_le hh
  have hl : pix.length = w * h := by exact_mod_cast hlen
  obtain ⟨p1, hrun, hl1, hpix⟩ := invert_image_flips pix w h hl
  obtain ⟨p2, hrun2, hl2, hpix2⟩ := invert_image_flips p1 w h hl1
  have hback : p2 = pix := by
    apply List.ext_getElem?
    intro n
    by_cases hn : n < w * h
    · have hwpos : 0 < w := by
        rcases Nat.eq_zero_or_pos w with e | e
        · rw [e] at hn
          simp at hn
        · exact e
      have hx : n % w < w := Nat.mod_lt _ hwpos
      have hy : n / w < h := Nat.div_lt_of_lt_mul hn
      have hidx : n / w * w + n % w = n := by
        rw [Nat.mul_comm]
        exact Nat.div_add_mod n w
      generalize n / w = r at hy hidx
      generalize n % w = c at hx hidx
      have e1 := hpix2 c r hx hy
      have e2 := hpix c (h - 1 - r) hx (by omega)
      have e3 : h - 1 - (h - 1 - r) = r := by omega
      rw [hidx] at e1
      rw [e3, hidx] at e2
      rw [e1, e2]
    · rw [List.getElem?_eq_none (by omega), List.getElem?_eq_none (by omega)]
  refine ⟨p1, hrun, by rw [hl1, hl], ?_, ?_, by rw [hrun2, hback]⟩
  · intro x y hx hy
    simp only [Int.toNat_ofNat]
    exact hpix x y (by omega) (by omega)
  · intro x hx hodd
    simp only [Int.toNat_ofNat]
    have hy : h / 2 < h := by omega
    have e := hpix x (h / 2) (by omega) hy
    have e3 : h - 1 - h / 2 = h / 2 := by omega
    rw [e3] at e
    exact e

/-- Witness of C30: an image of two columns and three rows. -/
theorem C30_invert_image_witness :
    invert_image [1, 2, 3, 4, 5, 6] 2 3 = some [5, 6, 3, 4, 1, 2] ∧
      invert_image [5, 6, 3, 4, 1, 2] 2 3 = some [1, 2, 3, 4, 5, 6] := by
  obtain ⟨p1, h1, -, -, -, h5⟩ :=
    C30_invert_image [1, 2, 3, 4, 5, 6] 2 3 (by decide) (by decide) (by decide)
  have e : invert_image [1, 2, 3, 4, 5, 6] 2 3 = some [5, 6, 3, 4, 1, 2] := by decide
  rw [e] at h1
  have : p1 = [5, 6, 3, 4, 1, 2] := (Option.some.inj h1).symm
  rw [this] at h5
  exact ⟨e, h5⟩

/-! ### The counters of the memory pools -/

/-- C26, the code at the failing input: a head pool of one chunk (block at 1000) serves
1000, the overflow pool made by the second `allocate` (block at 2000) serves 2000;
`deallocate(2000)` on the head then puts the chunk 2000, which is outside the block of the
head, on the free list of the head and lowers `used` of the head to `0` although its own
chunk 1000 is still handed out, while `used` of the overflow pool stays `1`. -/
theorem C26_deallocate_overflow_chunk_on_head :
    (MemoryPool.create { element_size := 8 } 1 [1000]).2.1
        = { element_size := 8, count := 1, pool := 1000, first := [1000] } ∧
      MemoryPool.allocate 1 [{ element_size := 8, count := 1, pool := 1000, first := [1000] }] []
        = AllocResult.ok 1000
            [{ element_size := 8, count := 1, pool := 1000, first := [], used := 1 }] [] ∧
      MemoryPool.allocate 2
          [{ element_size := 8, count := 1, pool := 1000, first := [], used := 1 }] [2000]
        = AllocResult.ok 2000
            [{ element_size := 8, count := 1, pool := 1000, first := [], used := 1 },
              { element_size := 8, count := 1, pool := 2000, first := [], used := 1,
                index := 1 }] [] ∧
      MemoryPool.deallocate
          [{ element_size := 8, count := 1, pool := 1000, first := [], used := 1 },
            { element_size := 8, count := 1, pool := 2000, first := [], used := 1,
              index := 1 }] 2000
        = [{ element_size := 8, count := 1, pool := 1000, first := [2000], used := 0 },
            { element_size := 8, count := 1, pool := 2000, first := [], used := 1,
              index := 1 }] ∧
      ¬ (1000 ≤ 2000 ∧ 2000 < 1000 + 1 * 8) := by
  refine ⟨by decide, by decide, by decide, by decide, by decide⟩

end Outlaws
